import Mathlib

/-! Rule-composition expressions and their evaluator.

A shallow embedding of `src/mod/RC.cpp` (the expression algebra `mod::RCExp`
and its textual rendering) and of the evaluator declared in
`src/mod/lib/RC/Evaluator.h`.

Conventions of the embedding

* A `std::shared_ptr<T>` is an `Option T`: `none` is the null pointer and
  `some x` points to the object `x`.  Pointer identity is equality in `T`.
* A constructor that can throw or trip an `assert` is a function into
  `Except Error _`; `assert` is modelled as checked.
* A `std::ostream` is the text written so far together with the sticky
  `boolalpha` format flag.  An operation whose behaviour is undefined in C++
  (dereferencing a null pointer, `front()` of an empty vector) yields `none`.
* `operator<<` for `mod::Graph` and `mod::Rule` is declared in `mod/Graph.h`
  and `mod/Rule.h`, not in `RC.cpp`; both are parameters `pg : G → String` and
  `pr : R → String` giving the text they append.
-/

namespace RCExp

/-! ## Failure modes of the constructors -/

/-- The two ways a constructor of `RC.cpp` can fail: a thrown `LogicError`
carrying its message, or a failed `assert`. -/
inductive Error where
  | logicError (msg : String)
  | assertion
deriving DecidableEq, Repr

/-! ## Output streams -/

/-- The part of a `std::ostream` the printers depend on. -/
structure OStream where
  buf : String
  boolalpha : Bool
deriving DecidableEq, Repr

namespace OStream

/-- `s << "text"`. -/
def write (s : OStream) (t : String) : OStream :=
  { s with buf := s.buf ++ t }

/-- `s << std::boolalpha`. -/
def setBoolalpha (s : OStream) : OStream :=
  { s with boolalpha := true }

/-- The text `s << b` writes for a `bool`, depending on the format flag. -/
def boolText (alpha b : Bool) : String :=
  if alpha then (if b then "true" else "false") else (if b then "1" else "0")

/-- `s << b` for a `bool`. -/
def writeBool (s : OStream) (b : Bool) : OStream :=
  s.write (boolText s.boolalpha b)

/-- A fresh stream: nothing written, default formatting. -/
def empty : OStream := ⟨"", false⟩

end OStream

/-! ## The node classes -/

/-- `class Union`: the member `exps`. -/
structure Union (E : Type) where
  exps : List E
deriving DecidableEq, Repr

/-- `class Bind`: the member `g`. -/
structure Bind (G : Type) where
  g : Option G
deriving DecidableEq, Repr

/-- `class Id`: the member `g`. -/
structure Id (G : Type) where
  g : Option G
deriving DecidableEq, Repr

/-- `class Unbind`: the member `g`. -/
structure Unbind (G : Type) where
  g : Option G
deriving DecidableEq, Repr

/-- `class ComposeBase`: the members `first`, `second`, `discardNonchemical`. -/
structure ComposeBase (E : Type) where
  first : E
  second : E
  discardNonchemical : Bool
deriving DecidableEq, Repr

/-- `class ComposeCommon : ComposeBase`. -/
structure ComposeCommon (E : Type) extends ComposeBase E where
  maximum : Bool
  connected : Bool
deriving DecidableEq, Repr

/-- `class ComposeParallel : ComposeBase`. -/
structure ComposeParallel (E : Type) extends ComposeBase E where
deriving DecidableEq, Repr

/-- `class ComposeSub : ComposeBase`. -/
structure ComposeSub (E : Type) extends ComposeBase E where
  allowPartial : Bool
deriving DecidableEq, Repr

/-- `class ComposeSuper : ComposeBase`. -/
structure ComposeSuper (E : Type) extends ComposeBase E where
  allowPartial : Bool
  enforceConstraints : Bool
deriving DecidableEq, Repr

/-- `class Expression`: the variant `data` over a rule pointer and the eight
node classes. -/
inductive Expression (G R : Type) where
  | rule (r : Option R)
  | union (u : Union (Expression G R))
  | bind (b : Bind G)
  | id (i : Id G)
  | unbind (u : Unbind G)
  | composeCommon (c : ComposeCommon (Expression G R))
  | composeParallel (c : ComposeParallel (Expression G R))
  | composeSub (c : ComposeSub (Expression G R))
  | composeSuper (c : ComposeSuper (Expression G R))

/-! ## Constructors and accessors -/

/-- `Union::Union(std::vector<Expression> exps)`. -/
def Union.new {E : Type} (exps : List E) : Except Error (Union E) :=
  if exps.isEmpty then
    .error (.logicError "A parallel RC expression must be non-empty.\n")
  else
    .ok ⟨exps⟩

/-- `Union::getExpressions`. -/
def Union.getExpressions {E : Type} (u : Union E) : List E := u.exps

/-- `Bind::Bind(std::shared_ptr<mod::Graph> g)`. -/
def Bind.new {G : Type} (g : Option G) : Except Error (Bind G) :=
  if g.isSome then .ok ⟨g⟩ else .error .assertion

/-- `Bind::getGraph`. -/
def Bind.getGraph {G : Type} (b : Bind G) : Option G := b.g

/-- `Id::Id(std::shared_ptr<mod::Graph> g)`. -/
def Id.new {G : Type} (g : Option G) : Except Error (Id G) :=
  if g.isSome then .ok ⟨g⟩ else .error .assertion

/-- `Id::getGraph`. -/
def Id.getGraph {G : Type} (i : Id G) : Option G := i.g

/-- `Unbind::Unbind(std::shared_ptr<mod::Graph> g)`. -/
def Unbind.new {G : Type} (g : Option G) : Except Error (Unbind G) :=
  if g.isSome then .ok ⟨g⟩ else .error .assertion

/-- `Unbind::getGraph`. -/
def Unbind.getGraph {G : Type} (u : Unbind G) : Option G := u.g

/-- `ComposeBase::getFirst`. -/
def ComposeBase.getFirst {E : Type} (c : ComposeBase E) : E := c.first

/-- `ComposeBase::getSecond`. -/
def ComposeBase.getSecond {E : Type} (c : ComposeBase E) : E := c.second

/-- `ComposeBase::getDiscardNonchemical`. -/
def ComposeBase.getDiscardNonchemical {E : Type} (c : ComposeBase E) : Bool :=
  c.discardNonchemical

/-- `ComposeCommon::ComposeCommon(first, second, discardNonchemical, maximum, connected)`. -/
def ComposeCommon.new {E : Type} (first second : E)
    (discardNonchemical maximum connected : Bool) : ComposeCommon E :=
  { first := first, second := second, discardNonchemical := discardNonchemical,
    maximum := maximum, connected := connected }

/-- `ComposeCommon::getMaxmimum` (spelled as in the source). -/
def ComposeCommon.getMaxmimum {E : Type} (c : ComposeCommon E) : Bool := c.maximum

/-- `ComposeCommon::getConnected`. -/
def ComposeCommon.getConnected {E : Type} (c : ComposeCommon E) : Bool := c.connected

/-- `ComposeParallel::ComposeParallel(first, second, discardNonchemical)`. -/
def ComposeParallel.new {E : Type} (first second : E)
    (discardNonchemical : Bool) : ComposeParallel E :=
  { first := first, second := second, discardNonchemical := discardNonchemical }

/-- `ComposeSub::ComposeSub(first, second, discardNonchemical, allowPartial)`. -/
def ComposeSub.new {E : Type} (first second : E)
    (discardNonchemical allowPartial : Bool) : ComposeSub E :=
  { first := first, second := second, discardNonchemical := discardNonchemical,
    allowPartial := allowPartial }

/-- `ComposeSub::getAllowPartial`. -/
def ComposeSub.getAllowPartial {E : Type} (c : ComposeSub E) : Bool := c.allowPartial

/-- `ComposeSuper::ComposeSuper(first, second, discardNonchemical, allowPartial,
enforceConstraints)`. -/
def ComposeSuper.new {E : Type} (first second : E)
    (discardNonchemical allowPartial enforceConstraints : Bool) : ComposeSuper E :=
  { first := first, second := second, discardNonchemical := discardNonchemical,
    allowPartial := allowPartial, enforceConstraints := enforceConstraints }

/-- `ComposeSuper::getAllowPartial`. -/
def ComposeSuper.getAllowPartial {E : Type} (c : ComposeSuper E) : Bool := c.allowPartial

/-- `ComposeSuper::getEnforceConstraints`. -/
def ComposeSuper.getEnforceConstraints {E : Type} (c : ComposeSuper E) : Bool :=
  c.enforceConstraints

namespace Expression

variable {G R : Type}

/-- `Expression::Expression(std::shared_ptr<mod::Rule> r)`. -/
def ofRule (r : Option R) : Except Error (Expression G R) :=
  if r.isSome then .ok (.rule r) else .error .assertion

/-- `Expression::Expression(Union u)`. -/
def ofUnion (u : Union (Expression G R)) : Expression G R := .union u

/-- `Expression::Expression(Bind bind)`. -/
def ofBind (b : Bind G) : Expression G R := .bind b

/-- `Expression::Expression(Id id)`. -/
def ofId (i : Id G) : Expression G R := .id i

/-- `Expression::Expression(Unbind unbind)`. -/
def ofUnbind (u : Unbind G) : Expression G R := .unbind u

/-- `Expression::Expression(ComposeCommon compose)`. -/
def ofComposeCommon (c : ComposeCommon (Expression G R)) : Expression G R :=
  .composeCommon c

/-- `Expression::Expression(ComposeParallel compose)`. -/
def ofComposeParallel (c : ComposeParallel (Expression G R)) : Expression G R :=
  .composeParallel c

/-- `Expression::Expression(ComposeSub compose)`. -/
def ofComposeSub (c : ComposeSub (Expression G R)) : Expression G R :=
  .composeSub c

/-- `Expression::Expression(ComposeSuper compose)`. -/
def ofComposeSuper (c : ComposeSuper (Expression G R)) : Expression G R :=
  .composeSuper c

end Expression

/-! ## Textual rendering -/

section Printing

variable {G R : Type}

/-- `operator<<(std::ostream&, const Bind&)`: `s << "bind(" << *b.g << ")"`. -/
def Bind.output (pg : G → String) (b : Bind G) (s : OStream) : Option OStream :=
  match b.g with
  | none => none
  | some g => some (((s.write "bind(").write (pg g)).write ")")

/-- `operator<<(std::ostream&, const Id&)`: `s << "id(" << *i.g << ")"`. -/
def Id.output (pg : G → String) (i : Id G) (s : OStream) : Option OStream :=
  match i.g with
  | none => none
  | some g => some (((s.write "id(").write (pg g)).write ")")

/-- `operator<<(std::ostream&, const Unbind&)`: `s << "bind(" << *u.g << ")"`. -/
def Unbind.output (pg : G → String) (u : Unbind G) (s : OStream) : Option OStream :=
  match u.g with
  | none => none
  | some g => some (((s.write "bind(").write (pg g)).write ")")

/-- `ComposeCommon::print`. -/
def ComposeCommon.print {E : Type} (c : ComposeCommon E) (s : OStream) : OStream :=
  ((((s.write "rcCommon(maximum=").setBoolalpha.writeBool c.maximum).write
    ", connected=").writeBool c.connected).write ", "

/-- `ComposeParallel::print`. -/
def ComposeParallel.print {E : Type} (_c : ComposeParallel E) (s : OStream) : OStream :=
  s.write "rcParallel("

/-- `ComposeSub::print`. -/
def ComposeSub.print {E : Type} (c : ComposeSub E) (s : OStream) : OStream :=
  (((s.write "rcSub(allowPartial=").setBoolalpha.writeBool c.allowPartial).write ", ")

/-- `ComposeSuper::print`. -/
def ComposeSuper.print {E : Type} (c : ComposeSuper E) (s : OStream) : OStream :=
  ((((s.write "rcSuper(allowPartial=").setBoolalpha.writeBool c.allowPartial).write
    ", enforceConstraints=").writeBool c.enforceConstraints).write ", "

/-- The tail of `operator<<(std::ostream&, const ComposeBase&)` once the first
operand, `" *"` and the virtual `print` have been written: everything up to,
but not including, the second operand. -/
def ComposeBase.outputFlag (discardNonchemical : Bool) (s : OStream) : OStream :=
  (((s.write "discardNonchemical=").setBoolalpha).writeBool discardNonchemical).write ")* "

mutual
/-- `operator<<(std::ostream&, const Expression&)`: the visitor prints the
pointee of a rule pointer and otherwise forwards to the node's own
`operator<<`. -/
def Expression.output (pg : G → String) (pr : R → String) :
    Expression G R → OStream → Option OStream
  | .rule none, _ => none
  | .rule (some r), s => some (s.write (pr r))
  | .union u, s => Union.output pg pr u s
  | .bind b, s => Bind.output pg b s
  | .id i, s => Id.output pg i s
  | .unbind u, s => Unbind.output pg u s
  | .composeCommon ⟨b, m, c⟩, s =>
    ComposeBase.output pg pr (ComposeCommon.print ⟨b, m, c⟩) b s
  | .composeParallel ⟨b⟩, s =>
    ComposeBase.output pg pr (ComposeParallel.print ⟨b⟩) b s
  | .composeSub ⟨b, p⟩, s =>
    ComposeBase.output pg pr (ComposeSub.print ⟨b, p⟩) b s
  | .composeSuper ⟨b, p, e⟩, s =>
    ComposeBase.output pg pr (ComposeSuper.print ⟨b, p, e⟩) b s
/-- `operator<<(std::ostream&, const Union&)`: `"{"`, the front element, the
loop over the elements from index 1, `"}"`. -/
def Union.output (pg : G → String) (pr : R → String) :
    Union (Expression G R) → OStream → Option OStream
  | ⟨[]⟩, _ => none
  | ⟨e :: es⟩, s =>
    match Expression.output pg pr e (s.write "\x7b") with
    | none => none
    | some s1 =>
      match Union.outputLoop pg pr es s1 with
      | none => none
      | some s2 => some (s2.write "\x7d")
/-- The loop `for(i = 1; i < size; i++) s << ", " << par.exps[i]`, over the
elements after the front one. -/
def Union.outputLoop (pg : G → String) (pr : R → String) :
    List (Expression G R) → OStream → Option OStream
  | [], s => some s
  | e :: es, s =>
    match Expression.output pg pr e (s.write ", ") with
    | none => none
    | some s1 => Union.outputLoop pg pr es s1
/-- `operator<<(std::ostream&, const ComposeBase&)`; `print` is the virtual
`print` of the dynamic type. -/
def ComposeBase.output (pg : G → String) (pr : R → String)
    (print : OStream → OStream) :
    ComposeBase (Expression G R) → OStream → Option OStream
  | ⟨first, second, d⟩, s =>
    match Expression.output pg pr first s with
    | none => none
    | some s1 =>
      Expression.output pg pr second
        (ComposeBase.outputFlag d (print (s1.write " *")))
end

/-- The text an expression renders to on a fresh stream. -/
def Expression.render (pg : G → String) (pr : R → String) (e : Expression G R) :
    Option String :=
  (Expression.output pg pr e OStream.empty).map OStream.buf

end Printing

end RCExp

namespace RCExp

/-! ## Values the constructors can build -/

/-- The expressions that can be built with the constructors of `RC.cpp`: each
rule of this predicate is one constructor call that returned normally, on
operands that were themselves built that way. -/
inductive Expression.Constructed {G R : Type} : Expression G R → Prop where
  | ofRule {r : Option R} {e : Expression G R} :
      Expression.ofRule r = .ok e → Constructed e
  | ofUnion {exps : List (Expression G R)} {u : Union (Expression G R)} :
      (∀ e ∈ exps, Constructed e) → Union.new exps = .ok u →
      Constructed (Expression.ofUnion u)
  | ofBind {g : Option G} {b : Bind G} :
      Bind.new g = .ok b → Constructed (Expression.ofBind b)
  | ofId {g : Option G} {i : Id G} :
      Id.new g = .ok i → Constructed (Expression.ofId i)
  | ofUnbind {g : Option G} {u : Unbind G} :
      Unbind.new g = .ok u → Constructed (Expression.ofUnbind u)
  | ofComposeCommon {f s : Expression G R} (d m c : Bool) :
      Constructed f → Constructed s →
      Constructed (Expression.ofComposeCommon (ComposeCommon.new f s d m c))
  | ofComposeParallel {f s : Expression G R} (d : Bool) :
      Constructed f → Constructed s →
      Constructed (Expression.ofComposeParallel (ComposeParallel.new f s d))
  | ofComposeSub {f s : Expression G R} (d p : Bool) :
      Constructed f → Constructed s →
      Constructed (Expression.ofComposeSub (ComposeSub.new f s d p))
  | ofComposeSuper {f s : Expression G R} (d p e : Bool) :
      Constructed f → Constructed s →
      Constructed (Expression.ofComposeSuper (ComposeSuper.new f s d p e))

end RCExp

/-! ## The evaluator

`src/mod/lib/RC/Evaluator.h` declares the evaluator's state and interface; the
bodies of its member functions live in `Evaluator.cpp` and are modelled from
the specification (§3, §4.2 to §4.4, §6).  The identity oracle,
the composition oracle and the primitive rule constructors are external
collaborators and enter as the fields of `Oracles`. -/

namespace RC

open RCExp

/-- `enum class VertexKind`. -/
inductive VertexKind where
  | Rule
  | Composition
deriving DecidableEq, Repr

/-- `enum class EdgeKind`. -/
inductive EdgeKind where
  | First
  | Second
  | Result
deriving DecidableEq, Repr

/-- `struct VProp`: the kind of a vertex and its rule pointer (null on a
composition vertex). -/
structure VProp (R : Type) where
  kind : VertexKind
  rule : Option R
deriving DecidableEq, Repr

/-- `struct EProp`. -/
structure EProp where
  kind : EdgeKind
deriving DecidableEq, Repr

/-- A vertex descriptor of a `vecS` graph: the index of the vertex. -/
abbrev Vertex := Nat

/-- An edge of the graph: source, target and bundled property. -/
structure Edge where
  source : Vertex
  target : Vertex
  prop : EProp
deriving DecidableEq, Repr

/-- `GraphType`: a `boost::adjacency_list` with vector storage, as the list of
its vertex properties (indexed by descriptor) and the list of its edges. -/
structure GraphType (R : Type) where
  vertices : List (VProp R)
  edges : List Edge
deriving DecidableEq, Repr

/-- The data members of `struct Evaluator`.  The two sets are lists in
iteration order, the two maps are finite partial functions. -/
structure Evaluator (R : Type) where
  database : List R
  products : List R
  rcg : GraphType R
  ruleToVertex : R → Option Vertex
  argsToVertex : R × R → Option Vertex

/-- Modelled from the spec: the policy (operator kind and flags) handed to the
composition oracle in §6; the oracle's interface is missing from the sources. -/
inductive Policy where
  | common (discardNonchemical maximum connected : Bool)
  | parallel (discardNonchemical : Bool)
  | sub (discardNonchemical allowPartial : Bool)
  | super (discardNonchemical allowPartial enforceConstraints : Bool)
deriving DecidableEq, Repr

/-- Modelled from the spec: `CompositionError` of §6, the failure a composition
oracle reports; its declaration is missing from the sources. -/
structure CompositionError where
  msg : String
deriving DecidableEq, Repr

/-- Modelled from the spec: `EvalError` of §6 and §7, whose declaration is
missing from the sources: a failure of the composition oracle, or an
expression holding a null pointer (which no constructor of `RCExp` builds). -/
inductive EvalError where
  | composition (e : CompositionError)
  | nullReference
deriving DecidableEq, Repr

/-- Modelled from the spec: the external collaborators of §6, whose
declarations are missing from the sources: the identity oracle, the
composition oracle and the three primitive rule constructors. -/
structure Oracles (G R : Type) where
  areIsomorphic : R → R → Bool
  compose : R → R → Policy → Except CompositionError (List R)
  bind : G → R
  identity : G → R
  unbind : G → R

/-- Modelled from the spec: the set union of result sets in §4.4 (the code of
`eval` is missing from the sources), on duplicate-free lists: the elements of
`xs` not yet present are appended to `acc`. -/
def unite {R : Type} [DecidableEq R] (acc xs : List R) : List R :=
  acc ++ xs.filter (fun x => decide (x ∉ acc))

namespace Evaluator

variable {G R : Type} [DecidableEq R]

/-- The evaluator state with the given database, no products and an empty
derivation graph; `construct` starts from the one with the empty database. -/
def new (database : List R) : Evaluator R :=
  { database := database, products := [], rcg := ⟨[], []⟩,
    ruleToVertex := fun _ => none, argsToVertex := fun _ => none }

/-- `Evaluator::getRuleDatabase`. -/
def getRuleDatabase (σ : Evaluator R) : List R := σ.database

/-- `Evaluator::getProducts`. -/
def getProducts (σ : Evaluator R) : List R := σ.products

/-- `Evaluator::getGraph`. -/
def getGraph (σ : Evaluator R) : GraphType R := σ.rcg

/-- Modelled from the spec: the body of `Evaluator::addRule`, missing from the
sources; the header documents it as "adds a rule to the database, returns
true iff it was a new rule".  Insertion into the set `database` of §3, where
adding a rule that is isomorphic to an existing member is a no-op. -/
def addRule (O : Oracles G R) (σ : Evaluator R) (r : R) : Bool × Evaluator R :=
  if r ∈ σ.database then (false, σ)
  else
    match σ.database.find? (fun m => O.areIsomorphic m r) with
    | some _ => (false, σ)
    | none => (true, { σ with database := σ.database ++ [r] })

/-- Modelled from the spec: the body of `Evaluator::giveProductStatus`
(`markAsProduct` in §4.2), missing from the sources: adds a rule, assumed
already canonical, to the products set; idempotent.  The products are a set of
§3, where adding a rule that is isomorphic to an existing member is a
no-op. -/
def giveProductStatus (O : Oracles G R) (σ : Evaluator R) (r : R) : Evaluator R :=
  if r ∈ σ.products then σ
  else
    match σ.products.find? (fun m => O.areIsomorphic m r) with
    | some _ => σ
    | none => { σ with products := σ.products ++ [r] }

/-- Modelled from the spec: the body of `Evaluator::checkIfNew`, missing from
the sources; the header documents it as: searches the database for an
isomorphic rule, returns the database rule if found and the candidate
otherwise, and does not add to the database. -/
def checkIfNew (O : Oracles G R) (σ : Evaluator R) (rCand : R) : R :=
  match σ.database.find? (fun m => O.areIsomorphic m rCand) with
  | some m => m
  | none => rCand

/-- Modelled from the spec: `intern` of §4.2, missing from the sources.  The
database is queried for a member isomorphic to the candidate; if one is found
it is returned and nothing changes, otherwise the candidate is inserted into
the database and returned. -/
def intern (O : Oracles G R) (σ : Evaluator R) (candidate : R) : R × Evaluator R :=
  match σ.database.find? (fun m => O.areIsomorphic m candidate) with
  | some m => (m, σ)
  | none => (candidate, (σ.addRule O candidate).2)

/-- Modelled from the spec: the body of `Evaluator::Evaluator(database)`,
missing from the sources.  The evaluator starts with no products and an empty
derivation graph; `intern` is the only path by which rules enter the database
(§4.2), so the caller's rules are interned one after the other. -/
def construct (O : Oracles G R) (database : List R) : Evaluator R :=
  database.foldl (fun σ r => (σ.intern O r).2) (Evaluator.new [])

/-- `add_vertex(rcg)` with the given property: the new descriptor is the
number of vertices so far. -/
def addVertex (σ : Evaluator R) (p : VProp R) : Vertex × Evaluator R :=
  (σ.rcg.vertices.length,
    { σ with rcg := { σ.rcg with vertices := σ.rcg.vertices ++ [p] } })

/-- `add_edge(source, target, {kind}, rcg)`. -/
def addEdge (σ : Evaluator R) (source target : Vertex) (kind : EdgeKind) :
    Evaluator R :=
  { σ with rcg := { σ.rcg with edges := σ.rcg.edges ++ [⟨source, target, ⟨kind⟩⟩] } }

/-- Modelled from the spec: the body of `Evaluator::getVertexFromRule`
(`vertexFor(rule)` in §4.3), missing from the sources: the existing rule
vertex of a rule, or a newly created one. -/
def getVertexFromRule (σ : Evaluator R) (r : R) : Vertex × Evaluator R :=
  match σ.ruleToVertex r with
  | some v => (v, σ)
  | none =>
    let (v, σ1) := σ.addVertex ⟨.Rule, some r⟩
    (v, { σ1 with ruleToVertex := Function.update σ1.ruleToVertex r (some v) })

/-- Modelled from the spec: `vertexFor(operand1, operand2)` of §4.3, missing
from the sources: the composition vertex recorded for this ordered pair, or a
miss.  The key of `argsToVertex` is the ordered pair. -/
def vertexForArgs (σ : Evaluator R) (rFirst rSecond : R) : Option Vertex :=
  σ.argsToVertex (rFirst, rSecond)

/-- Modelled from the spec: reading the rule of a rule vertex (§3), for the
graph code missing from the sources: the `rule` property at a descriptor. -/
def ruleAt (σ : Evaluator R) (v : Vertex) : Option R :=
  (σ.rcg.vertices.get? v).bind VProp.rule

/-- Modelled from the spec: the recorded result set of a composition vertex
(§4.3, §4.4 step 2a), for the cache code missing from the sources: the rules
at the targets of its `Result` edges, in the order the edges were added. -/
def resultsOf (σ : Evaluator R) (vComp : Vertex) : List R :=
  σ.rcg.edges.filterMap (fun e =>
    if e.source = vComp ∧ e.prop.kind = EdgeKind.Result then σ.ruleAt e.target else none)

/-- Modelled from the spec: one result of `recordComposition` in §4.3, missing
from the sources: the candidate is
interned, its canonical rule gets a rule vertex, and unless that rule is
already among the results a `Result` edge is added to it. -/
def recordResult (O : Oracles G R) (vComp : Vertex)
    (st : List R × Evaluator R) (candidate : R) : List R × Evaluator R :=
  let (c, σ1) := st.2.intern O candidate
  let (vResult, σ2) := σ1.getVertexFromRule c
  if c ∈ st.1 then (st.1, σ2)
  else (st.1 ++ [c], σ2.addEdge vComp vResult .Result)

/-- Modelled from the spec: the new composition vertex of `recordComposition`
in §4.3, missing from the sources: a vertex of kind
`Composition` with a `First` edge to `vFirst` and a `Second` edge to
`vSecond`, entered into `argsToVertex` under the ordered pair of operands. -/
def addComposition (σ : Evaluator R) (rFirst rSecond : R) (vFirst vSecond : Vertex) :
    Vertex × Evaluator R :=
  let (vComp, σ1) := σ.addVertex ⟨.Composition, none⟩
  let σ2 := (σ1.addEdge vComp vFirst .First).addEdge vComp vSecond .Second
  (vComp, { σ2 with
    argsToVertex := Function.update σ2.argsToVertex (rFirst, rSecond) (some vComp) })

/-- Modelled from the spec: `recordComposition(operand1, operand2, results)`
of §4.3, missing from the sources.  A new composition vertex is created with
`First` and `Second` edges to the operand vertices and entered into
`argsToVertex`; every result is interned and linked by a `Result` edge; the
set of canonical results is returned. -/
def recordComposition (O : Oracles G R) (σ : Evaluator R) (rFirst rSecond : R)
    (results : List R) : List R × Evaluator R :=
  let (vFirst, σ1) := σ.getVertexFromRule rFirst
  let (vSecond, σ2) := σ1.getVertexFromRule rSecond
  let (vComp, σ3) := σ2.addComposition rFirst rSecond vFirst vSecond
  results.foldl (recordResult O vComp) ([], σ3)

/-- Modelled from the spec: step 2 of `Compose` in §4.4 for one ordered pair,
missing from the sources.  On a cache hit the recorded result set is taken; on
a miss the composition oracle is invoked and the composition recorded. -/
def composePair (O : Oracles G R) (policy : Policy) (σ : Evaluator R) (r1 r2 : R) :
    Except EvalError (List R) × Evaluator R :=
  match σ.vertexForArgs r1 r2 with
  | some v => (.ok (σ.resultsOf v), σ)
  | none =>
    match O.compose r1 r2 policy with
    | .error e => (.error (.composition e), σ)
    | .ok results =>
      let (rs, σ1) := σ.recordComposition O r1 r2 results
      (.ok rs, σ1)

/-- Modelled from the spec: the inner loop of step 2 of `Compose` in §4.4,
missing from the sources: the pairs `(r1, r2)` for a fixed `r1` and every `r2`
of the second set, accumulating the union of their results; the first failure
aborts (§7). -/
def composeRow (O : Oracles G R) (policy : Policy) (r1 : R) :
    List R → List R → Evaluator R → Except EvalError (List R) × Evaluator R
  | [], acc, σ => (.ok acc, σ)
  | r2 :: rest, acc, σ =>
    match composePair O policy σ r1 r2 with
    | (.error e, σ1) => (.error e, σ1)
    | (.ok rs, σ1) => composeRow O policy r1 rest (unite acc rs) σ1

/-- Modelled from the spec: steps 2 and 3 of `Compose` in §4.4, missing from
the sources: every ordered pair of the cross product, the union of all pairs'
result sets. -/
def composeAll (O : Oracles G R) (policy : Policy) :
    List R → List R → List R → Evaluator R → Except EvalError (List R) × Evaluator R
  | [], _, acc, σ => (.ok acc, σ)
  | r1 :: rest, s2, acc, σ =>
    match composeRow O policy r1 s2 acc σ with
    | (.error e, σ1) => (.error e, σ1)
    | (.ok acc1, σ1) => composeAll O policy rest s2 acc1 σ1

/-- Modelled from the spec: the `Terminal` and `Bind/Identity/Unbind` cases of
§4.4, missing from the sources, once the rule is at hand: intern it and return
the singleton set. -/
def evalRule (O : Oracles G R) (σ : Evaluator R) (r : R) :
    Except EvalError (List R) × Evaluator R :=
  let (c, σ1) := σ.intern O r
  (.ok [c], σ1)

mutual
/-- Modelled from the spec: the body of `Evaluator::eval` (`evaluate` of
§4.4), missing from the sources, by node kind. -/
def eval (O : Oracles G R) :
    Expression G R → Evaluator R → Except EvalError (List R) × Evaluator R
  | .rule none, σ => (.error .nullReference, σ)
  | .rule (some r), σ => evalRule O σ r
  | .union ⟨exps⟩, σ => evalUnion O exps [] σ
  | .bind ⟨none⟩, σ => (.error .nullReference, σ)
  | .bind ⟨some g⟩, σ => evalRule O σ (O.bind g)
  | .id ⟨none⟩, σ => (.error .nullReference, σ)
  | .id ⟨some g⟩, σ => evalRule O σ (O.identity g)
  | .unbind ⟨none⟩, σ => (.error .nullReference, σ)
  | .unbind ⟨some g⟩, σ => evalRule O σ (O.unbind g)
  | .composeCommon ⟨b, m, c⟩, σ =>
    evalCompose O (.common b.discardNonchemical m c) b σ
  | .composeParallel ⟨b⟩, σ =>
    evalCompose O (.parallel b.discardNonchemical) b σ
  | .composeSub ⟨b, p⟩, σ =>
    evalCompose O (.sub b.discardNonchemical p) b σ
  | .composeSuper ⟨b, p, e⟩, σ =>
    evalCompose O (.super b.discardNonchemical p e) b σ
/-- Modelled from the spec: the `Union` case of §4.4, missing from the
sources: the children are evaluated in list order, accumulating the union of
their result sets; the first failure aborts (§7). -/
def evalUnion (O : Oracles G R) :
    List (Expression G R) → List R → Evaluator R →
      Except EvalError (List R) × Evaluator R
  | [], acc, σ => (.ok acc, σ)
  | e :: es, acc, σ =>
    match eval O e σ with
    | (.error err, σ1) => (.error err, σ1)
    | (.ok rs, σ1) => evalUnion O es (unite acc rs) σ1
/-- Modelled from the spec: the `Compose` case of §4.4, missing from the
sources: both operands are evaluated, then every pair of the cross product is
composed. -/
def evalCompose (O : Oracles G R) (policy : Policy) :
    ComposeBase (Expression G R) → Evaluator R →
      Except EvalError (List R) × Evaluator R
  | ⟨first, second, _⟩, σ =>
    match eval O first σ with
    | (.error err, σ1) => (.error err, σ1)
    | (.ok s1, σ1) =>
      match eval O second σ1 with
      | (.error err, σ2) => (.error err, σ2)
      | (.ok s2, σ2) => composeAll O policy s1 s2 [] σ2
end

end Evaluator

end RC

/-! ## Reachable states and invariants of the evaluator -/

namespace RC

open RCExp

namespace Evaluator

variable {G R : Type} [DecidableEq R]

/-- One call of the interface an evaluator offers its callers: `eval`,
`addRule` or `giveProductStatus`, with arbitrary arguments. -/
inductive Step (O : Oracles G R) : Evaluator R → Evaluator R → Prop where
  | eval (σ : Evaluator R) (e : Expression G R) : Step O σ (eval O e σ).2
  | addRule (σ : Evaluator R) (r : R) : Step O σ (σ.addRule O r).2
  | giveProductStatus (σ : Evaluator R) (r : R) : Step O σ (σ.giveProductStatus O r)

/-- The states an evaluator constructed on `database` can reach. -/
inductive Reachable (O : Oracles G R) (database : List R) : Evaluator R → Prop where
  | new : Reachable O database (construct O database)
  | step {σ σ' : Evaluator R} :
      Reachable O database σ → Step O σ σ' → Reachable O database σ'

/-- State `σ'` is `σ` after any number of further calls on the same
evaluator. -/
inductive Evolves (O : Oracles G R) : Evaluator R → Evaluator R → Prop where
  | refl (σ : Evaluator R) : Evolves O σ σ
  | step {σ σ' σ'' : Evaluator R} :
      Evolves O σ σ' → Step O σ' σ'' → Evolves O σ σ''

/-- In the history of the evaluator constructed on `database` that leads to
state `σ`, expression `e` has been evaluated and returned the set `X`. -/
def Evaluated (O : Oracles G R) (database : List R) (e : Expression G R)
    (X : List R) (σ : Evaluator R) : Prop :=
  ∃ σ0, Reachable O database σ0 ∧ (eval O e σ0).1 = .ok X ∧
    Evolves O (eval O e σ0).2 σ

/-- Vertex `v` is a composition vertex with a `First` edge to a vertex of rule
`a` and a `Second` edge to a vertex of rule `b`: it records the composition of
the ordered pair `(a, b)`. -/
def IsCompositionFor (σ : Evaluator R) (v : Vertex) (a b : R) : Prop :=
  (σ.rcg.vertices.get? v).map VProp.kind = some VertexKind.Composition ∧
  (∃ e ∈ σ.rcg.edges,
    e.source = v ∧ e.prop.kind = EdgeKind.First ∧ σ.ruleAt e.target = some a) ∧
  (∃ e ∈ σ.rcg.edges,
    e.source = v ∧ e.prop.kind = EdgeKind.Second ∧ σ.ruleAt e.target = some b)

instance (σ : Evaluator R) (v : Vertex) (a b : R) : Decidable (σ.IsCompositionFor v a b) :=
  inferInstanceAs (Decidable (_ ∧ _ ∧ _))

/-- Consistency of the derivation graph with its two lookup tables. -/
structure CacheInv (σ : Evaluator R) : Prop where
  edges_lt : ∀ e ∈ σ.rcg.edges,
    e.source < σ.rcg.vertices.length ∧ e.target < σ.rcg.vertices.length
  rule_vertex : ∀ r v, σ.ruleToVertex r = some v →
    σ.rcg.vertices.get? v = some ⟨VertexKind.Rule, some r⟩
  args_vertex : ∀ a b v, σ.argsToVertex (a, b) = some v → σ.IsCompositionFor v a b
  args_complete : ∀ v a b, σ.IsCompositionFor v a b → σ.argsToVertex (a, b) = some v
  args_injective : ∀ k k' v,
    σ.argsToVertex k = some v → σ.argsToVertex k' = some v → k = k'

/-- No two distinct members of the list are isomorphic. -/
def IsoFree (O : Oracles G R) (l : List R) : Prop :=
  ∀ x ∈ l, ∀ y ∈ l, O.areIsomorphic x y = true → x = y

instance (O : Oracles G R) (l : List R) : Decidable (IsoFree O l) :=
  inferInstanceAs (Decidable (∀ x ∈ l, ∀ y ∈ l, O.areIsomorphic x y = true → x = y))

end Evaluator

end RC

/-! ## Concrete oracles for worked examples -/

namespace RC

namespace Evaluator

/-- Rules are numbers, isomorphic when they have the same parity; composing
two rules yields their sum. -/
def parityOracles : Oracles Nat Nat :=
  { areIsomorphic := fun a b => a % 2 == b % 2
    compose := fun a b _ => .ok [a + b]
    bind := fun g => g
    identity := fun g => g
    unbind := fun g => g }

/-- Rules are numbers, isomorphic when their last decimal digits agree;
composing `a` with `b` yields the single rule `100 * a + 1000 * b + 3`, so
isomorphic operands have isomorphic results. -/
def lastDigitOracles : Oracles Nat Nat :=
  { areIsomorphic := fun a b => a % 10 == b % 10
    compose := fun a b _ => .ok [100 * a + 1000 * b + 3]
    bind := fun g => g
    identity := fun g => g
    unbind := fun g => g }

end Evaluator

end RC

namespace RC

namespace Evaluator

variable {G R : Type} [DecidableEq R]

/-- The database and the products are each duplicate-free up to
isomorphism. -/
def DatabaseInv (O : Oracles G R) (σ : Evaluator R) : Prop :=
  IsoFree O σ.database ∧ IsoFree O σ.products

end Evaluator

end RC

namespace RC

open RCExp

namespace Evaluator

variable {G R : Type} [DecidableEq R]

/-- State `σ'` extends state `σ`: the database and the vertex list have only
grown at the end, every new edge leaves a vertex that `σ` does not have, and
no entry of the two lookup tables has changed. -/
structure Ext (σ σ' : Evaluator R) : Prop where
  database : σ.database <+: σ'.database
  vertices : σ.rcg.vertices <+: σ'.rcg.vertices
  edges : ∃ es, σ'.rcg.edges = σ.rcg.edges ++ es ∧
    ∀ e ∈ es, σ.rcg.vertices.length ≤ e.source
  ruleToVertex : ∀ r v, σ.ruleToVertex r = some v → σ'.ruleToVertex r = some v
  argsToVertex : ∀ k v, σ.argsToVertex k = some v → σ'.argsToVertex k = some v

/-- The cache of `σ` holds the result set `rs` for the ordered pair
`(r1, r2)`. -/
def Cached (σ : Evaluator R) (r1 r2 : R) (rs : List R) : Prop :=
  ∃ v, σ.vertexForArgs r1 r2 = some v ∧ σ.resultsOf v = rs

end Evaluator

/-- The `discardNonchemical` flag of a policy. -/
def Policy.discardNonchemical : Policy → Bool
  | .common d _ _ => d
  | .parallel d => d
  | .sub d _ => d
  | .super d _ _ => d

/-- The `Compose` expression of the given kind and flags over two operands,
built with the constructor of its class. -/
def composeOf {G R : Type} (policy : Policy) (first second : Expression G R) :
    Expression G R :=
  match policy with
  | .common d m c => Expression.ofComposeCommon (ComposeCommon.new first second d m c)
  | .parallel d => Expression.ofComposeParallel (ComposeParallel.new first second d)
  | .sub d p => Expression.ofComposeSub (ComposeSub.new first second d p)
  | .super d p e => Expression.ofComposeSuper (ComposeSuper.new first second d p e)

end RC

namespace RC

open RCExp

namespace Evaluator

variable {G R : Type} [DecidableEq R]

/-- Evaluating `e` is settled once it has succeeded: in every later state of
the same evaluator it returns the same result set and changes nothing. -/
def StableEval (O : Oracles G R) (e : Expression G R) : Prop :=
  ∀ (σ : Evaluator R) (S : List R) (σ1 : Evaluator R), CacheInv σ →
    eval O e σ = (.ok S, σ1) → ∀ σ2, Ext σ1 σ2 → eval O e σ2 = (.ok S, σ2)

end Evaluator

end RC

/-! ## The rendering in words -/

namespace RC

open RCExp

/-- The word `std::boolalpha` prints for a flag. -/
def flagWord (b : Bool) : String := if b then "true" else "false"

/-- The text that stands between the renderings of the two operands of a
`Compose` node of the given kind and flags: `" *"`, the head of the kind with
its own flags, `discardNonchemical`, and `")* "`. -/
def composeInfix : Policy → String
  | .common d m c =>
    " *" ++ ("rcCommon(maximum=" ++ flagWord m ++ ", connected=" ++ flagWord c ++ ", ")
      ++ "discardNonchemical=" ++ flagWord d ++ ")* "
  | .parallel d =>
    " *" ++ "rcParallel(" ++ "discardNonchemical=" ++ flagWord d ++ ")* "
  | .sub d p =>
    " *" ++ ("rcSub(allowPartial=" ++ flagWord p ++ ", ")
      ++ "discardNonchemical=" ++ flagWord d ++ ")* "
  | .super d p e =>
    " *" ++ ("rcSuper(allowPartial=" ++ flagWord p ++ ", enforceConstraints=" ++ flagWord e
      ++ ", ") ++ "discardNonchemical=" ++ flagWord d ++ ")* "

/-- The renderings of a list of expressions, in list order; undefined as soon
as one of them is. -/
def renderAll {G R : Type} (pg : G → String) (pr : R → String) :
    List (Expression G R) → Option (List String)
  | [] => some []
  | e :: es =>
    match Expression.render pg pr e with
    | none => none
    | some t =>
      match renderAll pg pr es with
      | none => none
      | some ts => some (t :: ts)

end RC

namespace RC

open RCExp

/-- An output routine appends a text to the stream and may switch `boolalpha`
on, whatever the stream it starts from: its effect on any stream is read off
its effect on the fresh stream. -/
def Appends (f : OStream → Option OStream) : Prop :=
  ∀ s, f s = (f OStream.empty).map
    (fun r => (⟨s.buf ++ r.buf, s.boolalpha || r.boolalpha⟩ : OStream))

end RC

namespace RC

open RCExp

/-- Running one output routine after another on the same stream. -/
def andThen (f g : OStream → Option OStream) : OStream → Option OStream :=
  fun s => (f s).bind g

/-- The text an output routine writes on a fresh stream. -/
def textOf (f : OStream → Option OStream) : Option String :=
  (f OStream.empty).map OStream.buf

/-- The output routine that appends the text `w` and, when `alpha` is set,
switches `boolalpha` on. -/
def putText (w : String) (alpha : Bool) : OStream → Option OStream :=
  fun s => some ⟨s.buf ++ w, s.boolalpha || alpha⟩

end RC

namespace RC

/-- The text of the loop of `operator<<` for `Union` in words: every text of
the list, each preceded by `", "`. -/
def sepText : List String → String
  | [] => ""
  | t :: ts => ", " ++ t ++ sepText ts

end RC

/-! ## GML converter expressions

A shallow embedding of `src/gml/converter_expressions.hpp`.

* The error stream `std::ostream &err` is the text written to it so far.
* A converter's `convert` returns `bool` and may write to `err` and, through a
  reference, to the parent attribute: it is a function from the error text and
  the parent attribute to the result, the new error text and the new parent
  attribute.  The outcome `none` stands for a `boost::bad_get` leaving the
  function.
* An attribute handler `attrHandler(parentAttr, value)` is a function from the
  attribute and the value to the new attribute.
* Converter expressions are templates over the element types `Expr...`; what a
  list needs of an element (`checkKey`, `convert`, `operator<<`) is the
  structure `Converter`, and the tuple of elements is a list of them.
* A `std::array<std::size_t, N>` of counters is the function from index to
  count; a counter counts children of one list and is not taken to wrap.
-/

namespace gml

/-- Modelled from the spec: `enum class ValueType` of `gml/value_type.hpp`,
which is missing from the sources; its four members are the ones
`converter_expressions.hpp` names. -/
inductive ValueType where
  | Int
  | Float
  | String
  | List
deriving DecidableEq, Repr

namespace ast

mutual
/-- Modelled from the spec: the variant member `value` of `ast::Value`
(`gml/ast.hpp`, missing from the sources), over `int`, `double`,
`std::string` and `ast::List`; an `ast::List` is given by its member `list`. -/
inductive Variant where
  | int (i : Int)
  | float (d : Float)
  | string (s : String)
  | list (l : List KeyValue)
/-- Modelled from the spec: `ast::Value` (`gml/ast.hpp`, missing from the
sources): the variant and the position it was read at. -/
inductive Value where
  | mk (value : Variant) (line column : Nat)
/-- Modelled from the spec: `ast::KeyValue` (`gml/ast.hpp`, missing from the
sources): key, value and the position it was read at. -/
inductive KeyValue where
  | mk (key : String) (value : Value) (line column : Nat)
end

/-- The member `value` of an `ast::Value`. -/
def Value.value : Value → Variant
  | .mk v _ _ => v

/-- The member `line` of an `ast::Value`. -/
def Value.line : Value → Nat
  | .mk _ l _ => l

/-- The member `column` of an `ast::Value`. -/
def Value.column : Value → Nat
  | .mk _ _ c => c

/-- The member `key` of an `ast::KeyValue`. -/
def KeyValue.key : KeyValue → String
  | .mk k _ _ _ => k

/-- The member `value` of an `ast::KeyValue`. -/
def KeyValue.value : KeyValue → Value
  | .mk _ v _ _ => v

/-- The member `line` of an `ast::KeyValue`. -/
def KeyValue.line : KeyValue → Nat
  | .mk _ _ l _ => l

/-- The member `column` of an `ast::KeyValue`. -/
def KeyValue.column : KeyValue → Nat
  | .mk _ _ _ c => c

end ast

/-- Modelled from the spec: `ValueTypeVisitor` of `gml/value_type.hpp`, missing
from the sources: the value type of the alternative a variant holds. -/
def ValueTypeVisitor : ast.Variant → ValueType
  | .int _ => .Int
  | .float _ => .Float
  | .string _ => .String
  | .list _ => .List

namespace converter

/-- `struct Unused`. -/
structure Unused where
deriving DecidableEq, Repr

/-- `struct Parent`. -/
structure Parent where
deriving DecidableEq, Repr

/-- `struct Expression<AttrHandler>`: the members `key` and `attrHandler`. -/
structure Expression (H : Type) where
  key : String
  attrHandler : H

namespace Expression

variable {H : Type}

/-- `Expression::checkKey`. -/
def checkKey (e : Expression H) (key : String) : Bool :=
  key == e.key

/-- `Expression::errorOnKey`. -/
def errorOnKey (e : Expression H) (kv : ast.KeyValue) (err : String) : String :=
  (err ++ "Error at " ++ toString kv.line ++ ":" ++ toString kv.column ++ ".")
    ++ " Expected key '" ++ e.key ++ "', got key '" ++ kv.key ++ "'."

/-- `Expression::checkAndErrorOnKey`. -/
def checkAndErrorOnKey (e : Expression H) (kv : ast.KeyValue) (err : String) :
    Bool × String :=
  let res := e.checkKey kv.key
  if !res then (res, e.errorOnKey kv err) else (res, err)

/-- `Expression::checkAndErrorOnType`; `pv` is `operator<<` for `ValueType`,
declared in the missing `gml/value_type.hpp`. -/
def checkAndErrorOnType (pv : ValueType → String) (_e : Expression H)
    (value : ast.Value) (err : String) (expected : ValueType) : Bool × String :=
  let vt := ValueTypeVisitor value.value
  if vt ≠ expected then
    (false,
      (err ++ "Error at " ++ toString value.line ++ ":" ++ toString value.column ++ ".")
        ++ " Expected " ++ pv expected ++ " value, got " ++ pv vt ++ " value.")
  else (true, err)

/-- `Expression::getKey`. -/
def getKey (e : Expression H) : String := e.key

/-- The conjunction `checkAndErrorOnKey(kv, err) && checkAndErrorOnType(kv.value,
err, expected)` that opens every `convert`: the type is checked only when the
key check succeeded. -/
def checkKeyAndType (pv : ValueType → String) (e : Expression H) (kv : ast.KeyValue)
    (err : String) (expected : ValueType) : Bool × String :=
  let (r1, err1) := e.checkAndErrorOnKey kv err
  if r1 then e.checkAndErrorOnType pv kv.value err1 expected else (false, err1)

end Expression

/-- The struct `MAKE_TERMINAL(Name, Type)` defines: an `Expression` together
with what the two macro arguments contribute: the value type
`ValueType::Name`, its spelling `#Name`, and `boost::get<Type>` on the
variant (`none` when it throws). -/
structure Terminal (T A : Type) extends Expression (A → T → A) where
  name : ValueType
  nameText : String
  get : ast.Variant → Option T

/-- `convert` of the struct `MAKE_TERMINAL` defines. -/
def Terminal.convert {T A : Type} (pv : ValueType → String) (e : Terminal T A)
    (kv : ast.KeyValue) (err : String) (parentAttr : A) : Option (Bool × String × A) :=
  let (res, err1) := e.toExpression.checkKeyAndType pv kv err e.name
  if !res then some (res, err1, parentAttr)
  else
    match e.get kv.value.value with
    | none => none
    | some v => some (true, err1, e.attrHandler parentAttr v)

/-- `operator<<` of the struct `MAKE_TERMINAL` defines. -/
def Terminal.print {T A : Type} (e : Terminal T A) : String :=
  e.nameText ++ "(" ++ e.getKey ++ ")"

/-- `MAKE_TERMINAL(Int, int)`. -/
def IntTerminal {A : Type} (key : String) (attrHandler : A → Int → A) : Terminal Int A :=
  { key := key, attrHandler := attrHandler, name := .Int, nameText := "Int",
    get := fun v => match v with
      | .int i => some i
      | _ => none }

/-- `MAKE_TERMINAL(Float, double)`. -/
def FloatTerminal {A : Type} (key : String) (attrHandler : A → Float → A) :
    Terminal Float A :=
  { key := key, attrHandler := attrHandler, name := .Float, nameText := "Float",
    get := fun v => match v with
      | .float d => some d
      | _ => none }

/-- `MAKE_TERMINAL(String, std::string)`. -/
def StringTerminal {A : Type} (key : String) (attrHandler : A → String → A) :
    Terminal String A :=
  { key := key, attrHandler := attrHandler, name := .String, nameText := "String",
    get := fun v => match v with
      | .string s => some s
      | _ => none }

/-- What `ListElementHandler`, `ListElementUpperBound` and `ListElementPrinter`
use of an element expression of type `Expr`: its key (for `checkKey`), its
`convert` on a parent attribute of type `A`, and the text of its
`operator<<`. -/
structure Converter (A : Type) where
  key : String
  convert : ast.KeyValue → String → A → Option (Bool × String × A)
  print : String

/-- `Expression::checkKey` of an element expression. -/
def Converter.checkKey {A : Type} (c : Converter A) (key : String) : Bool :=
  key == c.key

/-- A terminal as an element of a list. -/
def Terminal.toConverter {T A : Type} (pv : ValueType → String) (e : Terminal T A) :
    Converter A :=
  { key := e.key, convert := e.convert pv, print := e.print }

/-- `struct ListElement<Expr>`. -/
structure ListElement (E : Type) where
  lowerBound : Nat
  upperBound : Nat
  expr : E

/-- `operator<<` for `ListElement`. -/
def ListElement.print {A : Type} (el : ListElement (Converter A)) : String :=
  "[" ++ toString el.lowerBound ++ ", " ++ toString el.upperBound ++ "](" ++ el.expr.print
    ++ ")"

/-- `ListElementPrinter<I, N, Expr...>::print`, on the elements from index `I`
on. -/
def ListElementPrinter.print {A : Type} :
    Nat → List (ListElement (Converter A)) → String → String
  | _, [], s => s
  | I, el :: rest, s =>
    ListElementPrinter.print (I + 1) rest
      ((if I > 0 then s ++ ", " else s) ++ el.print)

/-- `ListElementHandler<I, N, Expr...>::handle`, on the elements from index `I`
on; the empty list is the specialisation `I = N`. -/
def ListElementHandler.handle {A : Type} (kv : ast.KeyValue) :
    Nat → List (ListElement (Converter A)) → String → A → (Nat → Nat) →
      Option (Bool × String × A × (Nat → Nat))
  | _, [], err, parentAttr, count =>
    some (false,
      (err ++ "Error at " ++ toString kv.line ++ ":" ++ toString kv.column ++ ".")
        ++ " Unexpected list element with key '" ++ kv.key ++ "'.",
      parentAttr, count)
  | I, elem :: rest, err, parentAttr, count =>
    if !elem.expr.checkKey kv.key then
      ListElementHandler.handle kv (I + 1) rest err parentAttr count
    else
      match elem.expr.convert kv err parentAttr with
      | none => none
      | some (true, err1, attr1) =>
        let count1 := Function.update count I (count I + 1)
        if count1 I > elem.upperBound then
          some (false,
            (err1 ++ "Error at " ++ toString kv.line ++ ":" ++ toString kv.column ++ ".")
              ++ " Unexpected " ++ elem.expr.print ++ ". Already got "
              ++ toString elem.upperBound ++ " occurrences.",
            attr1, count1)
        else some (true, err1, attr1, count1)
      | some (false, err1, attr1) => some (false, err1, attr1, count)

/-- `ListElementUpperBound<I, N, Expr...>::check`, on the elements from index
`I` on; the empty list is the specialisation `I = N`. -/
def ListElementUpperBound.check {A : Type} :
    Nat → List (ListElement (Converter A)) → String → (Nat → Nat) → Bool × String
  | _, [], err, _ => (true, err)
  | I, elem :: rest, err, count =>
    if count I < elem.lowerBound then
      (false,
        err ++ "Expected " ++ toString elem.lowerBound ++ " of " ++ elem.expr.print
          ++ ". Got only " ++ toString (count I) ++ ".")
    else ListElementUpperBound.check (I + 1) rest err count

/-- `struct ListAttrHandler<Type, AttrHandler, ParentAttr>` and its two
specialisations, by what they do.  `A` is the type of the parent attribute and
`B` the type of the attribute `getAttr()` refers to.  `getAttr` is that
attribute when the handler is constructed, `written` the parent attribute once
the children have left `attr` behind the reference, and `assignToParent` the
parent attribute after `assignToParent()`. -/
structure ListAttrHandler (A B : Type) where
  getAttr : A → B
  written : A → B → A
  assignToParent : A → B → A

/-- The primary template `ListAttrHandler<Type, AttrHandler, ParentAttr>`: a
member `attr` of type `Type` (`init` is its default-constructed value) that
`assignToParent` hands to the attribute handler. -/
def ListAttrHandler.general {A B : Type} (init : B) (attrHandler : A → B → A) :
    ListAttrHandler A B :=
  { getAttr := fun _ => init
    written := fun parentAttr _ => parentAttr
    assignToParent := fun parentAttr attr => attrHandler parentAttr attr }

/-- The specialisation `ListAttrHandler<Unused, AttrHandler, ParentAttr>`. -/
def ListAttrHandler.unused {A : Type} : ListAttrHandler A Unused :=
  { getAttr := fun _ => {}
    written := fun parentAttr _ => parentAttr
    assignToParent := fun parentAttr _ => parentAttr }

/-- The specialisation `ListAttrHandler<Parent, AttrHandler, ParentAttr>`:
`getAttr()` is the parent attribute itself. -/
def ListAttrHandler.parent {A : Type} : ListAttrHandler A A :=
  { getAttr := fun parentAttr => parentAttr
    written := fun _ attr => attr
    assignToParent := fun parentAttr _ => parentAttr }

/-- `struct List<Type, AttrHandler, Expr...>`, named `ListConverter` because
`List` is the type of lists here: an `Expression` with the tuple `elems`;
`ourAttr` is the `ListAttrHandler` that the template argument `Type` selects,
as a function of the attribute handler. -/
structure ListConverter (H A B : Type) extends Expression H where
  elems : List (ListElement (Converter B))
  ourAttr : H → ListAttrHandler A B

/-- The loop `for(const ast::KeyValue &kv : value.list)` of `List::convert`:
every child is handled in turn, the first failure ends the loop. -/
def ListConverter.convertChildren {B : Type} (elems : List (ListElement (Converter B))) :
    List ast.KeyValue → String → B → (Nat → Nat) →
      Option (Bool × String × B × (Nat → Nat))
  | [], err, attr, count => some (true, err, attr, count)
  | kv :: rest, err, attr, count =>
    match ListElementHandler.handle kv 0 elems err attr count with
    | none => none
    | some (false, err1, attr1, count1) => some (false, err1, attr1, count1)
    | some (true, err1, attr1, count1) =>
      ListConverter.convertChildren elems rest err1 attr1 count1

/-- `List::convert`. -/
def ListConverter.convert {H A B : Type} (pv : ValueType → String)
    (l : ListConverter H A B) (kv : ast.KeyValue) (err : String) (parentAttr : A) :
    Option (Bool × String × A) :=
  let (res, err1) := l.toExpression.checkKeyAndType pv kv err .List
  if !res then some (res, err1, parentAttr)
  else
    match kv.value.value with
    | .list value =>
      let ourAttr := l.ourAttr l.attrHandler
      match ListConverter.convertChildren l.elems value err1 (ourAttr.getAttr parentAttr)
          (fun _ => 0) with
      | none => none
      | some (false, err2, attr, _) => some (false, err2, ourAttr.written parentAttr attr)
      | some (true, err2, attr, count) =>
        let (res2, err3) := ListElementUpperBound.check 0 l.elems err2 count
        if !res2 then some (false, err3, ourAttr.written parentAttr attr)
        else
          some (true, err3, ourAttr.assignToParent (ourAttr.written parentAttr attr) attr)
    | _ => none

/-- `operator<<` for `List`. -/
def ListConverter.print {H A B : Type} (l : ListConverter H A B) : String :=
  ListElementPrinter.print 0 l.elems ("List(" ++ l.getKey ++ ")[") ++ "]"

/-- A list converter as an element of an enclosing list. -/
def ListConverter.toConverter {H A B : Type} (pv : ValueType → String)
    (l : ListConverter H A B) : Converter A :=
  { key := l.key, convert := l.convert pv, print := l.print }

/-- `asConverter`. -/
def asConverter {E : Type} (expr : E) : E := expr

end converter

end gml

namespace gml

namespace converter

/-- The contract of one call `convert(kv, err, parentAttr)` of a terminal
converter with key `k`, attribute handler `h` and value type `ty`, whose
values sit in the variant through `inj`, in words: it returns; it returns true
exactly when the key of `kv` is `k` and its value has type `ty`; on true the
error text is untouched and the attribute is the handler applied once, to the
old attribute and the value of `kv`; on false the attribute is untouched; and
when the key differs the error text has grown by the key error alone. -/
def TerminalConvertSpec {T A : Type} (k : String) (h : A → T → A) (ty : ValueType)
    (inj : T → ast.Variant) (kv : ast.KeyValue) (err : String) (parentAttr : A)
    (out : Option (Bool × String × A)) : Prop :=
  ∃ res err1 attr1, out = some (res, err1, attr1) ∧
    (res = true ↔ kv.key = k ∧ ValueTypeVisitor kv.value.value = ty) ∧
    (res = true → err1 = err ∧ ∃ v, kv.value.value = inj v ∧ attr1 = h parentAttr v) ∧
    (res = false → attr1 = parentAttr) ∧
    (kv.key ≠ k →
      err1 = (err ++ "Error at " ++ toString kv.line ++ ":" ++ toString kv.column ++ ".")
        ++ " Expected key '" ++ k ++ "', got key '" ++ kv.key ++ "'.")

end converter

end gml

namespace gml

namespace converter

/-- The child `kv` of a GML list goes to element `i` of the list converter: its
key is the key of element `i` and of no earlier element. -/
def dispatchedTo {B : Type} (elems : List (ListElement (Converter B))) (i : Nat)
    (kv : ast.KeyValue) : Bool :=
  match elems[i]? with
  | none => false
  | some el =>
    el.expr.checkKey kv.key && (elems.take i).all (fun e => !e.expr.checkKey kv.key)

/-- The number `n_i` of children that go to element `i`. -/
def occurrences {B : Type} (elems : List (ListElement (Converter B)))
    (children : List ast.KeyValue) (i : Nat) : Nat :=
  children.countP (dispatchedTo elems i)

end converter

end gml

namespace gml

namespace converter

/-- A list converter whose template argument `Type` is a value type of its
own, neither `Unused` nor `Parent`: the primary `ListAttrHandler` is used;
`init` is the default-constructed `Type`. -/
def ListConverter.ofType {A B : Type} (key : String) (attrHandler : A → B → A) (init : B)
    (elems : List (ListElement (Converter B))) : ListConverter (A → B → A) A B :=
  { key := key, attrHandler := attrHandler, elems := elems,
    ourAttr := ListAttrHandler.general init }

/-- A list converter whose template argument `Type` is `Unused`. -/
def ListConverter.ofUnused {H A : Type} (key : String) (attrHandler : H)
    (elems : List (ListElement (Converter Unused))) : ListConverter H A Unused :=
  { key := key, attrHandler := attrHandler, elems := elems,
    ourAttr := fun _ => ListAttrHandler.unused }

/-- A list converter whose template argument `Type` is `Parent`. -/
def ListConverter.ofParent {H A : Type} (key : String) (attrHandler : H)
    (elems : List (ListElement (Converter A))) : ListConverter H A A :=
  { key := key, attrHandler := attrHandler, elems := elems,
    ourAttr := fun _ => ListAttrHandler.parent }

/-! ### A worked example -/

/-- A spelling of the value types for the worked example. -/
def sampleValueTypeText : ValueType → String
  | .Int => "Int"
  | .Float => "Float"
  | .String => "String"
  | .List => "List"

/-- The converter of a list `node [ id <int> w <int> ... ]` with exactly one
`id` and at most two `w`, collecting the numbers and appending the collection
to the parent attribute. -/
def sampleNode : ListConverter (List (List Int) → List Int → List (List Int))
    (List (List Int)) (List Int) :=
  ListConverter.ofType "node" (fun parentAttr attr => parentAttr ++ [attr]) []
    [⟨1, 1, (IntTerminal "id" (fun (a : List Int) i => a ++ [i])).toConverter
        sampleValueTypeText⟩,
      ⟨0, 2, (IntTerminal "w" (fun (a : List Int) i => a ++ [i])).toConverter
        sampleValueTypeText⟩]

/-- The key-value pair `key <int>` read at line 1. -/
def sampleInt (key : String) (i : Int) : ast.KeyValue :=
  .mk key (.mk (.int i) 1 1) 1 1

/-- The key-value pair `node [ id 3 w 4 ]`. -/
def sampleNodeValue : ast.KeyValue :=
  .mk "node" (.mk (.list [sampleInt "id" 3, sampleInt "w" 4]) 1 1) 1 1

end converter

end gml

/-! # Theorems -/

namespace RCExp

section ExpressionAlgebra

variable {G R : Type}

/-! ## Construction -/

theorem union_new_ok_iff {E : Type} (exps : List E) (u : Union E) :
    Union.new exps = .ok u ↔ exps ≠ [] ∧ u = ⟨exps⟩ := by
  cases exps with
  | nil => simp [Union.new]
  | cons e es =>
    simp only [Union.new, List.isEmpty_cons, Bool.false_eq_true, if_false, ne_eq,
      reduceCtorEq, not_false_eq_true, true_and, Except.ok.injEq]
    exact eq_comm

theorem bind_new_ok_iff (g : Option G) (b : Bind G) :
    Bind.new g = .ok b ↔ g ≠ none ∧ b = ⟨g⟩ := by
  cases g with
  | none => simp [Bind.new]
  | some x =>
    simp only [Bind.new, Option.isSome_some, if_true, ne_eq, reduceCtorEq,
      not_false_eq_true, true_and, Except.ok.injEq]
    exact eq_comm

theorem id_new_ok_iff (g : Option G) (i : Id G) :
    Id.new g = .ok i ↔ g ≠ none ∧ i = ⟨g⟩ := by
  cases g with
  | none => simp [Id.new]
  | some x =>
    simp only [Id.new, Option.isSome_some, if_true, ne_eq, reduceCtorEq,
      not_false_eq_true, true_and, Except.ok.injEq]
    exact eq_comm

theorem unbind_new_ok_iff (g : Option G) (u : Unbind G) :
    Unbind.new g = .ok u ↔ g ≠ none ∧ u = ⟨g⟩ := by
  cases g with
  | none => simp [Unbind.new]
  | some x =>
    simp only [Unbind.new, Option.isSome_some, if_true, ne_eq, reduceCtorEq,
      not_false_eq_true, true_and, Except.ok.injEq]
    exact eq_comm

theorem expression_ofRule_ok_iff (r : Option R) (e : Expression G R) :
    Expression.ofRule r = .ok e ↔ r ≠ none ∧ e = .rule r := by
  cases r with
  | none => simp [Expression.ofRule]
  | some x =>
    simp only [Expression.ofRule, Option.isSome_some, if_true, ne_eq, reduceCtorEq,
      not_false_eq_true, true_and, Except.ok.injEq]
    exact eq_comm

/-- C1: constructing a `Union` fails, with a `LogicError`, exactly when the
list of expressions is empty; for a non-empty list the construction succeeds
and `getExpressions` returns that very list. -/
theorem union_new_logicError_iff_empty {E : Type} (exps : List E) :
    ((∃ msg, Union.new exps = .error (.logicError msg)) ↔ exps = []) ∧
    ((∃ err, Union.new exps = .error err) ↔ exps = []) ∧
    (exps ≠ [] → ∃ u, Union.new exps = .ok u ∧ u.getExpressions = exps) := by
  cases exps with
  | nil => simp [Union.new]
  | cons e es => simp [Union.new, Union.getExpressions]

/-- C3: for a non-null graph `g` each of `Bind`, `Id` and `Unbind` is
constructed and `getGraph` returns `g`; with a null graph, and for a terminal
with a null rule, the constructor's assertion fails; hence no node built by
these constructors holds a null reference. -/
theorem primitive_new_nonnull (g : G) (r : R) :
    (∃ b, Bind.new (some g) = .ok b ∧ b.getGraph = some g) ∧
    (∃ i, Id.new (some g) = .ok i ∧ i.getGraph = some g) ∧
    (∃ u, Unbind.new (some g) = .ok u ∧ u.getGraph = some g) ∧
    (Expression.ofRule (G := G) (some r) = .ok (.rule (some r))) ∧
    Bind.new (none : Option G) = .error .assertion ∧
    Id.new (none : Option G) = .error .assertion ∧
    Unbind.new (none : Option G) = .error .assertion ∧
    Expression.ofRule (G := G) (none : Option R) = .error .assertion ∧
    (∀ (p : Option G) (b : Bind G), Bind.new p = .ok b → b.getGraph = p ∧ b.getGraph ≠ none) ∧
    (∀ (p : Option G) (i : Id G), Id.new p = .ok i → i.getGraph = p ∧ i.getGraph ≠ none) ∧
    (∀ (p : Option G) (u : Unbind G),
      Unbind.new p = .ok u → u.getGraph = p ∧ u.getGraph ≠ none) ∧
    (∀ (p : Option R) (e : Expression G R),
      Expression.ofRule p = .ok e → e = .rule p ∧ p ≠ none) := by
  refine ⟨⟨⟨some g⟩, rfl, rfl⟩, ⟨⟨some g⟩, rfl, rfl⟩, ⟨⟨some g⟩, rfl, rfl⟩, rfl, rfl, rfl,
    rfl, rfl, ?_, ?_, ?_, ?_⟩
  · intro p b h
    obtain ⟨hp, rfl⟩ := (bind_new_ok_iff p b).1 h
    exact ⟨rfl, hp⟩
  · intro p i h
    obtain ⟨hp, rfl⟩ := (id_new_ok_iff p i).1 h
    exact ⟨rfl, hp⟩
  · intro p u h
    obtain ⟨hp, rfl⟩ := (unbind_new_ok_iff p u).1 h
    exact ⟨rfl, hp⟩
  · intro p e h
    obtain ⟨hp, rfl⟩ := (expression_ofRule_ok_iff p e).1 h
    exact ⟨rfl, hp⟩

/-- C4: every `Compose` constructor stores each argument under the accessor of
the same name. -/
theorem compose_new_accessors {E : Type} (f s : E) (d m c p e : Bool) :
    ((ComposeCommon.new f s d m c).getFirst = f ∧
      (ComposeCommon.new f s d m c).getSecond = s ∧
      (ComposeCommon.new f s d m c).getDiscardNonchemical = d ∧
      (ComposeCommon.new f s d m c).getMaxmimum = m ∧
      (ComposeCommon.new f s d m c).getConnected = c) ∧
    ((ComposeParallel.new f s d).getFirst = f ∧
      (ComposeParallel.new f s d).getSecond = s ∧
      (ComposeParallel.new f s d).getDiscardNonchemical = d) ∧
    ((ComposeSub.new f s d p).getFirst = f ∧
      (ComposeSub.new f s d p).getSecond = s ∧
      (ComposeSub.new f s d p).getDiscardNonchemical = d ∧
      (ComposeSub.new f s d p).getAllowPartial = p) ∧
    ((ComposeSuper.new f s d p e).getFirst = f ∧
      (ComposeSuper.new f s d p e).getSecond = s ∧
      (ComposeSuper.new f s d p e).getDiscardNonchemical = d ∧
      (ComposeSuper.new f s d p e).getAllowPartial = p ∧
      (ComposeSuper.new f s d p e).getEnforceConstraints = e) :=
  ⟨⟨rfl, rfl, rfl, rfl, rfl⟩, ⟨rfl, rfl, rfl⟩, ⟨rfl, rfl, rfl, rfl⟩,
    ⟨rfl, rfl, rfl, rfl, rfl⟩⟩

end ExpressionAlgebra

end RCExp

namespace RCExp
section
variable {G R : Type}

theorem union_outputLoop_isSome (pg : G → String) (pr : R → String)
    (es : List (Expression G R))
    (h : ∀ e ∈ es, ∀ s, (Expression.output pg pr e s).isSome) (s : OStream) :
    (Union.outputLoop pg pr es s).isSome := by
  induction es generalizing s with
  | nil => simp [Union.outputLoop]
  | cons e es ih =>
    have he := h e (List.mem_cons_self _ _) (s.write ", ")
    obtain ⟨s1, hs1⟩ := Option.isSome_iff_exists.1 he
    simp only [Union.outputLoop, hs1]
    exact ih (fun e' he' => h e' (List.mem_cons_of_mem _ he')) s1

theorem union_output_isSome (pg : G → String) (pr : R → String)
    (u : Union (Expression G R)) (hne : u.exps ≠ [])
    (h : ∀ e ∈ u.exps, ∀ s, (Expression.output pg pr e s).isSome) (s : OStream) :
    (Union.output pg pr u s).isSome := by
  obtain ⟨exps⟩ := u
  cases exps with
  | nil => exact absurd rfl hne
  | cons e es =>
    have he := h e (List.mem_cons_self _ _) (s.write "\x7b")
    obtain ⟨s1, hs1⟩ := Option.isSome_iff_exists.1 he
    have hl := union_outputLoop_isSome pg pr es
      (fun e' he' => h e' (List.mem_cons_of_mem _ he')) s1
    obtain ⟨s2, hs2⟩ := Option.isSome_iff_exists.1 hl
    simp [Union.output, hs1, hs2]

theorem composeBase_output_isSome (pg : G → String) (pr : R → String)
    (print : OStream → OStream) (b : ComposeBase (Expression G R))
    (hf : ∀ s, (Expression.output pg pr b.first s).isSome)
    (hs : ∀ s, (Expression.output pg pr b.second s).isSome) (s : OStream) :
    (ComposeBase.output pg pr print b s).isSome := by
  obtain ⟨f, x, d⟩ := b
  obtain ⟨s1, hs1⟩ := Option.isSome_iff_exists.1 (hf s)
  simp only [ComposeBase.output, hs1]
  exact hs _

theorem constructed_output_isSome (pg : G → String) (pr : R → String)
    {e : Expression G R} (h : e.Constructed) :
    ∀ s, (Expression.output pg pr e s).isSome := by
  induction h with
  | ofRule h =>
    intro s
    obtain ⟨hr, rfl⟩ := (expression_ofRule_ok_iff _ _).1 h
    rename_i r
    cases r with
    | none => exact absurd rfl hr
    | some x => simp [Expression.output]
  | ofUnion _ hnew ih =>
    intro s
    obtain ⟨hne, rfl⟩ := (union_new_ok_iff _ _).1 hnew
    simp only [Expression.ofUnion, Expression.output]
    exact union_output_isSome pg pr _ hne ih s
  | @ofBind g b h =>
    intro s
    obtain ⟨hg, rfl⟩ := (bind_new_ok_iff _ _).1 h
    cases g with
    | none => exact absurd rfl hg
    | some x => simp [Expression.ofBind, Expression.output, Bind.output]
  | @ofId g i h =>
    intro s
    obtain ⟨hg, rfl⟩ := (id_new_ok_iff _ _).1 h
    cases g with
    | none => exact absurd rfl hg
    | some x => simp [Expression.ofId, Expression.output, Id.output]
  | @ofUnbind g u h =>
    intro s
    obtain ⟨hg, rfl⟩ := (unbind_new_ok_iff _ _).1 h
    cases g with
    | none => exact absurd rfl hg
    | some x => simp [Expression.ofUnbind, Expression.output, Unbind.output]
  | ofComposeCommon d m c _ _ ihf ihs =>
    intro s
    simp only [Expression.ofComposeCommon, ComposeCommon.new, Expression.output]
    exact composeBase_output_isSome pg pr _ _ ihf ihs s
  | ofComposeParallel d _ _ ihf ihs =>
    intro s
    simp only [Expression.ofComposeParallel, ComposeParallel.new, Expression.output]
    exact composeBase_output_isSome pg pr _ _ ihf ihs s
  | ofComposeSub d p _ _ ihf ihs =>
    intro s
    simp only [Expression.ofComposeSub, ComposeSub.new, Expression.output]
    exact composeBase_output_isSome pg pr _ _ ihf ihs s
  | ofComposeSuper d p e _ _ ihf ihs =>
    intro s
    simp only [Expression.ofComposeSuper, ComposeSuper.new, Expression.output]
    exact composeBase_output_isSome pg pr _ _ ihf ihs s

/-- C5: a `Union` built by its constructor has a non-empty list of children,
which `getExpressions` returns unchanged; consequently its rendering, which
reads the front child unconditionally, is defined on every stream. -/
theorem union_constructed_nonempty_and_renders (pg : G → String) (pr : R → String)
    (exps : List (Expression G R)) (u : Union (Expression G R))
    (hexps : ∀ e ∈ exps, e.Constructed) (hnew : Union.new exps = .ok u) :
    u.getExpressions ≠ [] ∧ u.getExpressions = exps ∧
      u.getExpressions.head?.isSome ∧
      ∀ s, (Union.output pg pr u s).isSome := by
  obtain ⟨hne, rfl⟩ := (union_new_ok_iff _ _).1 hnew
  refine ⟨hne, rfl, ?_, fun s => ?_⟩
  · cases exps with
    | nil => exact absurd rfl hne
    | cons e es => rfl
  · exact union_output_isSome pg pr _ hne
      (fun e he => constructed_output_isSome pg pr (hexps e he)) s

theorem union_constructed_nonempty_and_renders_witness :
    ([Expression.bind ⟨some "g"⟩, Expression.rule (some "r")] :
        List (Expression String String)) ≠ [] ∧
      ∀ s, (Union.output id id
        (⟨[Expression.bind ⟨some "g"⟩, Expression.rule (some "r")]⟩ :
          Union (Expression String String)) s).isSome :=
  have h := union_constructed_nonempty_and_renders (G := String) (R := String) id id
    [Expression.bind ⟨some "g"⟩, Expression.rule (some "r")]
    ⟨[Expression.bind ⟨some "g"⟩, Expression.rule (some "r")]⟩
    (by
      intro e he
      simp only [List.mem_cons, List.mem_singleton, List.not_mem_nil, or_false] at he
      rcases he with rfl | rfl
      · exact Expression.Constructed.ofBind (g := some "g") rfl
      · exact Expression.Constructed.ofRule (r := some "r") rfl)
    rfl
  ⟨h.1, h.2.2.2⟩

/-- C2: the code renders `Unbind(g)` with the operator name `bind`, the very
text it renders `Bind(g)` to, where the claim asks for `unbind(...)`. -/
theorem unbind_output_eq_bind_output (pg : G → String) (pr : R → String) (g : G) :
    Expression.render pg pr (Expression.unbind ⟨some g⟩ : Expression G R)
      = some ("bind(" ++ pg g ++ ")") ∧
    Expression.render pg pr (Expression.unbind ⟨some g⟩ : Expression G R)
      = Expression.render pg pr (Expression.bind ⟨some g⟩ : Expression G R) ∧
    Expression.render (G := String) (R := String) id id (Expression.unbind ⟨some "g"⟩)
      ≠ some "unbind(g)" := by
  refine ⟨?_, rfl, by decide⟩
  simp [Expression.render, Expression.output, Unbind.output, OStream.write, OStream.empty]

end
end RCExp

namespace RC
open RCExp
section
variable {G R : Type}

mutual
theorem expression_induction {motive : Expression G R → Prop}
    (hrule : ∀ r, motive (.rule r))
    (hunion : ∀ exps, (∀ e ∈ exps, motive e) → motive (.union ⟨exps⟩))
    (hbind : ∀ b, motive (.bind b))
    (hid : ∀ i, motive (.id i))
    (hunbind : ∀ u, motive (.unbind u))
    (hcommon : ∀ f s d m c, motive f → motive s → motive (.composeCommon ⟨⟨f, s, d⟩, m, c⟩))
    (hparallel : ∀ f s d, motive f → motive s → motive (.composeParallel ⟨⟨f, s, d⟩⟩))
    (hsub : ∀ f s d p, motive f → motive s → motive (.composeSub ⟨⟨f, s, d⟩, p⟩))
    (hsuper : ∀ f s d p e, motive f → motive s →
      motive (.composeSuper ⟨⟨f, s, d⟩, p, e⟩)) :
    ∀ e, motive e
  | .rule r => hrule r
  | .union ⟨exps⟩ =>
    hunion exps (expression_induction_list hrule hunion hbind hid hunbind hcommon
      hparallel hsub hsuper exps)
  | .bind b => hbind b
  | .id i => hid i
  | .unbind u => hunbind u
  | .composeCommon ⟨⟨f, s, d⟩, m, c⟩ =>
    hcommon f s d m c
      (expression_induction hrule hunion hbind hid hunbind hcommon hparallel hsub hsuper f)
      (expression_induction hrule hunion hbind hid hunbind hcommon hparallel hsub hsuper s)
  | .composeParallel ⟨⟨f, s, d⟩⟩ =>
    hparallel f s d
      (expression_induction hrule hunion hbind hid hunbind hcommon hparallel hsub hsuper f)
      (expression_induction hrule hunion hbind hid hunbind hcommon hparallel hsub hsuper s)
  | .composeSub ⟨⟨f, s, d⟩, p⟩ =>
    hsub f s d p
      (expression_induction hrule hunion hbind hid hunbind hcommon hparallel hsub hsuper f)
      (expression_induction hrule hunion hbind hid hunbind hcommon hparallel hsub hsuper s)
  | .composeSuper ⟨⟨f, s, d⟩, p, e⟩ =>
    hsuper f s d p e
      (expression_induction hrule hunion hbind hid hunbind hcommon hparallel hsub hsuper f)
      (expression_induction hrule hunion hbind hid hunbind hcommon hparallel hsub hsuper s)
theorem expression_induction_list {motive : Expression G R → Prop}
    (hrule : ∀ r, motive (.rule r))
    (hunion : ∀ exps, (∀ e ∈ exps, motive e) → motive (.union ⟨exps⟩))
    (hbind : ∀ b, motive (.bind b))
    (hid : ∀ i, motive (.id i))
    (hunbind : ∀ u, motive (.unbind u))
    (hcommon : ∀ f s d m c, motive f → motive s → motive (.composeCommon ⟨⟨f, s, d⟩, m, c⟩))
    (hparallel : ∀ f s d, motive f → motive s → motive (.composeParallel ⟨⟨f, s, d⟩⟩))
    (hsub : ∀ f s d p, motive f → motive s → motive (.composeSub ⟨⟨f, s, d⟩, p⟩))
    (hsuper : ∀ f s d p e, motive f → motive s →
      motive (.composeSuper ⟨⟨f, s, d⟩, p, e⟩)) :
    ∀ exps : List (Expression G R), ∀ e ∈ exps, motive e
  | [], _, h => absurd h (List.not_mem_nil _)
  | x :: xs, e, h =>
    (List.mem_cons.1 h).elim
      (fun hx => hx ▸
        expression_induction hrule hunion hbind hid hunbind hcommon hparallel hsub hsuper x)
      (fun hx =>
        expression_induction_list hrule hunion hbind hid hunbind hcommon hparallel hsub
          hsuper xs e hx)
end

end
end RC

namespace RC
open RCExp
namespace Evaluator
section
variable {G R : Type} [DecidableEq R]

theorem composePair_preserves (O : Oracles G R) (I : Evaluator R → Prop)
    (hrecord : ∀ σ a b rs, I σ → σ.vertexForArgs a b = none →
      I (σ.recordComposition O a b rs).2)
    (policy : Policy) (σ : Evaluator R) (r1 r2 : R) (h : I σ) :
    I (composePair O policy σ r1 r2).2 := by
  unfold composePair
  cases hv : σ.vertexForArgs r1 r2 with
  | some v => exact h
  | none =>
    cases hc : O.compose r1 r2 policy with
    | error e => exact h
    | ok rs => exact hrecord σ r1 r2 rs h hv

theorem composeRow_preserves (O : Oracles G R) (I : Evaluator R → Prop)
    (hrecord : ∀ σ a b rs, I σ → σ.vertexForArgs a b = none →
      I (σ.recordComposition O a b rs).2)
    (policy : Policy) (r1 : R) (s2 acc : List R) (σ : Evaluator R) (h : I σ) :
    I (composeRow O policy r1 s2 acc σ).2 := by
  induction s2 generalizing acc σ with
  | nil => exact h
  | cons r2 rest ih =>
    have hp := composePair_preserves O I hrecord policy σ r1 r2 h
    rcases hcp : composePair O policy σ r1 r2 with ⟨_ | rs, σ1⟩
    · simp only [composeRow, hcp]
      rw [hcp] at hp
      exact hp
    · simp only [composeRow, hcp]
      rw [hcp] at hp
      exact ih _ _ hp

theorem composeAll_preserves (O : Oracles G R) (I : Evaluator R → Prop)
    (hrecord : ∀ σ a b rs, I σ → σ.vertexForArgs a b = none →
      I (σ.recordComposition O a b rs).2)
    (policy : Policy) (s1 s2 acc : List R) (σ : Evaluator R) (h : I σ) :
    I (composeAll O policy s1 s2 acc σ).2 := by
  induction s1 generalizing acc σ with
  | nil => exact h
  | cons r1 rest ih =>
    have hp := composeRow_preserves O I hrecord policy r1 s2 acc σ h
    rcases hcp : composeRow O policy r1 s2 acc σ with ⟨_ | rs, σ1⟩
    · simp only [composeAll, hcp]
      rw [hcp] at hp
      exact hp
    · simp only [composeAll, hcp]
      rw [hcp] at hp
      exact ih _ _ hp

theorem evalUnion_preserves (O : Oracles G R) (I : Evaluator R → Prop)
    (es : List (Expression G R))
    (hes : ∀ e ∈ es, ∀ σ, I σ → I (eval O e σ).2)
    (acc : List R) (σ : Evaluator R) (h : I σ) :
    I (evalUnion O es acc σ).2 := by
  induction es generalizing acc σ with
  | nil => simpa [evalUnion] using h
  | cons e es ih =>
    have hp := hes e (List.mem_cons_self _ _) σ h
    rcases hcp : eval O e σ with ⟨_ | rs, σ1⟩
    · simp only [evalUnion, hcp]
      rw [hcp] at hp
      exact hp
    · simp only [evalUnion, hcp]
      rw [hcp] at hp
      exact ih (fun e' he' => hes e' (List.mem_cons_of_mem _ he')) _ _ hp

theorem evalCompose_preserves (O : Oracles G R) (I : Evaluator R → Prop)
    (hrecord : ∀ σ a b rs, I σ → σ.vertexForArgs a b = none →
      I (σ.recordComposition O a b rs).2)
    (policy : Policy) (f s : Expression G R) (d : Bool)
    (hf : ∀ σ, I σ → I (eval O f σ).2) (hs : ∀ σ, I σ → I (eval O s σ).2)
    (σ : Evaluator R) (h : I σ) :
    I (evalCompose O policy ⟨f, s, d⟩ σ).2 := by
  have h1 := hf σ h
  rcases hc1 : eval O f σ with ⟨_ | s1, σ1⟩
  · simp only [evalCompose, hc1]
    rw [hc1] at h1
    exact h1
  · rw [hc1] at h1
    have h2 := hs σ1 h1
    rcases hc2 : eval O s σ1 with ⟨_ | s2, σ2⟩
    · simp only [evalCompose, hc1, hc2]
      rw [hc2] at h2
      exact h2
    · simp only [evalCompose, hc1, hc2]
      rw [hc2] at h2
      exact composeAll_preserves O I hrecord policy s1 s2 [] σ2 h2

/-- A property of the evaluator state that interning and recording a
composition on a cache miss preserve is preserved by every evaluation. -/
theorem eval_preserves (O : Oracles G R) (I : Evaluator R → Prop)
    (hintern : ∀ σ r, I σ → I (σ.intern O r).2)
    (hrecord : ∀ σ a b rs, I σ → σ.vertexForArgs a b = none →
      I (σ.recordComposition O a b rs).2)
    (e : Expression G R) : ∀ σ, I σ → I (eval O e σ).2 := by
  induction e using expression_induction with
  | hrule r =>
    intro σ h
    cases r with
    | none => simpa [eval] using h
    | some r => simpa [eval, evalRule] using hintern σ r h
  | hunion exps ih =>
    intro σ h
    simp only [eval]
    exact evalUnion_preserves O I exps ih [] σ h
  | hbind b =>
    intro σ h
    obtain ⟨g⟩ := b
    cases g with
    | none => simpa [eval] using h
    | some g => simpa [eval, evalRule] using hintern σ _ h
  | hid b =>
    intro σ h
    obtain ⟨g⟩ := b
    cases g with
    | none => simpa [eval] using h
    | some g => simpa [eval, evalRule] using hintern σ _ h
  | hunbind b =>
    intro σ h
    obtain ⟨g⟩ := b
    cases g with
    | none => simpa [eval] using h
    | some g => simpa [eval, evalRule] using hintern σ _ h
  | hcommon f s d m c ihf ihs =>
    intro σ h
    simp only [eval]
    exact evalCompose_preserves O I hrecord _ f s d ihf ihs σ h
  | hparallel f s d ihf ihs =>
    intro σ h
    simp only [eval]
    exact evalCompose_preserves O I hrecord _ f s d ihf ihs σ h
  | hsub f s d p ihf ihs =>
    intro σ h
    simp only [eval]
    exact evalCompose_preserves O I hrecord _ f s d ihf ihs σ h
  | hsuper f s d p e ihf ihs =>
    intro σ h
    simp only [eval]
    exact evalCompose_preserves O I hrecord _ f s d ihf ihs σ h

end
end Evaluator
end RC

namespace RC
open RCExp
namespace Evaluator
section
variable {G R : Type} [DecidableEq R]

omit [DecidableEq R] in
theorem isomorphic_pred_congr (O : Oracles G R)
    (hsymm : ∀ a b, O.areIsomorphic a b = true → O.areIsomorphic b a = true)
    (htrans : ∀ a b c, O.areIsomorphic a b = true → O.areIsomorphic b c = true →
      O.areIsomorphic a c = true)
    (r r' : R) (h : O.areIsomorphic r r' = true) :
    (fun m => O.areIsomorphic m r') = (fun m => O.areIsomorphic m r) := by
  funext m
  cases h1 : O.areIsomorphic m r with
  | true => exact htrans m r r' h1 h
  | false =>
    cases h2 : O.areIsomorphic m r' with
    | false => rfl
    | true => rw [htrans m r' r h2 (hsymm r r' h)] at h1; exact absurd h1 (by decide)

theorem intern_fst_find (O : Oracles G R)
    (hrefl : ∀ a, O.areIsomorphic a a = true) (σ : Evaluator R) (r : R) :
    (σ.intern O r).2.database.find? (fun m => O.areIsomorphic m r)
      = some (σ.intern O r).1 := by
  unfold intern
  cases hf : σ.database.find? (fun m => O.areIsomorphic m r) with
  | some m => exact hf
  | none =>
    have hnot : r ∉ σ.database := by
      intro hmem
      have := List.find?_eq_none.1 hf r hmem
      simp [hrefl r] at this
    simp [addRule, hnot, List.find?_append, hf, hrefl r]

theorem addRule_fields (O : Oracles G R) (σ : Evaluator R) (r : R) :
    (σ.addRule O r).2.rcg = σ.rcg ∧ (σ.addRule O r).2.ruleToVertex = σ.ruleToVertex ∧
      (σ.addRule O r).2.argsToVertex = σ.argsToVertex ∧
      (σ.addRule O r).2.products = σ.products := by
  unfold addRule
  split
  · exact ⟨rfl, rfl, rfl, rfl⟩
  · split <;> exact ⟨rfl, rfl, rfl, rfl⟩

theorem addRule_database_le (O : Oracles G R) (σ : Evaluator R) (r : R) :
    σ.database <+: (σ.addRule O r).2.database := by
  unfold addRule
  split
  · exact List.prefix_refl _
  · split
    · exact List.prefix_refl _
    · exact List.prefix_append _ _

theorem giveProductStatus_fields (O : Oracles G R) (σ : Evaluator R) (r : R) :
    (σ.giveProductStatus O r).rcg = σ.rcg ∧
      (σ.giveProductStatus O r).ruleToVertex = σ.ruleToVertex ∧
      (σ.giveProductStatus O r).argsToVertex = σ.argsToVertex ∧
      (σ.giveProductStatus O r).database = σ.database := by
  unfold giveProductStatus
  split
  · exact ⟨rfl, rfl, rfl, rfl⟩
  · split <;> exact ⟨rfl, rfl, rfl, rfl⟩

theorem construct_preserves (O : Oracles G R) (I : Evaluator R → Prop)
    (hnew : I (Evaluator.new []))
    (hintern : ∀ σ r, I σ → I (σ.intern O r).2) (database : List R) :
    I (construct O database) := by
  unfold construct
  generalize (Evaluator.new [] : Evaluator R) = σ at hnew
  induction database generalizing σ with
  | nil => exact hnew
  | cons r rs ih => exact ih _ (hintern σ r hnew)

theorem intern_fst_eq_checkIfNew (O : Oracles G R) (σ : Evaluator R) (r : R) :
    (σ.intern O r).1 = checkIfNew O σ r := by
  unfold intern checkIfNew
  cases σ.database.find? (fun m => O.areIsomorphic m r) <;> rfl

/-- C7: interning is idempotent.  With an identity oracle that is an
equivalence relation, interning the canonical rule returned for `r` returns
that rule again and changes nothing, and interning any rule isomorphic to `r`
afterwards returns the same canonical rule, again changing nothing.  The rule
`intern` returns is the one `checkIfNew` finds. -/
theorem intern_idempotent (O : Oracles G R)
    (hrefl : ∀ a, O.areIsomorphic a a = true)
    (hsymm : ∀ a b, O.areIsomorphic a b = true → O.areIsomorphic b a = true)
    (htrans : ∀ a b c, O.areIsomorphic a b = true → O.areIsomorphic b c = true →
      O.areIsomorphic a c = true)
    (σ : Evaluator R) (r r' : R) (hiso : O.areIsomorphic r r' = true) :
    (σ.intern O r).2.intern O (σ.intern O r).1 = σ.intern O r ∧
    (σ.intern O r).2.intern O r' = σ.intern O r ∧
    (σ.intern O r).1 = checkIfNew O σ r ∧
    checkIfNew O (σ.intern O r).2 r' = (σ.intern O r).1 := by
  have hfind := intern_fst_find O hrefl σ r
  have hc : O.areIsomorphic (σ.intern O r).1 r = true := by
    have := List.find?_some hfind
    simpa using this
  have hp' := isomorphic_pred_congr O hsymm htrans r r' hiso
  refine ⟨?_, ?_, intern_fst_eq_checkIfNew O σ r, ?_⟩
  · have hp := isomorphic_pred_congr O hsymm htrans r (σ.intern O r).1 (hsymm _ _ hc)
    rw [intern.eq_1 O (σ.intern O r).2, hp, hfind]
  · rw [intern.eq_1 O (σ.intern O r).2, hp', hfind]
  · rw [checkIfNew.eq_1 O (σ.intern O r).2, hp', hfind]

theorem intern_idempotent_witness :
    parityOracles.areIsomorphic 4 6 = true ∧
    (((Evaluator.new [1]).intern parityOracles 4).2.intern parityOracles
        ((Evaluator.new [1]).intern parityOracles 4).1).1 = 4 ∧
    (((Evaluator.new [1]).intern parityOracles 4).2.intern parityOracles 6).1 = 4 ∧
    (((Evaluator.new [1]).intern parityOracles 4).2.intern parityOracles 6).2.database
      = [1, 4] := by
  have h := intern_idempotent parityOracles
    (by intro a; simp [parityOracles])
    (by intro a b; simp only [parityOracles, beq_iff_eq]; exact Eq.symm)
    (by intro a b c; simp only [parityOracles, beq_iff_eq]; exact Eq.trans)
    (Evaluator.new [1]) 4 6 (by decide)
  refine ⟨by decide, ?_, ?_, ?_⟩
  · rw [h.1]; decide
  · rw [h.2.1]; decide
  · rw [h.2.1]; decide

end
end Evaluator
end RC

namespace RC
open RCExp
namespace Evaluator
section
variable {G R : Type} [DecidableEq R]

/-- C9: in every evaluator state, evaluating the single-element union
`Union([e])` gives the same outcome as evaluating `e`: the same set of rules
(or the same failure) and the same resulting state. -/
theorem eval_union_singleton (O : Oracles G R) (e : Expression G R) (σ : Evaluator R) :
    ∃ u, Union.new [e] = .ok u ∧ eval O (Expression.ofUnion u) σ = eval O e σ := by
  refine ⟨⟨[e]⟩, rfl, ?_⟩
  simp only [Expression.ofUnion, eval, evalUnion]
  rcases eval O e σ with ⟨_ | rs, σ1⟩
  · rfl
  · simp [unite]

/-! ## The database holds no two isomorphic rules -/

omit [DecidableEq R] in
theorem isoFree_append_singleton (O : Oracles G R)
    (hsymm : ∀ a b, O.areIsomorphic a b = true → O.areIsomorphic b a = true)
    (l : List R) (r : R) (hl : IsoFree O l)
    (hr : ∀ x ∈ l, O.areIsomorphic x r = false) : IsoFree O (l ++ [r]) := by
  intro x hx y hy hxy
  simp only [List.mem_append, List.mem_singleton] at hx hy
  rcases hx with hx | rfl <;> rcases hy with hy | rfl
  · exact hl x hx y hy hxy
  · rw [hr x hx] at hxy; exact absurd hxy (by decide)
  · have h := hsymm _ _ hxy
    rw [hr y hy] at h
    exact absurd h (by decide)
  · rfl

end
end Evaluator
end RC

namespace RC
open RCExp
namespace Evaluator
section
variable {G R : Type} [DecidableEq R]

omit [DecidableEq R] in
@[simp] theorem addVertex_database (σ : Evaluator R) (p : VProp R) :
    (σ.addVertex p).2.database = σ.database := rfl

omit [DecidableEq R] in
@[simp] theorem addVertex_products (σ : Evaluator R) (p : VProp R) :
    (σ.addVertex p).2.products = σ.products := rfl

omit [DecidableEq R] in
@[simp] theorem addEdge_database (σ : Evaluator R) (s t : Vertex) (k : EdgeKind) :
    (σ.addEdge s t k).database = σ.database := rfl

omit [DecidableEq R] in
@[simp] theorem addEdge_products (σ : Evaluator R) (s t : Vertex) (k : EdgeKind) :
    (σ.addEdge s t k).products = σ.products := rfl

@[simp] theorem addComposition_database (σ : Evaluator R) (a b : R)
    (v w : Vertex) : (σ.addComposition a b v w).2.database = σ.database := rfl

@[simp] theorem addComposition_products (σ : Evaluator R) (a b : R)
    (v w : Vertex) : (σ.addComposition a b v w).2.products = σ.products := rfl

@[simp] theorem getVertexFromRule_database (σ : Evaluator R) (r : R) :
    (σ.getVertexFromRule r).2.database = σ.database := by
  unfold getVertexFromRule
  cases σ.ruleToVertex r <;> rfl

@[simp] theorem getVertexFromRule_products (σ : Evaluator R) (r : R) :
    (σ.getVertexFromRule r).2.products = σ.products := by
  unfold getVertexFromRule
  cases σ.ruleToVertex r <;> rfl

theorem recordResult_preserves_db (O : Oracles G R) (I : Evaluator R → Prop)
    (hcongr : ∀ σ σ', σ'.database = σ.database → σ'.products = σ.products → I σ → I σ')
    (hintern : ∀ σ r, I σ → I (σ.intern O r).2)
    (vComp : Vertex) (st : List R × Evaluator R) (cand : R) (h : I st.2) :
    I (recordResult O vComp st cand).2 := by
  have h1 := hintern st.2 cand h
  unfold recordResult
  simp only
  split
  · exact hcongr _ _ (by simp) (by simp) h1
  · exact hcongr _ _ (by simp) (by simp) h1

theorem foldl_recordResult_preserves_db (O : Oracles G R) (I : Evaluator R → Prop)
    (hcongr : ∀ σ σ', σ'.database = σ.database → σ'.products = σ.products → I σ → I σ')
    (hintern : ∀ σ r, I σ → I (σ.intern O r).2)
    (vComp : Vertex) (rs : List R) (st : List R × Evaluator R) (h : I st.2) :
    I (rs.foldl (recordResult O vComp) st).2 := by
  induction rs generalizing st with
  | nil => exact h
  | cons r rs ih =>
    exact ih _ (recordResult_preserves_db O I hcongr hintern vComp st r h)

theorem recordComposition_preserves_db (O : Oracles G R) (I : Evaluator R → Prop)
    (hcongr : ∀ σ σ', σ'.database = σ.database → σ'.products = σ.products → I σ → I σ')
    (hintern : ∀ σ r, I σ → I (σ.intern O r).2)
    (σ : Evaluator R) (a b : R) (rs : List R) (h : I σ) :
    I (σ.recordComposition O a b rs).2 := by
  unfold recordComposition
  simp only
  apply foldl_recordResult_preserves_db O I hcongr hintern
  exact hcongr σ _ (by simp) (by simp) h

theorem intern_databaseInv (O : Oracles G R)
    (hsymm : ∀ a b, O.areIsomorphic a b = true → O.areIsomorphic b a = true)
    (σ : Evaluator R) (r : R) (h : DatabaseInv O σ) :
    DatabaseInv O (σ.intern O r).2 := by
  unfold intern
  cases hf : σ.database.find? (fun m => O.areIsomorphic m r) with
  | some m => exact h
  | none =>
    simp only [addRule, hf]
    split
    · exact h
    · refine ⟨isoFree_append_singleton O hsymm _ _ h.1 ?_, h.2⟩
      intro x hx
      have := List.find?_eq_none.1 hf x hx
      simpa using this

theorem eval_databaseInv (O : Oracles G R)
    (hsymm : ∀ a b, O.areIsomorphic a b = true → O.areIsomorphic b a = true)
    (e : Expression G R) (σ : Evaluator R) (h : DatabaseInv O σ) :
    DatabaseInv O (eval O e σ).2 := by
  have hcongr : ∀ σ σ' : Evaluator R, σ'.database = σ.database →
      σ'.products = σ.products → DatabaseInv O σ → DatabaseInv O σ' := by
    intro σ σ' hd hp hσ
    unfold DatabaseInv
    rw [hd, hp]
    exact hσ
  exact eval_preserves O (DatabaseInv O) (intern_databaseInv O hsymm)
    (fun σ a b rs hσ _ =>
      recordComposition_preserves_db O _ hcongr (intern_databaseInv O hsymm) σ a b rs hσ)
    e σ h

theorem step_databaseInv (O : Oracles G R)
    (hsymm : ∀ a b, O.areIsomorphic a b = true → O.areIsomorphic b a = true)
    {σ σ' : Evaluator R} (hstep : Step O σ σ') (h : DatabaseInv O σ) :
    DatabaseInv O σ' := by
  cases hstep with
  | eval e => exact eval_databaseInv O hsymm e σ h
  | addRule r =>
    cases hf : σ.database.find? (fun m => O.areIsomorphic m r) with
    | some m =>
      simp only [addRule, hf]
      split <;> exact h
    | none =>
      simp only [addRule, hf]
      split
      · exact h
      · refine ⟨isoFree_append_singleton O hsymm _ _ h.1 ?_, h.2⟩
        intro x hx
        have := List.find?_eq_none.1 hf x hx
        simpa using this
  | giveProductStatus r =>
    cases hf : σ.products.find? (fun m => O.areIsomorphic m r) with
    | some m =>
      simp only [giveProductStatus, hf]
      split <;> exact h
    | none =>
      simp only [giveProductStatus, hf]
      split
      · exact h
      · refine ⟨h.1, isoFree_append_singleton O hsymm _ _ h.2 ?_⟩
        intro x hx
        have := List.find?_eq_none.1 hf x hx
        simpa using this

theorem reachable_databaseInv (O : Oracles G R)
    (hsymm : ∀ a b, O.areIsomorphic a b = true → O.areIsomorphic b a = true)
    (database : List R) (σ : Evaluator R) (h : Reachable O database σ) :
    DatabaseInv O σ := by
  induction h with
  | new =>
    refine construct_preserves O (DatabaseInv O) ?_ (intern_databaseInv O hsymm) database
    constructor <;> (intro x hx; simp [Evaluator.new] at hx)
  | step _ hstep ih => exact step_databaseInv O hsymm hstep ih

/-- C8: with a symmetric identity oracle, in every state an evaluator reaches,
starting from its construction on a caller-supplied database and through any
sequence of `eval`, `addRule` and `giveProductStatus` calls with arbitrary
arguments, no two distinct members of the rule database are isomorphic to each
other, and likewise for the products. -/
theorem reachable_isoFree (O : Oracles G R)
    (hsymm : ∀ a b, O.areIsomorphic a b = true → O.areIsomorphic b a = true)
    (database : List R) (σ : Evaluator R) (h : Reachable O database σ) :
    IsoFree O σ.database ∧ IsoFree O σ.products :=
  reachable_databaseInv O hsymm database σ h

end
end Evaluator
end RC

namespace RC
open RCExp
namespace Evaluator

theorem reachable_isoFree_witness :
    (((((construct lastDigitOracles [1, 11, 2]).addRule lastDigitOracles 21).2.giveProductStatus
        lastDigitOracles 1).giveProductStatus lastDigitOracles 11).database = [1, 2] ∧
      ((((construct lastDigitOracles [1, 11, 2]).addRule lastDigitOracles 21).2.giveProductStatus
        lastDigitOracles 1).giveProductStatus lastDigitOracles 11).products = [1]) ∧
    IsoFree lastDigitOracles
      ((((construct lastDigitOracles [1, 11, 2]).addRule lastDigitOracles 21).2.giveProductStatus
        lastDigitOracles 1).giveProductStatus lastDigitOracles 11).database ∧
    IsoFree lastDigitOracles
      ((((construct lastDigitOracles [1, 11, 2]).addRule lastDigitOracles 21).2.giveProductStatus
        lastDigitOracles 1).giveProductStatus lastDigitOracles 11).products :=
  ⟨by decide,
    reachable_isoFree lastDigitOracles
      (by intro a b; simp only [lastDigitOracles, beq_iff_eq]; exact Eq.symm)
      [1, 11, 2] _
      (Reachable.step
        (Reachable.step
          (Reachable.step Reachable.new (Step.addRule _ 21))
          (Step.giveProductStatus _ 1))
        (Step.giveProductStatus _ 11))⟩

end Evaluator
end RC

namespace RC
open RCExp
namespace Evaluator
section
variable {G R : Type} [DecidableEq R]

/-! ## The composition cache -/

omit [DecidableEq R] in
theorem cacheInv_congr {σ σ' : Evaluator R} (hg : σ'.rcg = σ.rcg)
    (h1 : σ'.ruleToVertex = σ.ruleToVertex) (h2 : σ'.argsToVertex = σ.argsToVertex)
    (h : CacheInv σ) : CacheInv σ' := by
  obtain ⟨db, pr, g, m1, m2⟩ := σ
  obtain ⟨db', pr', g', m1', m2'⟩ := σ'
  simp only at hg h1 h2
  subst hg h1 h2
  exact ⟨h.edges_lt, h.rule_vertex, h.args_vertex, h.args_complete, h.args_injective⟩

theorem intern_rcg (O : Oracles G R) (σ : Evaluator R) (r : R) :
    (σ.intern O r).2.rcg = σ.rcg ∧ (σ.intern O r).2.ruleToVertex = σ.ruleToVertex ∧
      (σ.intern O r).2.argsToVertex = σ.argsToVertex ∧
      (σ.intern O r).2.products = σ.products := by
  unfold intern
  cases σ.database.find? (fun m => O.areIsomorphic m r) with
  | some m => exact ⟨rfl, rfl, rfl, rfl⟩
  | none => exact addRule_fields O σ r

theorem intern_cacheInv (O : Oracles G R) (σ : Evaluator R) (r : R) (h : CacheInv σ) :
    CacheInv (σ.intern O r).2 :=
  cacheInv_congr (intern_rcg O σ r).1 (intern_rcg O σ r).2.1 (intern_rcg O σ r).2.2.1 h

omit [DecidableEq R] in
theorem ruleAt_append_vertex (σ : Evaluator R) (p : VProp R) (v : Vertex)
    (hv : v < σ.rcg.vertices.length) :
    (σ.addVertex p).2.ruleAt v = σ.ruleAt v := by
  simp [ruleAt, addVertex, List.getElem?_append_left hv]

omit [DecidableEq R] in
theorem isCompositionFor_addVertex (σ : Evaluator R) (p : VProp R) (h : CacheInv σ)
    (v : Vertex) (a b : R) :
    (σ.addVertex p).2.IsCompositionFor v a b ↔ σ.IsCompositionFor v a b := by
  have hedge : ∀ e ∈ σ.rcg.edges, ∀ x, (σ.addVertex p).2.ruleAt e.target = some x ↔
      σ.ruleAt e.target = some x := by
    intro e he x
    rw [ruleAt_append_vertex σ p e.target (h.edges_lt e he).2]
  have hkind : v < σ.rcg.vertices.length →
      ((σ.addVertex p).2.rcg.vertices.get? v = σ.rcg.vertices.get? v) := by
    intro hv
    simp [addVertex, List.getElem?_append_left hv]
  unfold IsCompositionFor
  constructor
  · rintro ⟨hk, ⟨e1, he1, hs1, hk1, hr1⟩, ⟨e2, he2, hs2, hk2, hr2⟩⟩
    have hv : v < σ.rcg.vertices.length := hs1 ▸ (h.edges_lt e1 he1).1
    rw [hkind hv] at hk
    exact ⟨hk, ⟨e1, he1, hs1, hk1, (hedge e1 he1 a).1 hr1⟩,
      ⟨e2, he2, hs2, hk2, (hedge e2 he2 b).1 hr2⟩⟩
  · rintro ⟨hk, ⟨e1, he1, hs1, hk1, hr1⟩, ⟨e2, he2, hs2, hk2, hr2⟩⟩
    have hv : v < σ.rcg.vertices.length := hs1 ▸ (h.edges_lt e1 he1).1
    rw [← hkind hv] at hk
    exact ⟨hk, ⟨e1, he1, hs1, hk1, (hedge e1 he1 a).2 hr1⟩,
      ⟨e2, he2, hs2, hk2, (hedge e2 he2 b).2 hr2⟩⟩

end
end Evaluator
end RC

namespace RC
open RCExp
namespace Evaluator
section
variable {G R : Type} [DecidableEq R]

omit [DecidableEq R] in
theorem ruleAt_lt (σ : Evaluator R) (v : Vertex) (r : R) (h : σ.ruleAt v = some r) :
    v < σ.rcg.vertices.length := by
  unfold ruleAt at h
  by_contra hv
  rw [List.get?_eq_none.2 (Nat.le_of_not_lt hv)] at h
  simp at h

omit [DecidableEq R] in
theorem isCompositionFor_lt (σ : Evaluator R) (v : Vertex) (a b : R)
    (h : σ.IsCompositionFor v a b) : v < σ.rcg.vertices.length := by
  have hk := h.1
  by_contra hv
  rw [List.get?_eq_none.2 (Nat.le_of_not_lt hv)] at hk
  simp at hk

omit [DecidableEq R] in
theorem addVertex_cacheInv (σ : Evaluator R) (p : VProp R) (h : CacheInv σ) :
    CacheInv (σ.addVertex p).2 := by
  refine ⟨?_, ?_, ?_, ?_, h.args_injective⟩
  · intro e he
    have := h.edges_lt e he
    have hlen : (σ.addVertex p).2.rcg.vertices.length = σ.rcg.vertices.length + 1 := by
      simp [addVertex]
    rw [hlen]
    exact ⟨Nat.lt_succ_of_lt this.1, Nat.lt_succ_of_lt this.2⟩
  · intro r v hv
    have hg := h.rule_vertex r v hv
    have hlt : v < σ.rcg.vertices.length := by
      by_contra hn
      rw [List.get?_eq_none.2 (Nat.le_of_not_lt hn)] at hg
      simp at hg
    simp only [addVertex, List.get?_eq_getElem?, List.getElem?_append_left hlt]
    simpa using hg
  · intro a b v hv
    exact (isCompositionFor_addVertex σ p h v a b).2 (h.args_vertex a b v hv)
  · intro v a b hv
    exact h.args_complete v a b ((isCompositionFor_addVertex σ p h v a b).1 hv)

theorem getVertexFromRule_cacheInv (σ : Evaluator R) (r : R) (h : CacheInv σ) :
    CacheInv (σ.getVertexFromRule r).2 ∧
      (σ.getVertexFromRule r).2.ruleAt (σ.getVertexFromRule r).1 = some r := by
  unfold getVertexFromRule
  cases hr : σ.ruleToVertex r with
  | some v =>
    refine ⟨h, ?_⟩
    have hg := h.rule_vertex r v hr
    simp only [ruleAt, hg, Option.some_bind]
  | none =>
    have hav := addVertex_cacheInv σ ⟨.Rule, some r⟩ h
    refine ⟨⟨hav.edges_lt, ?_, hav.args_vertex, hav.args_complete, hav.args_injective⟩, ?_⟩
    · intro r' v hv
      simp only at hv
      by_cases hrr : r' = r
      · subst hrr
        simp only [Function.update_same, Option.some.injEq] at hv
        subst hv
        simp [addVertex]
      · rw [Function.update_noteq hrr] at hv
        exact hav.rule_vertex r' v hv
    · simp [ruleAt, addVertex]

end
end Evaluator
end RC

namespace RC
open RCExp
namespace Evaluator
section
variable {G R : Type} [DecidableEq R]

omit [DecidableEq R] in
theorem isCompositionFor_addEdge_result (σ : Evaluator R) (s t v : Vertex) (a b : R) :
    (σ.addEdge s t .Result).IsCompositionFor v a b ↔ σ.IsCompositionFor v a b := by
  simp [IsCompositionFor, addEdge, ruleAt, List.mem_append, or_and_right, exists_or]

omit [DecidableEq R] in
theorem addEdge_result_cacheInv (σ : Evaluator R) (s t : Vertex) (h : CacheInv σ)
    (hs : s < σ.rcg.vertices.length) (ht : t < σ.rcg.vertices.length) :
    CacheInv (σ.addEdge s t .Result) := by
  refine ⟨?_, h.rule_vertex, ?_, ?_, h.args_injective⟩
  · intro e he
    simp only [addEdge, List.mem_append, List.mem_singleton] at he
    rcases he with he | rfl
    · exact h.edges_lt e he
    · exact ⟨hs, ht⟩
  · intro a b v hv
    exact (isCompositionFor_addEdge_result σ s t v a b).2 (h.args_vertex a b v hv)
  · intro v a b hv
    exact h.args_complete v a b ((isCompositionFor_addEdge_result σ s t v a b).1 hv)

theorem isCompositionFor_addComposition (σ : Evaluator R) (a b : R) (v1 v2 : Vertex)
    (h : CacheInv σ) (h1 : σ.ruleAt v1 = some a) (h2 : σ.ruleAt v2 = some b)
    (v : Vertex) (x y : R) :
    (σ.addComposition a b v1 v2).2.IsCompositionFor v x y ↔
      σ.IsCompositionFor v x y ∨ (v = σ.rcg.vertices.length ∧ x = a ∧ y = b) := by
  have hv1 := ruleAt_lt σ v1 a h1
  have hv2 := ruleAt_lt σ v2 b h2
  have hrule : ∀ t, t < σ.rcg.vertices.length →
      (σ.addComposition a b v1 v2).2.ruleAt t = σ.ruleAt t := by
    intro t ht
    simp [ruleAt, addComposition, addVertex, addEdge, List.getElem?_append_left ht]
  have hedges : (σ.addComposition a b v1 v2).2.rcg.edges =
      σ.rcg.edges ++ [⟨σ.rcg.vertices.length, v1, ⟨.First⟩⟩,
        ⟨σ.rcg.vertices.length, v2, ⟨.Second⟩⟩] := by
    simp [addComposition, addVertex, addEdge]
  have hverts : (σ.addComposition a b v1 v2).2.rcg.vertices =
      σ.rcg.vertices ++ [⟨.Composition, none⟩] := rfl
  constructor
  · rintro ⟨hk, ⟨e1, he1, hs1, hk1, hr1⟩, ⟨e2, he2, hs2, hk2, hr2⟩⟩
    rw [hedges] at he1 he2
    simp only [List.mem_append, List.mem_cons, List.mem_singleton, List.not_mem_nil,
      or_false] at he1 he2
    by_cases hv : v < σ.rcg.vertices.length
    · left
      have hne : v ≠ σ.rcg.vertices.length := Nat.ne_of_lt hv
      rw [hverts, List.get?_eq_getElem?, List.getElem?_append_left hv,
        ← List.get?_eq_getElem?] at hk
      refine ⟨hk, ⟨e1, ?_, hs1, hk1, ?_⟩, ⟨e2, ?_, hs2, hk2, ?_⟩⟩
      · rcases he1 with he1 | rfl | rfl
        · exact he1
        · exact absurd hs1.symm hne
        · exact absurd hs1.symm hne
      · rcases he1 with he1 | rfl | rfl
        · rw [← hrule _ (h.edges_lt e1 he1).2]; exact hr1
        · exact absurd hs1.symm hne
        · exact absurd hs1.symm hne
      · rcases he2 with he2 | rfl | rfl
        · exact he2
        · exact absurd hs2.symm hne
        · exact absurd hs2.symm hne
      · rcases he2 with he2 | rfl | rfl
        · rw [← hrule _ (h.edges_lt e2 he2).2]; exact hr2
        · exact absurd hs2.symm hne
        · exact absurd hs2.symm hne
    · right
      have hveq : v = σ.rcg.vertices.length := by
        have hlt : v < (σ.addComposition a b v1 v2).2.rcg.vertices.length := by
          by_contra hn
          rw [List.get?_eq_none.2 (Nat.le_of_not_lt hn)] at hk
          simp at hk
        rw [hverts, List.length_append, List.length_singleton] at hlt
        exact Nat.le_antisymm (Nat.le_of_lt_succ hlt) (Nat.le_of_not_lt hv)
      refine ⟨hveq, ?_, ?_⟩
      · rcases he1 with he1 | rfl | rfl
        · exact absurd (hs1 ▸ (h.edges_lt e1 he1).1) hv
        · rw [hrule _ hv1, h1] at hr1
          exact (Option.some.inj hr1).symm
        · simp at hk1
      · rcases he2 with he2 | rfl | rfl
        · exact absurd (hs2 ▸ (h.edges_lt e2 he2).1) hv
        · simp at hk2
        · rw [hrule _ hv2, h2] at hr2
          exact (Option.some.inj hr2).symm
  · rintro (⟨hk, ⟨e1, he1, hs1, hk1, hr1⟩, ⟨e2, he2, hs2, hk2, hr2⟩⟩ | ⟨rfl, rfl, rfl⟩)
    · have hv : v < σ.rcg.vertices.length := hs1 ▸ (h.edges_lt e1 he1).1
      refine ⟨?_, ⟨e1, ?_, hs1, hk1, ?_⟩, ⟨e2, ?_, hs2, hk2, ?_⟩⟩
      · rw [hverts, List.get?_eq_getElem?, List.getElem?_append_left hv,
          ← List.get?_eq_getElem?]
        exact hk
      · rw [hedges]; exact List.mem_append_left _ he1
      · rw [hrule _ (h.edges_lt e1 he1).2]; exact hr1
      · rw [hedges]; exact List.mem_append_left _ he2
      · rw [hrule _ (h.edges_lt e2 he2).2]; exact hr2
    · refine ⟨?_, ⟨⟨σ.rcg.vertices.length, v1, ⟨.First⟩⟩, ?_, rfl, rfl, ?_⟩,
        ⟨⟨σ.rcg.vertices.length, v2, ⟨.Second⟩⟩, ?_, rfl, rfl, ?_⟩⟩
      · simp [hverts]
      · rw [hedges]; simp
      · rw [hrule _ hv1]; exact h1
      · rw [hedges]; simp
      · rw [hrule _ hv2]; exact h2

end
end Evaluator
end RC

namespace RC
open RCExp
namespace Evaluator
section
variable {G R : Type} [DecidableEq R]

theorem addComposition_cacheInv (σ : Evaluator R) (a b : R) (v1 v2 : Vertex)
    (h : CacheInv σ) (hmiss : σ.argsToVertex (a, b) = none)
    (h1 : σ.ruleAt v1 = some a) (h2 : σ.ruleAt v2 = some b) :
    CacheInv (σ.addComposition a b v1 v2).2 := by
  have hv1 := ruleAt_lt σ v1 a h1
  have hv2 := ruleAt_lt σ v2 b h2
  have hchar := isCompositionFor_addComposition σ a b v1 v2 h h1 h2
  have hargs : (σ.addComposition a b v1 v2).2.argsToVertex =
      Function.update σ.argsToVertex (a, b) (some σ.rcg.vertices.length) := rfl
  have hold : ∀ k v, σ.argsToVertex k = some v → v ≠ σ.rcg.vertices.length := by
    intro k v hk
    exact Nat.ne_of_lt (isCompositionFor_lt σ v k.1 k.2 (h.args_vertex k.1 k.2 v hk))
  refine ⟨?_, ?_, ?_, ?_, ?_⟩
  · intro e he
    have hlen : (σ.addComposition a b v1 v2).2.rcg.vertices.length =
        σ.rcg.vertices.length + 1 := by
      simp [addComposition, addVertex, addEdge]
    have hedges : (σ.addComposition a b v1 v2).2.rcg.edges =
        σ.rcg.edges ++ [⟨σ.rcg.vertices.length, v1, ⟨.First⟩⟩,
          ⟨σ.rcg.vertices.length, v2, ⟨.Second⟩⟩] := by
      simp [addComposition, addVertex, addEdge]
    rw [hedges] at he
    simp only [List.mem_append, List.mem_cons, List.mem_singleton, List.not_mem_nil,
      or_false] at he
    rw [hlen]
    rcases he with he | rfl | rfl
    · exact ⟨Nat.lt_succ_of_lt (h.edges_lt e he).1, Nat.lt_succ_of_lt (h.edges_lt e he).2⟩
    · exact ⟨Nat.lt_succ_self _, Nat.lt_succ_of_lt hv1⟩
    · exact ⟨Nat.lt_succ_self _, Nat.lt_succ_of_lt hv2⟩
  · intro r v hv
    have hg := h.rule_vertex r v hv
    have hlt : v < σ.rcg.vertices.length := by
      by_contra hn
      rw [List.get?_eq_none.2 (Nat.le_of_not_lt hn)] at hg
      simp at hg
    show (σ.rcg.vertices ++ [(⟨.Composition, none⟩ : VProp R)]).get? v = _
    rw [List.get?_eq_getElem?, List.getElem?_append_left hlt, ← List.get?_eq_getElem?]
    exact hg
  · intro x y v hv
    rw [hargs] at hv
    by_cases hk : (x, y) = (a, b)
    · rw [hk, Function.update_same] at hv
      obtain ⟨rfl, rfl⟩ := Prod.mk.inj hk
      exact (hchar v x y).2 (Or.inr ⟨(Option.some.inj hv).symm, rfl, rfl⟩)
    · rw [Function.update_noteq hk] at hv
      exact (hchar v x y).2 (Or.inl (h.args_vertex x y v hv))
  · intro v x y hv
    rw [hargs]
    rcases (hchar v x y).1 hv with hold' | ⟨rfl, rfl, rfl⟩
    · have hl := h.args_complete v x y hold'
      have hk : (x, y) ≠ (a, b) := by
        intro hk
        rw [hk, hmiss] at hl
        exact absurd hl (by simp)
      rw [Function.update_noteq hk]
      exact hl
    · rw [Function.update_same]
  · intro k k' v hk hk'
    rw [hargs] at hk hk'
    by_cases h1k : k = (a, b)
    · by_cases h2k : k' = (a, b)
      · rw [h1k, h2k]
      · rw [h1k, Function.update_same] at hk
        rw [Function.update_noteq h2k] at hk'
        exact absurd (Option.some.inj hk).symm (hold k' v hk')
    · by_cases h2k : k' = (a, b)
      · rw [h2k, Function.update_same] at hk'
        rw [Function.update_noteq h1k] at hk
        exact absurd (Option.some.inj hk').symm (hold k v hk)
      · rw [Function.update_noteq h1k] at hk
        rw [Function.update_noteq h2k] at hk'
        exact h.args_injective k k' v hk hk'

theorem recordResult_cacheInv (O : Oracles G R) (vComp : Vertex)
    (st : List R × Evaluator R) (cand : R)
    (h : CacheInv st.2) (hv : vComp < st.2.rcg.vertices.length) :
    CacheInv (recordResult O vComp st cand).2 ∧
      vComp < (recordResult O vComp st cand).2.rcg.vertices.length := by
  have h1 := intern_cacheInv O st.2 cand h
  have hlen1 : (st.2.intern O cand).2.rcg.vertices.length = st.2.rcg.vertices.length := by
    rw [(intern_rcg O st.2 cand).1]
  have h2 := getVertexFromRule_cacheInv (st.2.intern O cand).2 (st.2.intern O cand).1 h1
  have hlt := ruleAt_lt _ _ _ h2.2
  have hmono : (st.2.intern O cand).2.rcg.vertices.length ≤
      ((st.2.intern O cand).2.getVertexFromRule (st.2.intern O cand).1).2.rcg.vertices.length := by
    unfold getVertexFromRule
    cases (st.2.intern O cand).2.ruleToVertex (st.2.intern O cand).1 with
    | some v => exact Nat.le_refl _
    | none => simp [addVertex]
  have hv' : vComp <
      ((st.2.intern O cand).2.getVertexFromRule (st.2.intern O cand).1).2.rcg.vertices.length :=
    Nat.lt_of_lt_of_le (hlen1 ▸ hv) hmono
  unfold recordResult
  simp only
  split
  · exact ⟨h2.1, hv'⟩
  · exact ⟨addEdge_result_cacheInv _ _ _ h2.1 hv' hlt, hv'⟩

theorem foldl_recordResult_cacheInv (O : Oracles G R) (vComp : Vertex) (rs : List R)
    (st : List R × Evaluator R)
    (h : CacheInv st.2) (hv : vComp < st.2.rcg.vertices.length) :
    CacheInv (rs.foldl (recordResult O vComp) st).2 := by
  induction rs generalizing st with
  | nil => exact h
  | cons r rs ih =>
    have := recordResult_cacheInv O vComp st r h hv
    exact ih _ this.1 this.2

theorem getVertexFromRule_argsToVertex (σ : Evaluator R) (r : R) :
    (σ.getVertexFromRule r).2.argsToVertex = σ.argsToVertex := by
  unfold getVertexFromRule
  cases σ.ruleToVertex r <;> rfl

theorem getVertexFromRule_ruleAt_mono (σ : Evaluator R) (r : R) (v : Vertex) (x : R)
    (h : σ.ruleAt v = some x) : (σ.getVertexFromRule r).2.ruleAt v = some x := by
  unfold getVertexFromRule
  cases σ.ruleToVertex r with
  | some w => exact h
  | none =>
    have := ruleAt_append_vertex σ ⟨.Rule, some r⟩ v (ruleAt_lt σ v x h)
    simp only [ruleAt, addVertex] at this ⊢
    rw [this]
    exact h

theorem recordComposition_cacheInv (O : Oracles G R) (σ : Evaluator R) (a b : R)
    (rs : List R) (h : CacheInv σ) (hmiss : σ.vertexForArgs a b = none) :
    CacheInv (σ.recordComposition O a b rs).2 := by
  have h1 := getVertexFromRule_cacheInv σ a h
  have h2 := getVertexFromRule_cacheInv (σ.getVertexFromRule a).2 b h1.1
  have hra := getVertexFromRule_ruleAt_mono (σ.getVertexFromRule a).2 b _ a h1.2
  have hmiss2 : ((σ.getVertexFromRule a).2.getVertexFromRule b).2.argsToVertex (a, b) = none := by
    rw [getVertexFromRule_argsToVertex, getVertexFromRule_argsToVertex]
    exact hmiss
  have h3 := addComposition_cacheInv _ a b _ _ h2.1 hmiss2 hra h2.2
  unfold recordComposition
  simp only
  apply foldl_recordResult_cacheInv O _ rs _ h3
  simp [addComposition, addVertex, addEdge]

theorem eval_cacheInv (O : Oracles G R) (e : Expression G R) (σ : Evaluator R)
    (h : CacheInv σ) : CacheInv (eval O e σ).2 :=
  eval_preserves O CacheInv (intern_cacheInv O)
    (fun σ a b rs hσ hmiss => recordComposition_cacheInv O σ a b rs hσ hmiss) e σ h

theorem reachable_cacheInv (O : Oracles G R) (database : List R) (σ : Evaluator R)
    (h : Reachable O database σ) : CacheInv σ := by
  induction h with
  | new =>
    refine construct_preserves O CacheInv ?_ (intern_cacheInv O) database
    refine ⟨?_, ?_, ?_, ?_, ?_⟩
    · intro e he; simp [Evaluator.new] at he
    · intro r v hv; simp [Evaluator.new] at hv
    · intro a b v hv; simp [Evaluator.new] at hv
    · intro v a b hv
      obtain ⟨_, ⟨e, he, _⟩, _⟩ := hv
      simp [Evaluator.new] at he
    · intro k k' v hv; simp [Evaluator.new] at hv
  | step _ hstep ih =>
    cases hstep with
    | eval e => exact eval_cacheInv O e _ ih
    | addRule r =>
      exact cacheInv_congr (addRule_fields O _ r).1 (addRule_fields O _ r).2.1
        (addRule_fields O _ r).2.2.1 ih
    | giveProductStatus r =>
      exact cacheInv_congr (giveProductStatus_fields O _ r).1
        (giveProductStatus_fields O _ r).2.1 (giveProductStatus_fields O _ r).2.2.1 ih

end
end Evaluator
end RC

namespace RC
open RCExp
namespace Evaluator
section
variable {G R : Type} [DecidableEq R]

theorem recordResult_argsToVertex (O : Oracles G R) (vComp : Vertex)
    (st : List R × Evaluator R) (cand : R) :
    (recordResult O vComp st cand).2.argsToVertex = st.2.argsToVertex := by
  unfold recordResult
  simp only
  split
  · rw [getVertexFromRule_argsToVertex, (intern_rcg O st.2 cand).2.2.1]
  · show ((st.2.intern O cand).2.getVertexFromRule (st.2.intern O cand).1).2.argsToVertex = _
    rw [getVertexFromRule_argsToVertex, (intern_rcg O st.2 cand).2.2.1]

theorem foldl_recordResult_argsToVertex (O : Oracles G R) (vComp : Vertex) (rs : List R)
    (st : List R × Evaluator R) :
    (rs.foldl (recordResult O vComp) st).2.argsToVertex = st.2.argsToVertex := by
  induction rs generalizing st with
  | nil => rfl
  | cons r rs ih =>
    rw [List.foldl_cons, ih, recordResult_argsToVertex]

theorem recordComposition_argsToVertex (O : Oracles G R) (σ : Evaluator R) (a b : R)
    (rs : List R) :
    (σ.recordComposition O a b rs).2.argsToVertex =
      Function.update σ.argsToVertex (a, b)
        (some ((σ.getVertexFromRule a).2.getVertexFromRule b).2.rcg.vertices.length) := by
  unfold recordComposition
  simp only
  rw [foldl_recordResult_argsToVertex]
  show Function.update ((σ.getVertexFromRule a).2.getVertexFromRule b).2.argsToVertex _ _ = _
  rw [getVertexFromRule_argsToVertex, getVertexFromRule_argsToVertex]

/-- C6: in every state an evaluator can reach, at most one composition vertex
exists for a given ordered pair of operand rules; a cache hit for `(a, b)`
returns a vertex that records the pair in that order; and the key is the
ordered pair: for `a ≠ b` the vertex returned for `(a, b)` is never returned
for `(b, a)`, and recording a composition for `(a, b)` leaves the entry of
`(b, a)` as it was. -/
theorem reachable_cache_unique (O : Oracles G R) (database : List R) (σ : Evaluator R)
    (h : Reachable O database σ) :
    (∀ v w a b, σ.IsCompositionFor v a b → σ.IsCompositionFor w a b → v = w) ∧
    (∀ a b v, σ.vertexForArgs a b = some v → σ.IsCompositionFor v a b) ∧
    (∀ a b v, a ≠ b → σ.vertexForArgs a b = some v → σ.vertexForArgs b a ≠ some v) ∧
    (∀ a b rs, a ≠ b →
      (σ.recordComposition O a b rs).2.vertexForArgs b a = σ.vertexForArgs b a) := by
  have hinv := reachable_cacheInv O database σ h
  refine ⟨?_, ?_, ?_, ?_⟩
  · intro v w a b hv hw
    have h1 := hinv.args_complete v a b hv
    have h2 := hinv.args_complete w a b hw
    rw [h1] at h2
    exact Option.some.inj h2
  · intro a b v hv
    exact hinv.args_vertex a b v hv
  · intro a b v hab hv hv'
    have := hinv.args_injective (a, b) (b, a) v hv hv'
    exact hab (Prod.mk.inj this).1
  · intro a b rs hab
    unfold vertexForArgs
    rw [recordComposition_argsToVertex, Function.update_noteq]
    intro hk
    exact hab (Prod.mk.inj hk).2

theorem reachable_cache_unique_witness :
    Reachable lastDigitOracles []
      (eval lastDigitOracles
        (Expression.composeParallel
          ⟨⟨Expression.rule (some 1), Expression.rule (some 2), false⟩⟩)
        (Evaluator.new [])).2 ∧
    (eval lastDigitOracles
        (Expression.composeParallel
          ⟨⟨Expression.rule (some 1), Expression.rule (some 2), false⟩⟩)
        (Evaluator.new [])).2.vertexForArgs 1 2 = some 2 ∧
    (eval lastDigitOracles
        (Expression.composeParallel
          ⟨⟨Expression.rule (some 1), Expression.rule (some 2), false⟩⟩)
        (Evaluator.new [])).2.IsCompositionFor 2 1 2 ∧
    (eval lastDigitOracles
        (Expression.composeParallel
          ⟨⟨Expression.rule (some 1), Expression.rule (some 2), false⟩⟩)
        (Evaluator.new [])).2.vertexForArgs 2 1 ≠ some 2 :=
  have hr := Reachable.step Reachable.new
    (Step.eval (O := lastDigitOracles) (Evaluator.new [])
      (Expression.composeParallel
        ⟨⟨Expression.rule (some 1), Expression.rule (some 2), false⟩⟩))
  have h := reachable_cache_unique lastDigitOracles [] _ hr
  ⟨hr, by decide, h.2.1 1 2 2 (by decide), h.2.2.1 1 2 2 (by decide) (by decide)⟩

end
end Evaluator
end RC

namespace RC
open RCExp
namespace Evaluator
section
variable {G R : Type} [DecidableEq R]

/-! ## Append-only growth of the state -/

omit [DecidableEq R] in
theorem ext_refl (σ : Evaluator R) : Ext σ σ :=
  ⟨List.prefix_refl _, List.prefix_refl _, ⟨[], by simp, by simp⟩,
    fun _ _ h => h, fun _ _ h => h⟩

omit [DecidableEq R] in
theorem ext_trans {σ σ1 σ2 : Evaluator R} (h1 : Ext σ σ1) (h2 : Ext σ1 σ2) : Ext σ σ2 := by
  obtain ⟨es1, he1, hs1⟩ := h1.edges
  obtain ⟨es2, he2, hs2⟩ := h2.edges
  refine ⟨h1.database.trans h2.database, h1.vertices.trans h2.vertices,
    ⟨es1 ++ es2, by rw [he2, he1, List.append_assoc], ?_⟩,
    fun r v h => h2.ruleToVertex r v (h1.ruleToVertex r v h),
    fun k v h => h2.argsToVertex k v (h1.argsToVertex k v h)⟩
  intro e he
  rcases List.mem_append.1 he with he | he
  · exact hs1 e he
  · exact Nat.le_trans h1.vertices.length_le (hs2 e he)

theorem ext_intern (O : Oracles G R) (σ : Evaluator R) (r : R) : Ext σ (σ.intern O r).2 := by
  have h := intern_rcg O σ r
  refine ⟨?_, by rw [h.1], ⟨[], by rw [h.1]; simp, by simp⟩,
    fun r v hv => by rw [h.2.1]; exact hv, fun k v hv => by rw [h.2.2.1]; exact hv⟩
  unfold intern
  cases σ.database.find? (fun m => O.areIsomorphic m r) with
  | some m => exact List.prefix_refl _
  | none => exact addRule_database_le O σ r

theorem ext_getVertexFromRule (σ : Evaluator R) (r : R) :
    Ext σ (σ.getVertexFromRule r).2 := by
  unfold getVertexFromRule
  cases hr : σ.ruleToVertex r with
  | some v => exact ext_refl σ
  | none =>
    refine ⟨List.prefix_refl _, List.prefix_append _ _, ⟨[], by simp [addVertex], by simp⟩,
      ?_, fun k v hv => hv⟩
    intro r' v hv
    have hne : r' ≠ r := by
      intro h
      rw [h, hr] at hv
      exact absurd hv (by simp)
    simp only [addVertex]
    rw [Function.update_noteq hne]
    exact hv

theorem ext_addComposition (σ : Evaluator R) (a b : R) (v1 v2 : Vertex)
    (hmiss : σ.argsToVertex (a, b) = none) :
    Ext σ (σ.addComposition a b v1 v2).2 := by
  refine ⟨List.prefix_refl _, List.prefix_append _ _,
    ⟨[⟨σ.rcg.vertices.length, v1, ⟨.First⟩⟩, ⟨σ.rcg.vertices.length, v2, ⟨.Second⟩⟩],
      by simp [addComposition, addVertex, addEdge], ?_⟩, fun r v hv => hv, ?_⟩
  · intro e he
    simp only [List.mem_cons, List.mem_singleton, List.not_mem_nil, or_false] at he
    rcases he with rfl | rfl <;> exact Nat.le_refl _
  · intro k v hv
    have hne : k ≠ (a, b) := by
      intro h
      rw [h, hmiss] at hv
      exact absurd hv (by simp)
    show Function.update σ.argsToVertex (a, b) _ k = some v
    rw [Function.update_noteq hne]
    exact hv

omit [DecidableEq R] in
theorem ext_addEdge {σ0 σ : Evaluator R} (h : Ext σ0 σ) (s t : Vertex) (k : EdgeKind)
    (hs : σ0.rcg.vertices.length ≤ s) : Ext σ0 (σ.addEdge s t k) := by
  obtain ⟨es, he, hes⟩ := h.edges
  refine ⟨h.database, h.vertices, ⟨es ++ [⟨s, t, ⟨k⟩⟩], ?_, ?_⟩, h.ruleToVertex,
    h.argsToVertex⟩
  · simp [addEdge, he]
  · intro e hmem
    rcases List.mem_append.1 hmem with hmem | hmem
    · exact hes e hmem
    · rw [List.mem_singleton.1 hmem]
      exact hs

theorem ext_recordResult (O : Oracles G R) (vComp : Vertex) (σ0 : Evaluator R)
    (st : List R × Evaluator R) (cand : R) (h : Ext σ0 st.2)
    (hv : σ0.rcg.vertices.length ≤ vComp) :
    Ext σ0 (recordResult O vComp st cand).2 := by
  have h2 : Ext σ0 ((st.2.intern O cand).2.getVertexFromRule (st.2.intern O cand).1).2 :=
    ext_trans (ext_trans h (ext_intern O st.2 cand)) (ext_getVertexFromRule _ _)
  unfold recordResult
  simp only
  split
  · exact h2
  · exact ext_addEdge h2 _ _ _ hv

theorem ext_foldl_recordResult (O : Oracles G R) (vComp : Vertex) (σ0 : Evaluator R)
    (rs : List R) (st : List R × Evaluator R) (h : Ext σ0 st.2)
    (hv : σ0.rcg.vertices.length ≤ vComp) :
    Ext σ0 (rs.foldl (recordResult O vComp) st).2 := by
  induction rs generalizing st with
  | nil => exact h
  | cons r rs ih => exact ih _ (ext_recordResult O vComp σ0 st r h hv)

theorem ext_recordComposition (O : Oracles G R) (σ : Evaluator R) (a b : R) (rs : List R)
    (hmiss : σ.vertexForArgs a b = none) : Ext σ (σ.recordComposition O a b rs).2 := by
  have h1 := ext_getVertexFromRule σ a
  have h2 := ext_getVertexFromRule (σ.getVertexFromRule a).2 b
  have hmiss2 : ((σ.getVertexFromRule a).2.getVertexFromRule b).2.argsToVertex (a, b) = none := by
    rw [getVertexFromRule_argsToVertex, getVertexFromRule_argsToVertex]
    exact hmiss
  have h12 := ext_trans h1 h2
  have h3 := ext_trans h12 (ext_addComposition _ a b (σ.getVertexFromRule a).1
    ((σ.getVertexFromRule a).2.getVertexFromRule b).1 hmiss2)
  unfold recordComposition
  simp only
  exact ext_foldl_recordResult O _ σ rs _ h3 h12.vertices.length_le

theorem ext_eval (O : Oracles G R) (e : Expression G R) (σ : Evaluator R) :
    Ext σ (eval O e σ).2 :=
  eval_preserves O (Ext σ) (fun σ1 r h => ext_trans h (ext_intern O σ1 r))
    (fun σ1 a b rs h hmiss => ext_trans h (ext_recordComposition O σ1 a b rs hmiss))
    e σ (ext_refl σ)

theorem ext_composePair (O : Oracles G R) (policy : Policy) (σ : Evaluator R) (r1 r2 : R) :
    Ext σ (composePair O policy σ r1 r2).2 :=
  composePair_preserves O (Ext σ)
    (fun σ1 a b rs h hmiss => ext_trans h (ext_recordComposition O σ1 a b rs hmiss))
    policy σ r1 r2 (ext_refl σ)

theorem ext_composeRow (O : Oracles G R) (policy : Policy) (r1 : R) (s2 acc : List R)
    (σ : Evaluator R) : Ext σ (composeRow O policy r1 s2 acc σ).2 :=
  composeRow_preserves O (Ext σ)
    (fun σ1 a b rs h hmiss => ext_trans h (ext_recordComposition O σ1 a b rs hmiss))
    policy r1 s2 acc σ (ext_refl σ)

theorem ext_composeAll (O : Oracles G R) (policy : Policy) (s1 s2 acc : List R)
    (σ : Evaluator R) : Ext σ (composeAll O policy s1 s2 acc σ).2 :=
  composeAll_preserves O (Ext σ)
    (fun σ1 a b rs h hmiss => ext_trans h (ext_recordComposition O σ1 a b rs hmiss))
    policy s1 s2 acc σ (ext_refl σ)

end
end Evaluator
end RC

namespace RC
open RCExp
namespace Evaluator
section
variable {G R : Type} [DecidableEq R]

/-! ## Recorded results persist -/

omit [DecidableEq R] in
theorem ruleAt_ext {σ σ' : Evaluator R} (h : Ext σ σ') (t : Vertex)
    (ht : t < σ.rcg.vertices.length) : σ'.ruleAt t = σ.ruleAt t := by
  obtain ⟨tl, htl⟩ := h.vertices
  simp only [ruleAt, ← htl, List.get?_eq_getElem?, List.getElem?_append_left ht]

omit [DecidableEq R] in
theorem resultsOf_ext {σ σ' : Evaluator R} (hinv : CacheInv σ) (h : Ext σ σ') (v : Vertex)
    (hv : v < σ.rcg.vertices.length) : σ'.resultsOf v = σ.resultsOf v := by
  obtain ⟨es, he, hes⟩ := h.edges
  unfold resultsOf
  rw [he, List.filterMap_append]
  have h2 : es.filterMap (fun e =>
      if e.source = v ∧ e.prop.kind = EdgeKind.Result then σ'.ruleAt e.target else none)
      = [] := by
    rw [List.filterMap_eq_nil_iff]
    intro e hmem
    have := hes e hmem
    have hne : e.source ≠ v := fun heq => absurd (heq ▸ this) (Nat.not_le_of_lt hv)
    simp [hne]
  rw [h2, List.append_nil]
  apply List.filterMap_congr
  intro e hmem
  rw [ruleAt_ext h e.target (hinv.edges_lt e hmem).2]

omit [DecidableEq R] in
theorem cached_ext {σ σ' : Evaluator R} (hinv : CacheInv σ) (h : Ext σ σ') (r1 r2 : R)
    (rs : List R) (hc : Cached σ r1 r2 rs) : Cached σ' r1 r2 rs := by
  obtain ⟨v, hv, hrs⟩ := hc
  refine ⟨v, h.argsToVertex _ v hv, ?_⟩
  rw [resultsOf_ext hinv h v (isCompositionFor_lt σ v r1 r2 (hinv.args_vertex r1 r2 v hv))]
  exact hrs

omit [DecidableEq R] in
theorem cached_unique {σ : Evaluator R} {r1 r2 : R} {rs rs' : List R}
    (h : Cached σ r1 r2 rs) (h' : Cached σ r1 r2 rs') : rs = rs' := by
  obtain ⟨v, hv, hrs⟩ := h
  obtain ⟨v', hv', hrs'⟩ := h'
  rw [hv] at hv'
  rw [← hrs, ← hrs', Option.some.inj hv']

omit [DecidableEq R] in
theorem addEdge_result_resultsOf (σ : Evaluator R) (v t : Vertex) (c : R)
    (hr : σ.ruleAt t = some c) :
    (σ.addEdge v t .Result).resultsOf v = σ.resultsOf v ++ [c] := by
  show List.filterMap (fun e : Edge =>
      if e.source = v ∧ e.prop.kind = EdgeKind.Result then σ.ruleAt e.target else none)
      (σ.rcg.edges ++ [⟨v, t, ⟨.Result⟩⟩]) = _
  rw [List.filterMap_append]
  simp [resultsOf, hr]

theorem recordResult_resultsOf (O : Oracles G R) (vComp : Vertex)
    (st : List R × Evaluator R) (cand : R)
    (h : CacheInv st.2) (hv : vComp < st.2.rcg.vertices.length)
    (hres : st.2.resultsOf vComp = st.1) :
    (recordResult O vComp st cand).2.resultsOf vComp = (recordResult O vComp st cand).1 := by
  have h1 := intern_cacheInv O st.2 cand h
  have hg := (intern_rcg O st.2 cand).1
  have hres1 : (st.2.intern O cand).2.resultsOf vComp = st.1 := by
    rw [← hres]
    simp only [resultsOf, ruleAt, hg]
  have hv1 : vComp < (st.2.intern O cand).2.rcg.vertices.length := by rw [hg]; exact hv
  have h2 := getVertexFromRule_cacheInv (st.2.intern O cand).2 (st.2.intern O cand).1 h1
  have hres2 :
      ((st.2.intern O cand).2.getVertexFromRule (st.2.intern O cand).1).2.resultsOf vComp
        = st.1 := by
    rw [resultsOf_ext h1 (ext_getVertexFromRule _ _) vComp hv1]
    exact hres1
  unfold recordResult
  simp only
  split
  · exact hres2
  · rw [addEdge_result_resultsOf _ _ _ _ h2.2, hres2]

theorem foldl_recordResult_resultsOf (O : Oracles G R) (vComp : Vertex) (rs : List R)
    (st : List R × Evaluator R)
    (h : CacheInv st.2) (hv : vComp < st.2.rcg.vertices.length)
    (hres : st.2.resultsOf vComp = st.1) :
    (rs.foldl (recordResult O vComp) st).2.resultsOf vComp
      = (rs.foldl (recordResult O vComp) st).1 := by
  induction rs generalizing st with
  | nil => exact hres
  | cons r rs ih =>
    have hc := recordResult_cacheInv O vComp st r h hv
    exact ih _ hc.1 hc.2 (recordResult_resultsOf O vComp st r h hv hres)

theorem addComposition_resultsOf (σ : Evaluator R) (a b : R) (v1 v2 : Vertex)
    (h : CacheInv σ) :
    (σ.addComposition a b v1 v2).2.resultsOf σ.rcg.vertices.length = [] := by
  have hedges : (σ.addComposition a b v1 v2).2.rcg.edges =
      σ.rcg.edges ++ [⟨σ.rcg.vertices.length, v1, ⟨.First⟩⟩,
        ⟨σ.rcg.vertices.length, v2, ⟨.Second⟩⟩] := by
    simp [addComposition, addVertex, addEdge]
  unfold resultsOf
  rw [hedges, List.filterMap_eq_nil_iff]
  intro e he
  simp only [List.mem_append, List.mem_cons, List.mem_singleton, List.not_mem_nil,
    or_false] at he
  rcases he with he | rfl | rfl
  · have hne : e.source ≠ σ.rcg.vertices.length := Nat.ne_of_lt (h.edges_lt e he).1
    simp [hne]
  · simp
  · simp

theorem recordComposition_cached (O : Oracles G R) (σ : Evaluator R) (a b : R)
    (rs : List R) (h : CacheInv σ) (hmiss : σ.vertexForArgs a b = none) :
    Cached (σ.recordComposition O a b rs).2 a b (σ.recordComposition O a b rs).1 := by
  have h1 := getVertexFromRule_cacheInv σ a h
  have h2 := getVertexFromRule_cacheInv (σ.getVertexFromRule a).2 b h1.1
  have hra := getVertexFromRule_ruleAt_mono (σ.getVertexFromRule a).2 b _ a h1.2
  have hmiss2 : ((σ.getVertexFromRule a).2.getVertexFromRule b).2.argsToVertex (a, b) = none := by
    rw [getVertexFromRule_argsToVertex, getVertexFromRule_argsToVertex]
    exact hmiss
  have h3 := addComposition_cacheInv _ a b _ _ h2.1 hmiss2 hra h2.2
  refine ⟨((σ.getVertexFromRule a).2.getVertexFromRule b).2.rcg.vertices.length, ?_, ?_⟩
  · unfold vertexForArgs
    rw [recordComposition_argsToVertex, Function.update_same]
  · unfold recordComposition
    simp only
    apply foldl_recordResult_resultsOf O _ rs _ h3
    · simp [addComposition, addVertex, addEdge]
    · exact addComposition_resultsOf _ a b _ _ h2.1

end
end Evaluator
end RC

namespace RC
open RCExp
namespace Evaluator
section
variable {G R : Type} [DecidableEq R]

/-! ## Composing the pairs of a cross product -/

theorem mem_unite (acc xs : List R) (x : R) : x ∈ unite acc xs ↔ x ∈ acc ∨ x ∈ xs := by
  unfold unite
  simp only [List.mem_append, List.mem_filter, decide_eq_true_eq]
  constructor
  · rintro (h | ⟨h, _⟩)
    · exact Or.inl h
    · exact Or.inr h
  · rintro (h | h)
    · exact Or.inl h
    · by_cases hx : x ∈ acc
      · exact Or.inl hx
      · exact Or.inr ⟨h, hx⟩

theorem composePair_ok (O : Oracles G R) (policy : Policy) (σ σ1 : Evaluator R)
    (r1 r2 : R) (rs : List R) (h : CacheInv σ)
    (hc : composePair O policy σ r1 r2 = (.ok rs, σ1)) :
    CacheInv σ1 ∧ Ext σ σ1 ∧ Cached σ1 r1 r2 rs := by
  have hinv := composePair_preserves O CacheInv
    (fun σ a b rs hσ hmiss => recordComposition_cacheInv O σ a b rs hσ hmiss)
    policy σ r1 r2 h
  have hext := ext_composePair O policy σ r1 r2
  rw [hc] at hinv hext
  refine ⟨hinv, hext, ?_⟩
  unfold composePair at hc
  cases hv : σ.vertexForArgs r1 r2 with
  | some v =>
    rw [hv] at hc
    simp only [Prod.mk.injEq, Except.ok.injEq] at hc
    obtain ⟨hrs, rfl⟩ := hc
    exact ⟨v, hv, hrs⟩
  | none =>
    rw [hv] at hc
    cases hco : O.compose r1 r2 policy with
    | error e =>
      rw [hco] at hc
      simp at hc
    | ok cands =>
      rw [hco] at hc
      simp only [Prod.mk.injEq, Except.ok.injEq] at hc
      obtain ⟨rfl, rfl⟩ := hc
      exact recordComposition_cached O σ r1 r2 cands h hv

theorem composePair_of_cached (O : Oracles G R) (policy : Policy) (σ : Evaluator R)
    (r1 r2 : R) (rs : List R) (h : Cached σ r1 r2 rs) :
    composePair O policy σ r1 r2 = (.ok rs, σ) := by
  obtain ⟨v, hv, hrs⟩ := h
  unfold composePair
  rw [hv]
  simp only [hrs]

theorem composeRow_ok (O : Oracles G R) (policy : Policy) (r1 : R) (s2 : List R) :
    ∀ (acc : List R) (σ σ1 : Evaluator R) (S : List R), CacheInv σ →
    composeRow O policy r1 s2 acc σ = (.ok S, σ1) →
    CacheInv σ1 ∧ Ext σ σ1 ∧ (∀ r2 ∈ s2, ∃ rs, Cached σ1 r1 r2 rs) ∧
      (∀ r, r ∈ S ↔ r ∈ acc ∨ ∃ r2 ∈ s2, ∃ rs, Cached σ1 r1 r2 rs ∧ r ∈ rs) := by
  induction s2 with
  | nil =>
    intro acc σ σ1 S h hc
    simp only [composeRow, Prod.mk.injEq, Except.ok.injEq] at hc
    obtain ⟨rfl, rfl⟩ := hc
    exact ⟨h, ext_refl _, by simp, by simp⟩
  | cons r2 rest ih =>
    intro acc σ σ1 S h hc
    rcases hp : composePair O policy σ r1 r2 with ⟨err | rs, σ'⟩
    · simp [composeRow, hp] at hc
    · simp only [composeRow, hp] at hc
      obtain ⟨hinv', hext', hcached'⟩ := composePair_ok O policy σ σ' r1 r2 rs h hp
      obtain ⟨hinv1, hext1, hall, hmem⟩ := ih _ σ' σ1 S hinv' hc
      have hcached1 := cached_ext hinv' hext1 r1 r2 rs hcached'
      refine ⟨hinv1, ext_trans hext' hext1, ?_, ?_⟩
      · intro x hx
        rcases List.mem_cons.1 hx with rfl | hx
        · exact ⟨rs, hcached1⟩
        · exact hall x hx
      · intro r
        rw [hmem r, mem_unite]
        constructor
        · rintro ((hr | hr) | ⟨x, hx, rs', hcx, hr⟩)
          · exact Or.inl hr
          · exact Or.inr ⟨r2, List.mem_cons_self _ _, rs, hcached1, hr⟩
          · exact Or.inr ⟨x, List.mem_cons_of_mem _ hx, rs', hcx, hr⟩
        · rintro (hr | ⟨x, hx, rs', hcx, hr⟩)
          · exact Or.inl (Or.inl hr)
          · rcases List.mem_cons.1 hx with rfl | hx
            · rw [cached_unique hcx hcached1] at hr
              exact Or.inl (Or.inr hr)
            · exact Or.inr ⟨x, hx, rs', hcx, hr⟩

theorem composeAll_ok (O : Oracles G R) (policy : Policy) (s1 s2 : List R) :
    ∀ (acc : List R) (σ σ1 : Evaluator R) (S : List R), CacheInv σ →
    composeAll O policy s1 s2 acc σ = (.ok S, σ1) →
    CacheInv σ1 ∧ Ext σ σ1 ∧ (∀ r1 ∈ s1, ∀ r2 ∈ s2, ∃ rs, Cached σ1 r1 r2 rs) ∧
      (∀ r, r ∈ S ↔
        r ∈ acc ∨ ∃ r1 ∈ s1, ∃ r2 ∈ s2, ∃ rs, Cached σ1 r1 r2 rs ∧ r ∈ rs) := by
  induction s1 with
  | nil =>
    intro acc σ σ1 S h hc
    simp only [composeAll, Prod.mk.injEq, Except.ok.injEq] at hc
    obtain ⟨rfl, rfl⟩ := hc
    exact ⟨h, ext_refl _, by simp, by simp⟩
  | cons r1 rest ih =>
    intro acc σ σ1 S h hc
    rcases hp : composeRow O policy r1 s2 acc σ with ⟨err | acc1, σ'⟩
    · simp [composeAll, hp] at hc
    · simp only [composeAll, hp] at hc
      obtain ⟨hinv', hext', hrow, hrowmem⟩ := composeRow_ok O policy r1 s2 acc σ σ' acc1 h hp
      obtain ⟨hinv1, hext1, hall, hmem⟩ := ih _ σ' σ1 S hinv' hc
      have hrow1 : ∀ r2 ∈ s2, ∀ rs, Cached σ' r1 r2 rs → Cached σ1 r1 r2 rs :=
        fun r2 _ rs hcd => cached_ext hinv' hext1 r1 r2 rs hcd
      refine ⟨hinv1, ext_trans hext' hext1, ?_, ?_⟩
      · intro x hx y hy
        rcases List.mem_cons.1 hx with rfl | hx
        · obtain ⟨rs, hrs⟩ := hrow y hy
          exact ⟨rs, hrow1 y hy rs hrs⟩
        · exact hall x hx y hy
      · intro r
        rw [hmem r, hrowmem r]
        constructor
        · rintro ((hr | ⟨y, hy, rs, hcy, hr⟩) | ⟨x, hx, y, hy, rs, hcxy, hr⟩)
          · exact Or.inl hr
          · exact Or.inr ⟨r1, List.mem_cons_self _ _, y, hy, rs, hrow1 y hy rs hcy, hr⟩
          · exact Or.inr ⟨x, List.mem_cons_of_mem _ hx, y, hy, rs, hcxy, hr⟩
        · rintro (hr | ⟨x, hx, y, hy, rs, hcxy, hr⟩)
          · exact Or.inl (Or.inl hr)
          · rcases List.mem_cons.1 hx with rfl | hx
            · obtain ⟨rs', hrs'⟩ := hrow y hy
              rw [cached_unique hcxy (hrow1 y hy rs' hrs')] at hr
              exact Or.inl (Or.inr ⟨y, hy, rs', hrs', hr⟩)
            · exact Or.inr ⟨x, hx, y, hy, rs, hcxy, hr⟩

theorem composeRow_of_cached (O : Oracles G R) (policy : Policy) (σ : Evaluator R) (r1 : R)
    (s2 : List R) :
    ∀ (acc : List R), (∀ r2 ∈ s2, ∃ rs, Cached σ r1 r2 rs) →
    ∃ S, composeRow O policy r1 s2 acc σ = (.ok S, σ) ∧
      (∀ r, r ∈ S ↔ r ∈ acc ∨ ∃ r2 ∈ s2, ∃ rs, Cached σ r1 r2 rs ∧ r ∈ rs) := by
  induction s2 with
  | nil =>
    intro acc _
    exact ⟨acc, rfl, by simp⟩
  | cons r2 rest ih =>
    intro acc hall
    obtain ⟨rs, hrs⟩ := hall r2 (List.mem_cons_self _ _)
    obtain ⟨S, hS, hmem⟩ := ih (unite acc rs)
      (fun x hx => hall x (List.mem_cons_of_mem _ hx))
    refine ⟨S, ?_, ?_⟩
    · simp only [composeRow, composePair_of_cached O policy σ r1 r2 rs hrs]
      exact hS
    · intro r
      rw [hmem r, mem_unite]
      constructor
      · rintro ((hr | hr) | ⟨x, hx, rs', hcx, hr⟩)
        · exact Or.inl hr
        · exact Or.inr ⟨r2, List.mem_cons_self _ _, rs, hrs, hr⟩
        · exact Or.inr ⟨x, List.mem_cons_of_mem _ hx, rs', hcx, hr⟩
      · rintro (hr | ⟨x, hx, rs', hcx, hr⟩)
        · exact Or.inl (Or.inl hr)
        · rcases List.mem_cons.1 hx with rfl | hx
          · rw [cached_unique hcx hrs] at hr
            exact Or.inl (Or.inr hr)
          · exact Or.inr ⟨x, hx, rs', hcx, hr⟩

theorem composeAll_of_cached (O : Oracles G R) (policy : Policy) (σ : Evaluator R)
    (s1 s2 : List R) :
    ∀ (acc : List R), (∀ r1 ∈ s1, ∀ r2 ∈ s2, ∃ rs, Cached σ r1 r2 rs) →
    ∃ S, composeAll O policy s1 s2 acc σ = (.ok S, σ) ∧
      (∀ r, r ∈ S ↔
        r ∈ acc ∨ ∃ r1 ∈ s1, ∃ r2 ∈ s2, ∃ rs, Cached σ r1 r2 rs ∧ r ∈ rs) := by
  induction s1 with
  | nil =>
    intro acc _
    exact ⟨acc, rfl, by simp⟩
  | cons r1 rest ih =>
    intro acc hall
    obtain ⟨acc1, hrow, hrowmem⟩ := composeRow_of_cached O policy σ r1 s2 acc
      (hall r1 (List.mem_cons_self _ _))
    obtain ⟨S, hS, hmem⟩ := ih acc1 (fun x hx => hall x (List.mem_cons_of_mem _ hx))
    refine ⟨S, ?_, ?_⟩
    · simp only [composeAll, hrow]
      exact hS
    · intro r
      rw [hmem r, hrowmem r]
      constructor
      · rintro ((hr | ⟨y, hy, rs, hcy, hr⟩) | ⟨x, hx, y, hy, rs, hcxy, hr⟩)
        · exact Or.inl hr
        · exact Or.inr ⟨r1, List.mem_cons_self _ _, y, hy, rs, hcy, hr⟩
        · exact Or.inr ⟨x, List.mem_cons_of_mem _ hx, y, hy, rs, hcxy, hr⟩
      · rintro (hr | ⟨x, hx, y, hy, rs, hcxy, hr⟩)
        · exact Or.inl (Or.inl hr)
        · rcases List.mem_cons.1 hx with rfl | hx
          · exact Or.inl (Or.inr ⟨y, hy, rs, hcxy, hr⟩)
          · exact Or.inr ⟨x, hx, y, hy, rs, hcxy, hr⟩

end
end Evaluator
end RC

namespace RC
open RCExp
namespace Evaluator
section
variable {G R : Type} [DecidableEq R]

/-! ## A successful evaluation is settled -/

theorem composeRow_stable (O : Oracles G R) (policy : Policy) (r1 : R) (s2 : List R) :
    ∀ (acc : List R) (σ σ1 : Evaluator R) (S : List R), CacheInv σ →
    composeRow O policy r1 s2 acc σ = (.ok S, σ1) →
    ∀ σ2, Ext σ1 σ2 → composeRow O policy r1 s2 acc σ2 = (.ok S, σ2) := by
  induction s2 with
  | nil =>
    intro acc σ σ1 S _ hc σ2 _
    simp only [composeRow, Prod.mk.injEq, Except.ok.injEq] at hc
    simp only [composeRow, hc.1]
  | cons r2 rest ih =>
    intro acc σ σ1 S h hc σ2 hext
    rcases hp : composePair O policy σ r1 r2 with ⟨err | rs, σ'⟩
    · simp [composeRow, hp] at hc
    · simp only [composeRow, hp] at hc
      obtain ⟨hinv', _, hcached'⟩ := composePair_ok O policy σ σ' r1 r2 rs h hp
      obtain ⟨_, hext1, _, _⟩ := composeRow_ok O policy r1 rest _ σ' σ1 S hinv' hc
      have hcached2 := cached_ext hinv' (ext_trans hext1 hext) r1 r2 rs hcached'
      simp only [composeRow, composePair_of_cached O policy σ2 r1 r2 rs hcached2]
      exact ih _ σ' σ1 S hinv' hc σ2 hext

theorem composeAll_stable (O : Oracles G R) (policy : Policy) (s1 s2 : List R) :
    ∀ (acc : List R) (σ σ1 : Evaluator R) (S : List R), CacheInv σ →
    composeAll O policy s1 s2 acc σ = (.ok S, σ1) →
    ∀ σ2, Ext σ1 σ2 → composeAll O policy s1 s2 acc σ2 = (.ok S, σ2) := by
  induction s1 with
  | nil =>
    intro acc σ σ1 S _ hc σ2 _
    simp only [composeAll, Prod.mk.injEq, Except.ok.injEq] at hc
    simp only [composeAll, hc.1]
  | cons r1 rest ih =>
    intro acc σ σ1 S h hc σ2 hext
    rcases hp : composeRow O policy r1 s2 acc σ with ⟨err | acc1, σ'⟩
    · simp [composeAll, hp] at hc
    · simp only [composeAll, hp] at hc
      obtain ⟨hinv', _, _, _⟩ := composeRow_ok O policy r1 s2 acc σ σ' acc1 h hp
      obtain ⟨_, hext1, _, _⟩ := composeAll_ok O policy rest s2 acc1 σ' σ1 S hinv' hc
      simp only [composeAll,
        composeRow_stable O policy r1 s2 acc σ σ' acc1 h hp σ2 (ext_trans hext1 hext)]
      exact ih _ σ' σ1 S hinv' hc σ2 hext

theorem eval_ok (O : Oracles G R) (e : Expression G R) (σ σ1 : Evaluator R) (S : List R)
    (h : CacheInv σ) (hc : eval O e σ = (.ok S, σ1)) : CacheInv σ1 ∧ Ext σ σ1 := by
  have h1 := eval_cacheInv O e σ h
  have h2 := ext_eval O e σ
  rw [hc] at h1 h2
  exact ⟨h1, h2⟩

theorem evalRule_stable (O : Oracles G R) (hrefl : ∀ a, O.areIsomorphic a a = true)
    (r : R) (σ σ1 : Evaluator R) (S : List R)
    (hc : evalRule O σ r = (.ok S, σ1)) (σ2 : Evaluator R) (hext : Ext σ1 σ2) :
    evalRule O σ2 r = (.ok S, σ2) := by
  simp only [evalRule, Prod.mk.injEq, Except.ok.injEq] at hc
  obtain ⟨rfl, rfl⟩ := hc
  have hfind := intern_fst_find O hrefl σ r
  obtain ⟨tl, htl⟩ := hext.database
  have h2 : σ2.database.find? (fun m => O.areIsomorphic m r) = some (σ.intern O r).1 := by
    rw [← htl, List.find?_append, hfind]
    rfl
  simp only [evalRule, intern, h2]

theorem evalUnion_stable (O : Oracles G R) (es : List (Expression G R))
    (hes : ∀ e ∈ es, StableEval O e) :
    ∀ (acc : List R) (σ σ1 : Evaluator R) (S : List R), CacheInv σ →
    evalUnion O es acc σ = (.ok S, σ1) →
    (CacheInv σ1 ∧ Ext σ σ1) ∧
      ∀ σ2, Ext σ1 σ2 → evalUnion O es acc σ2 = (.ok S, σ2) := by
  induction es with
  | nil =>
    intro acc σ σ1 S h hc
    simp only [evalUnion, Prod.mk.injEq, Except.ok.injEq] at hc
    obtain ⟨rfl, rfl⟩ := hc
    exact ⟨⟨h, ext_refl _⟩, fun σ2 _ => by simp only [evalUnion]⟩
  | cons e es ih =>
    intro acc σ σ1 S h hc
    rcases hp : eval O e σ with ⟨err | rs, σ'⟩
    · simp [evalUnion, hp] at hc
    · simp only [evalUnion, hp] at hc
      obtain ⟨hinv', hext'⟩ := eval_ok O e σ σ' rs h hp
      obtain ⟨⟨hinv1, hext1⟩, hst⟩ :=
        ih (fun e' he' => hes e' (List.mem_cons_of_mem _ he')) _ σ' σ1 S hinv' hc
      refine ⟨⟨hinv1, ext_trans hext' hext1⟩, ?_⟩
      intro σ2 hext
      simp only [evalUnion,
        hes e (List.mem_cons_self _ _) σ rs σ' h hp σ2 (ext_trans hext1 hext)]
      exact hst σ2 hext

theorem evalCompose_stable (O : Oracles G R) (policy : Policy) (f s : Expression G R)
    (d : Bool) (hf : StableEval O f) (hs : StableEval O s)
    (σ σ1 : Evaluator R) (S : List R) (h : CacheInv σ)
    (hc : evalCompose O policy ⟨f, s, d⟩ σ = (.ok S, σ1)) (σ2 : Evaluator R)
    (hext : Ext σ1 σ2) : evalCompose O policy ⟨f, s, d⟩ σ2 = (.ok S, σ2) := by
  rcases hp1 : eval O f σ with ⟨err | s1, σa⟩
  · simp [evalCompose, hp1] at hc
  · rcases hp2 : eval O s σa with ⟨err | s2, σb⟩
    · simp [evalCompose, hp1, hp2] at hc
    · simp only [evalCompose, hp1, hp2] at hc
      obtain ⟨hinva, _⟩ := eval_ok O f σ σa s1 h hp1
      obtain ⟨hinvb, hextb⟩ := eval_ok O s σa σb s2 hinva hp2
      obtain ⟨_, hext1, _, _⟩ := composeAll_ok O policy s1 s2 [] σb σ1 S hinvb hc
      have hb2 : Ext σb σ2 := ext_trans hext1 hext
      simp only [evalCompose, hf σ s1 σa h hp1 σ2 (ext_trans hextb hb2),
        hs σa s2 σb hinva hp2 σ2 hb2]
      exact composeAll_stable O policy s1 s2 [] σb σ1 S hinvb hc σ2 hext

/-- With a reflexive identity oracle, every evaluation that has succeeded is
settled. -/
theorem eval_stable (O : Oracles G R) (hrefl : ∀ a, O.areIsomorphic a a = true)
    (e : Expression G R) : StableEval O e := by
  induction e using expression_induction with
  | hrule r =>
    intro σ S σ1 _ hc σ2 hext
    cases r with
    | none => simp [eval] at hc
    | some r =>
      simp only [eval] at hc ⊢
      exact evalRule_stable O hrefl r σ σ1 S hc σ2 hext
  | hunion exps ih =>
    intro σ S σ1 h hc σ2 hext
    simp only [eval] at hc ⊢
    exact (evalUnion_stable O exps ih [] σ σ1 S h hc).2 σ2 hext
  | hbind b =>
    intro σ S σ1 _ hc σ2 hext
    obtain ⟨g⟩ := b
    cases g with
    | none => simp [eval] at hc
    | some g =>
      simp only [eval] at hc ⊢
      exact evalRule_stable O hrefl _ σ σ1 S hc σ2 hext
  | hid b =>
    intro σ S σ1 _ hc σ2 hext
    obtain ⟨g⟩ := b
    cases g with
    | none => simp [eval] at hc
    | some g =>
      simp only [eval] at hc ⊢
      exact evalRule_stable O hrefl _ σ σ1 S hc σ2 hext
  | hunbind b =>
    intro σ S σ1 _ hc σ2 hext
    obtain ⟨g⟩ := b
    cases g with
    | none => simp [eval] at hc
    | some g =>
      simp only [eval] at hc ⊢
      exact evalRule_stable O hrefl _ σ σ1 S hc σ2 hext
  | hcommon f s d m c ihf ihs =>
    intro σ S σ1 h hc σ2 hext
    simp only [eval] at hc ⊢
    exact evalCompose_stable O _ f s d ihf ihs σ σ1 S h hc σ2 hext
  | hparallel f s d ihf ihs =>
    intro σ S σ1 h hc σ2 hext
    simp only [eval] at hc ⊢
    exact evalCompose_stable O _ f s d ihf ihs σ σ1 S h hc σ2 hext
  | hsub f s d p ihf ihs =>
    intro σ S σ1 h hc σ2 hext
    simp only [eval] at hc ⊢
    exact evalCompose_stable O _ f s d ihf ihs σ σ1 S h hc σ2 hext
  | hsuper f s d p e ihf ihs =>
    intro σ S σ1 h hc σ2 hext
    simp only [eval] at hc ⊢
    exact evalCompose_stable O _ f s d ihf ihs σ σ1 S h hc σ2 hext

end
end Evaluator
end RC

namespace RC
open RCExp
namespace Evaluator
section
variable {G R : Type} [DecidableEq R]

/-! ## Composition and union -/

theorem eval_composeOf (O : Oracles G R) (policy : Policy) (f s : Expression G R)
    (σ : Evaluator R) :
    eval O (composeOf policy f s) σ
      = evalCompose O policy ⟨f, s, policy.discardNonchemical⟩ σ := by
  cases policy <;> rfl

theorem eval_union_pair (O : Oracles G R) (a b : Expression G R) (σ σ2 : Evaluator R)
    (S : List R) (hc : eval O (Expression.ofUnion ⟨[a, b]⟩) σ = (.ok S, σ2)) :
    ∃ Sa Sb σ1, eval O a σ = (.ok Sa, σ1) ∧ eval O b σ1 = (.ok Sb, σ2) ∧
      ∀ r, r ∈ S ↔ r ∈ Sa ∨ r ∈ Sb := by
  simp only [Expression.ofUnion, eval] at hc
  rcases hpa : eval O a σ with ⟨err | Sa, σ1⟩
  · simp [evalUnion, hpa] at hc
  · rcases hpb : eval O b σ1 with ⟨err | Sb, σ2'⟩
    · simp [evalUnion, hpa, hpb] at hc
    · simp only [evalUnion, hpa, hpb, Prod.mk.injEq, Except.ok.injEq] at hc
      obtain ⟨rfl, rfl⟩ := hc
      refine ⟨Sa, Sb, σ1, rfl, hpb, ?_⟩
      intro r
      simp [mem_unite]

theorem evalCompose_of_cached (O : Oracles G R) (policy : Policy) (f s : Expression G R)
    (d : Bool) (σ : Evaluator R) (Sf Ss : List R)
    (hf : eval O f σ = (.ok Sf, σ)) (hs : eval O s σ = (.ok Ss, σ))
    (hall : ∀ r1 ∈ Sf, ∀ r2 ∈ Ss, ∃ rs, Cached σ r1 r2 rs) :
    ∃ X, evalCompose O policy ⟨f, s, d⟩ σ = (.ok X, σ) ∧
      ∀ r, r ∈ X ↔ ∃ r1 ∈ Sf, ∃ r2 ∈ Ss, ∃ rs, Cached σ r1 r2 rs ∧ r ∈ rs := by
  obtain ⟨X, hX, hmem⟩ := composeAll_of_cached O policy σ Sf Ss [] hall
  refine ⟨X, ?_, ?_⟩
  · simp only [evalCompose, hf, hs]
    exact hX
  · intro r
    rw [hmem r]
    simp

theorem evalCompose_union_first (O : Oracles G R) (hrefl : ∀ a, O.areIsomorphic a a = true)
    (policy : Policy) (a b c : Expression G R) (d : Bool) (σ σ' : Evaluator R)
    (X : List R) (h : CacheInv σ)
    (hc : evalCompose O policy ⟨Expression.ofUnion ⟨[a, b]⟩, c, d⟩ σ = (.ok X, σ')) :
    ∃ Xa Xb, evalCompose O policy ⟨a, c, d⟩ σ' = (.ok Xa, σ') ∧
      evalCompose O policy ⟨b, c, d⟩ σ' = (.ok Xb, σ') ∧
      ∀ r, r ∈ X ↔ r ∈ Xa ∨ r ∈ Xb := by
  rcases hp1 : eval O (Expression.ofUnion ⟨[a, b]⟩) σ with ⟨err | S1, σa⟩
  · simp [evalCompose, hp1] at hc
  · rcases hp2 : eval O c σa with ⟨err | Sc, σb⟩
    · simp [evalCompose, hp1, hp2] at hc
    · simp only [evalCompose, hp1, hp2] at hc
      obtain ⟨Sa, Sb, σ1, hpa, hpb, hS1⟩ := eval_union_pair O a b σ σa S1 hp1
      obtain ⟨hinv1, _⟩ := eval_ok O a σ σ1 Sa h hpa
      obtain ⟨hinva, hext1a⟩ := eval_ok O b σ1 σa Sb hinv1 hpb
      obtain ⟨hinvb, hextab⟩ := eval_ok O c σa σb Sc hinva hp2
      obtain ⟨_, hextb, hall, hmem⟩ := composeAll_ok O policy S1 Sc [] σb σ' X hinvb hc
      have hextA : Ext σa σ' := ext_trans hextab hextb
      have ha' := eval_stable O hrefl a σ Sa σ1 h hpa σ' (ext_trans hext1a hextA)
      have hb' := eval_stable O hrefl b σ1 Sb σa hinv1 hpb σ' hextA
      have hc' := eval_stable O hrefl c σa Sc σb hinva hp2 σ' hextb
      obtain ⟨Xa, hXa, hmema⟩ := evalCompose_of_cached O policy a c d σ' Sa Sc ha' hc'
        (fun r1 hr1 r2 hr2 => hall r1 ((hS1 r1).2 (Or.inl hr1)) r2 hr2)
      obtain ⟨Xb, hXb, hmemb⟩ := evalCompose_of_cached O policy b c d σ' Sb Sc hb' hc'
        (fun r1 hr1 r2 hr2 => hall r1 ((hS1 r1).2 (Or.inr hr1)) r2 hr2)
      refine ⟨Xa, Xb, hXa, hXb, ?_⟩
      intro r
      rw [hmem r, hmema r, hmemb r]
      constructor
      · rintro (hr | ⟨r1, hr1, r2, hr2, rs, hcd, hr⟩)
        · simp at hr
        · rcases (hS1 r1).1 hr1 with h1 | h1
          · exact Or.inl ⟨r1, h1, r2, hr2, rs, hcd, hr⟩
          · exact Or.inr ⟨r1, h1, r2, hr2, rs, hcd, hr⟩
      · rintro (⟨r1, hr1, r2, hr2, rs, hcd, hr⟩ | ⟨r1, hr1, r2, hr2, rs, hcd, hr⟩)
        · exact Or.inr ⟨r1, (hS1 r1).2 (Or.inl hr1), r2, hr2, rs, hcd, hr⟩
        · exact Or.inr ⟨r1, (hS1 r1).2 (Or.inr hr1), r2, hr2, rs, hcd, hr⟩

theorem evalCompose_union_second (O : Oracles G R)
    (hrefl : ∀ a, O.areIsomorphic a a = true)
    (policy : Policy) (a b c : Expression G R) (d : Bool) (σ σ' : Evaluator R)
    (X : List R) (h : CacheInv σ)
    (hc : evalCompose O policy ⟨c, Expression.ofUnion ⟨[a, b]⟩, d⟩ σ = (.ok X, σ')) :
    ∃ Xa Xb, evalCompose O policy ⟨c, a, d⟩ σ' = (.ok Xa, σ') ∧
      evalCompose O policy ⟨c, b, d⟩ σ' = (.ok Xb, σ') ∧
      ∀ r, r ∈ X ↔ r ∈ Xa ∨ r ∈ Xb := by
  rcases hp1 : eval O c σ with ⟨err | Sc, σc⟩
  · simp [evalCompose, hp1] at hc
  · rcases hp2 : eval O (Expression.ofUnion ⟨[a, b]⟩) σc with ⟨err | S2, σb⟩
    · simp [evalCompose, hp1, hp2] at hc
    · simp only [evalCompose, hp1, hp2] at hc
      obtain ⟨hinvc, _⟩ := eval_ok O c σ σc Sc h hp1
      obtain ⟨Sa, Sb, σ1, hpa, hpb, hS2⟩ := eval_union_pair O a b σc σb S2 hp2
      obtain ⟨hinv1, hextc1⟩ := eval_ok O a σc σ1 Sa hinvc hpa
      obtain ⟨hinvb, hext1b⟩ := eval_ok O b σ1 σb Sb hinv1 hpb
      obtain ⟨_, hextb, hall, hmem⟩ := composeAll_ok O policy Sc S2 [] σb σ' X hinvb hc
      have hext1 : Ext σ1 σ' := ext_trans hext1b hextb
      have hc' := eval_stable O hrefl c σ Sc σc h hp1 σ' (ext_trans hextc1 hext1)
      have ha' := eval_stable O hrefl a σc Sa σ1 hinvc hpa σ' hext1
      have hb' := eval_stable O hrefl b σ1 Sb σb hinv1 hpb σ' hextb
      obtain ⟨Xa, hXa, hmema⟩ := evalCompose_of_cached O policy c a d σ' Sc Sa hc' ha'
        (fun r1 hr1 r2 hr2 => hall r1 hr1 r2 ((hS2 r2).2 (Or.inl hr2)))
      obtain ⟨Xb, hXb, hmemb⟩ := evalCompose_of_cached O policy c b d σ' Sc Sb hc' hb'
        (fun r1 hr1 r2 hr2 => hall r1 hr1 r2 ((hS2 r2).2 (Or.inr hr2)))
      refine ⟨Xa, Xb, hXa, hXb, ?_⟩
      intro r
      rw [hmem r, hmema r, hmemb r]
      constructor
      · rintro (hr | ⟨r1, hr1, r2, hr2, rs, hcd, hr⟩)
        · simp at hr
        · rcases (hS2 r2).1 hr2 with h2 | h2
          · exact Or.inl ⟨r1, hr1, r2, h2, rs, hcd, hr⟩
          · exact Or.inr ⟨r1, hr1, r2, h2, rs, hcd, hr⟩
      · rintro (⟨r1, hr1, r2, hr2, rs, hcd, hr⟩ | ⟨r1, hr1, r2, hr2, rs, hcd, hr⟩)
        · exact Or.inr ⟨r1, hr1, r2, (hS2 r2).2 (Or.inl hr2), rs, hcd, hr⟩
        · exact Or.inr ⟨r1, hr1, r2, (hS2 r2).2 (Or.inr hr2), rs, hcd, hr⟩

theorem ext_step (O : Oracles G R) {σ σ' : Evaluator R} (hstep : Step O σ σ') :
    Ext σ σ' := by
  cases hstep with
  | eval e => exact ext_eval O e σ
  | addRule r =>
    have h := addRule_fields O σ r
    exact ⟨addRule_database_le O σ r, by rw [h.1], ⟨[], by rw [h.1]; simp, by simp⟩,
      fun r v hv => by rw [h.2.1]; exact hv, fun k v hv => by rw [h.2.2.1]; exact hv⟩
  | giveProductStatus r =>
    have h := giveProductStatus_fields O σ r
    exact ⟨by rw [h.2.2.2], by rw [h.1], ⟨[], by rw [h.1]; simp, by simp⟩,
      fun r v hv => by rw [h.2.1]; exact hv, fun k v hv => by rw [h.2.2.1]; exact hv⟩

theorem evolves_ext (O : Oracles G R) {σ σ' : Evaluator R} (h : Evolves O σ σ') :
    Ext σ σ' := by
  induction h with
  | refl => exact ext_refl _
  | step _ hstep ih => exact ext_trans ih (ext_step O hstep)

theorem evolves_reachable (O : Oracles G R) (database : List R) {σ σ' : Evaluator R}
    (hr : Reachable O database σ) (h : Evolves O σ σ') : Reachable O database σ' := by
  induction h with
  | refl => exact hr
  | step _ hstep ih => exact Reachable.step ih hstep

theorem evaluated_settled (O : Oracles G R) (hrefl : ∀ a, O.areIsomorphic a a = true)
    (database : List R) (e : Expression G R) (X : List R) (σ : Evaluator R)
    (h : Evaluated O database e X σ) :
    CacheInv σ ∧ eval O e σ = (.ok X, σ) := by
  obtain ⟨σ0, hr, hX, hev⟩ := h
  have h0 := reachable_cacheInv O database σ0 hr
  have hσ := reachable_cacheInv O database σ
    (evolves_reachable O database (Reachable.step hr (Step.eval σ0 e)) hev)
  exact ⟨hσ, eval_stable O hrefl e σ0 X _ h0 (Prod.ext hX rfl) σ (evolves_ext O hev)⟩

theorem evalCompose_settled (O : Oracles G R) (hrefl : ∀ a, O.areIsomorphic a a = true)
    (policy : Policy) (f s : Expression G R) (d : Bool) (σ : Evaluator R) (X : List R)
    (h : CacheInv σ) (hc : evalCompose O policy ⟨f, s, d⟩ σ = (.ok X, σ)) :
    ∃ Sf Ss, eval O f σ = (.ok Sf, σ) ∧ eval O s σ = (.ok Ss, σ) ∧
      (∀ r1 ∈ Sf, ∀ r2 ∈ Ss, ∃ rs, Cached σ r1 r2 rs) ∧
      (∀ r, r ∈ X ↔ ∃ r1 ∈ Sf, ∃ r2 ∈ Ss, ∃ rs, Cached σ r1 r2 rs ∧ r ∈ rs) := by
  rcases hp1 : eval O f σ with ⟨err | Sf, σ1⟩
  · simp [evalCompose, hp1] at hc
  · rcases hp2 : eval O s σ1 with ⟨err | Ss, σ2⟩
    · simp [evalCompose, hp1, hp2] at hc
    · simp only [evalCompose, hp1, hp2] at hc
      obtain ⟨hinv1, _⟩ := eval_ok O f σ σ1 Sf h hp1
      obtain ⟨hinv2, hext2⟩ := eval_ok O s σ1 σ2 Ss hinv1 hp2
      obtain ⟨_, hext3, hall, hmem⟩ := composeAll_ok O policy Sf Ss [] σ2 σ X hinv2 hc
      have hf' := eval_stable O hrefl f σ Sf σ1 h hp1 σ (ext_trans hext2 hext3)
      have hs' := eval_stable O hrefl s σ1 Ss σ2 hinv1 hp2 σ hext3
      rw [hp1] at hf'
      refine ⟨Sf, Ss, hf', hs', hall, ?_⟩
      intro r
      rw [hmem r]
      simp

theorem eval_union_pair_settled (O : Oracles G R) (a b : Expression G R) (σ : Evaluator R)
    (Sa Sb : List R) (ha : eval O a σ = (.ok Sa, σ)) (hb : eval O b σ = (.ok Sb, σ)) :
    ∃ S, eval O (Expression.ofUnion ⟨[a, b]⟩) σ = (.ok S, σ) ∧
      ∀ r, r ∈ S ↔ r ∈ Sa ∨ r ∈ Sb := by
  refine ⟨unite (unite [] Sa) Sb, ?_, ?_⟩
  · simp [Expression.ofUnion, eval, evalUnion, ha, hb]
  · intro r
    simp [mem_unite]

theorem evalCompose_union_first_of_parts (O : Oracles G R)
    (hrefl : ∀ a, O.areIsomorphic a a = true)
    (policy : Policy) (a b c : Expression G R) (d : Bool) (σ : Evaluator R)
    (Xa Xb : List R) (h : CacheInv σ)
    (ha : evalCompose O policy ⟨a, c, d⟩ σ = (.ok Xa, σ))
    (hb : evalCompose O policy ⟨b, c, d⟩ σ = (.ok Xb, σ)) :
    ∃ X, evalCompose O policy ⟨Expression.ofUnion ⟨[a, b]⟩, c, d⟩ σ = (.ok X, σ) ∧
      ∀ r, r ∈ X ↔ r ∈ Xa ∨ r ∈ Xb := by
  obtain ⟨Sa, Sc, hSa, hSc, halla, hmema⟩ := evalCompose_settled O hrefl policy a c d σ Xa h ha
  obtain ⟨Sb, Sc', hSb, hSc', hallb, hmemb⟩ :=
    evalCompose_settled O hrefl policy b c d σ Xb h hb
  have hcc : Sc' = Sc := by
    rw [hSc] at hSc'
    simp only [Prod.mk.injEq, Except.ok.injEq, and_true] at hSc'
    exact hSc'.symm
  subst hcc
  obtain ⟨S, hS, hSmem⟩ := eval_union_pair_settled O a b σ Sa Sb hSa hSb
  obtain ⟨X, hX, hmem⟩ := evalCompose_of_cached O policy (Expression.ofUnion ⟨[a, b]⟩) c d σ
    S Sc' hS hSc
    (fun r1 hr1 r2 hr2 => ((hSmem r1).1 hr1).elim (fun h1 => halla r1 h1 r2 hr2)
      (fun h1 => hallb r1 h1 r2 hr2))
  refine ⟨X, hX, ?_⟩
  intro r
  rw [hmem r, hmema r, hmemb r]
  constructor
  · rintro ⟨r1, hr1, r2, hr2, rs, hcd, hr⟩
    rcases (hSmem r1).1 hr1 with h1 | h1
    · exact Or.inl ⟨r1, h1, r2, hr2, rs, hcd, hr⟩
    · exact Or.inr ⟨r1, h1, r2, hr2, rs, hcd, hr⟩
  · rintro (⟨r1, hr1, r2, hr2, rs, hcd, hr⟩ | ⟨r1, hr1, r2, hr2, rs, hcd, hr⟩)
    · exact ⟨r1, (hSmem r1).2 (Or.inl hr1), r2, hr2, rs, hcd, hr⟩
    · exact ⟨r1, (hSmem r1).2 (Or.inr hr1), r2, hr2, rs, hcd, hr⟩

theorem evalCompose_union_second_of_parts (O : Oracles G R)
    (hrefl : ∀ a, O.areIsomorphic a a = true)
    (policy : Policy) (a b c : Expression G R) (d : Bool) (σ : Evaluator R)
    (Xa Xb : List R) (h : CacheInv σ)
    (ha : evalCompose O policy ⟨c, a, d⟩ σ = (.ok Xa, σ))
    (hb : evalCompose O policy ⟨c, b, d⟩ σ = (.ok Xb, σ)) :
    ∃ X, evalCompose O policy ⟨c, Expression.ofUnion ⟨[a, b]⟩, d⟩ σ = (.ok X, σ) ∧
      ∀ r, r ∈ X ↔ r ∈ Xa ∨ r ∈ Xb := by
  obtain ⟨Sc, Sa, hSc, hSa, halla, hmema⟩ := evalCompose_settled O hrefl policy c a d σ Xa h ha
  obtain ⟨Sc', Sb, hSc', hSb, hallb, hmemb⟩ :=
    evalCompose_settled O hrefl policy c b d σ Xb h hb
  have hcc : Sc' = Sc := by
    rw [hSc] at hSc'
    simp only [Prod.mk.injEq, Except.ok.injEq, and_true] at hSc'
    exact hSc'.symm
  subst hcc
  obtain ⟨S, hS, hSmem⟩ := eval_union_pair_settled O a b σ Sa Sb hSa hSb
  obtain ⟨X, hX, hmem⟩ := evalCompose_of_cached O policy c (Expression.ofUnion ⟨[a, b]⟩) d σ
    Sc' S hSc hS
    (fun r1 hr1 r2 hr2 => ((hSmem r2).1 hr2).elim (fun h2 => halla r1 hr1 r2 h2)
      (fun h2 => hallb r1 hr1 r2 h2))
  refine ⟨X, hX, ?_⟩
  intro r
  rw [hmem r, hmema r, hmemb r]
  constructor
  · rintro ⟨r1, hr1, r2, hr2, rs, hcd, hr⟩
    rcases (hSmem r2).1 hr2 with h2 | h2
    · exact Or.inl ⟨r1, hr1, r2, h2, rs, hcd, hr⟩
    · exact Or.inr ⟨r1, hr1, r2, h2, rs, hcd, hr⟩
  · rintro (⟨r1, hr1, r2, hr2, rs, hcd, hr⟩ | ⟨r1, hr1, r2, hr2, rs, hcd, hr⟩)
    · exact ⟨r1, hr1, r2, (hSmem r2).2 (Or.inl hr2), rs, hcd, hr⟩
    · exact ⟨r1, hr1, r2, (hSmem r2).2 (Or.inr hr2), rs, hcd, hr⟩

theorem settled_union_first (O : Oracles G R) (hrefl : ∀ a, O.areIsomorphic a a = true)
    (policy : Policy) (a b c : Expression G R) (σ : Evaluator R) (h : CacheInv σ) :
    (∀ X, eval O (composeOf policy (Expression.ofUnion ⟨[a, b]⟩) c) σ = (.ok X, σ) →
      ∃ Xa Xb, eval O (composeOf policy a c) σ = (.ok Xa, σ) ∧
        eval O (composeOf policy b c) σ = (.ok Xb, σ) ∧ ∀ r, r ∈ X ↔ r ∈ Xa ∨ r ∈ Xb) ∧
    (∀ Xa Xb, eval O (composeOf policy a c) σ = (.ok Xa, σ) →
      eval O (composeOf policy b c) σ = (.ok Xb, σ) →
      ∃ X, eval O (composeOf policy (Expression.ofUnion ⟨[a, b]⟩) c) σ = (.ok X, σ) ∧
        ∀ r, r ∈ X ↔ r ∈ Xa ∨ r ∈ Xb) := by
  simp only [eval_composeOf]
  exact ⟨fun X hX => evalCompose_union_first O hrefl policy a b c _ σ σ X h hX,
    fun Xa Xb ha hb => evalCompose_union_first_of_parts O hrefl policy a b c _ σ Xa Xb h ha hb⟩

theorem settled_union_second (O : Oracles G R) (hrefl : ∀ a, O.areIsomorphic a a = true)
    (policy : Policy) (a b c : Expression G R) (σ : Evaluator R) (h : CacheInv σ) :
    (∀ X, eval O (composeOf policy c (Expression.ofUnion ⟨[a, b]⟩)) σ = (.ok X, σ) →
      ∃ Xa Xb, eval O (composeOf policy c a) σ = (.ok Xa, σ) ∧
        eval O (composeOf policy c b) σ = (.ok Xb, σ) ∧ ∀ r, r ∈ X ↔ r ∈ Xa ∨ r ∈ Xb) ∧
    (∀ Xa Xb, eval O (composeOf policy c a) σ = (.ok Xa, σ) →
      eval O (composeOf policy c b) σ = (.ok Xb, σ) →
      ∃ X, eval O (composeOf policy c (Expression.ofUnion ⟨[a, b]⟩)) σ = (.ok X, σ) ∧
        ∀ r, r ∈ X ↔ r ∈ Xa ∨ r ∈ Xb) := by
  simp only [eval_composeOf]
  exact ⟨fun X hX => evalCompose_union_second O hrefl policy a b c _ σ σ X h hX,
    fun Xa Xb ha hb => evalCompose_union_second_of_parts O hrefl policy a b c _ σ Xa Xb h ha hb⟩

/-- C10: composition distributes over union on both sides.  Let the identity
oracle be reflexive and let `σ` be a state of the evaluator constructed on
`database`.  If `Compose(kind, Union([a, b]), c, flags)` has been evaluated on
this evaluator and returned `X`, then in `σ` the compositions
`Compose(kind, a, c, flags)` and `Compose(kind, b, c, flags)` evaluate without
changing the state and `X` is the union of their results.  If instead the two
compositions have been evaluated and returned `Xa` and `Xb`, then in `σ` the
composition with the union evaluates without changing the state and returns
the union of `Xa` and `Xb`.  And whenever all three have been evaluated, in
whatever order and with whatever other calls in between, the result for the
union is the union of the two other results.  The same three statements hold
when the union is the second operand. -/
theorem compose_union_distributes (O : Oracles G R)
    (hrefl : ∀ a, O.areIsomorphic a a = true)
    (database : List R) (policy : Policy) (a b c : Expression G R) (σ : Evaluator R) :
    ((∀ X, Evaluated O database (composeOf policy (Expression.ofUnion ⟨[a, b]⟩) c) X σ →
        ∃ Xa Xb, eval O (composeOf policy a c) σ = (.ok Xa, σ) ∧
          eval O (composeOf policy b c) σ = (.ok Xb, σ) ∧
          ∀ r, r ∈ X ↔ r ∈ Xa ∨ r ∈ Xb) ∧
      (∀ Xa Xb, Evaluated O database (composeOf policy a c) Xa σ →
        Evaluated O database (composeOf policy b c) Xb σ →
        ∃ X, eval O (composeOf policy (Expression.ofUnion ⟨[a, b]⟩) c) σ = (.ok X, σ) ∧
          ∀ r, r ∈ X ↔ r ∈ Xa ∨ r ∈ Xb) ∧
      (∀ X Xa Xb,
        Evaluated O database (composeOf policy (Expression.ofUnion ⟨[a, b]⟩) c) X σ →
        Evaluated O database (composeOf policy a c) Xa σ →
        Evaluated O database (composeOf policy b c) Xb σ →
        ∀ r, r ∈ X ↔ r ∈ Xa ∨ r ∈ Xb)) ∧
    ((∀ X, Evaluated O database (composeOf policy c (Expression.ofUnion ⟨[a, b]⟩)) X σ →
        ∃ Xa Xb, eval O (composeOf policy c a) σ = (.ok Xa, σ) ∧
          eval O (composeOf policy c b) σ = (.ok Xb, σ) ∧
          ∀ r, r ∈ X ↔ r ∈ Xa ∨ r ∈ Xb) ∧
      (∀ Xa Xb, Evaluated O database (composeOf policy c a) Xa σ →
        Evaluated O database (composeOf policy c b) Xb σ →
        ∃ X, eval O (composeOf policy c (Expression.ofUnion ⟨[a, b]⟩)) σ = (.ok X, σ) ∧
          ∀ r, r ∈ X ↔ r ∈ Xa ∨ r ∈ Xb) ∧
      (∀ X Xa Xb,
        Evaluated O database (composeOf policy c (Expression.ofUnion ⟨[a, b]⟩)) X σ →
        Evaluated O database (composeOf policy c a) Xa σ →
        Evaluated O database (composeOf policy c b) Xb σ →
        ∀ r, r ∈ X ↔ r ∈ Xa ∨ r ∈ Xb)) := by
  refine ⟨⟨?_, ?_, ?_⟩, ⟨?_, ?_, ?_⟩⟩
  · intro X hX
    obtain ⟨hinv, hX'⟩ := evaluated_settled O hrefl database _ X σ hX
    exact (settled_union_first O hrefl policy a b c σ hinv).1 X hX'
  · intro Xa Xb ha hb
    obtain ⟨hinv, ha'⟩ := evaluated_settled O hrefl database _ Xa σ ha
    obtain ⟨_, hb'⟩ := evaluated_settled O hrefl database _ Xb σ hb
    exact (settled_union_first O hrefl policy a b c σ hinv).2 Xa Xb ha' hb'
  · intro X Xa Xb hX ha hb
    obtain ⟨hinv, hX'⟩ := evaluated_settled O hrefl database _ X σ hX
    obtain ⟨_, ha'⟩ := evaluated_settled O hrefl database _ Xa σ ha
    obtain ⟨_, hb'⟩ := evaluated_settled O hrefl database _ Xb σ hb
    obtain ⟨Ya, Yb, hYa, hYb, hmem⟩ := (settled_union_first O hrefl policy a b c σ hinv).1 X hX'
    rw [ha'] at hYa
    rw [hb'] at hYb
    simp only [Prod.mk.injEq, Except.ok.injEq, and_true] at hYa hYb
    subst hYa hYb
    exact hmem
  · intro X hX
    obtain ⟨hinv, hX'⟩ := evaluated_settled O hrefl database _ X σ hX
    exact (settled_union_second O hrefl policy a b c σ hinv).1 X hX'
  · intro Xa Xb ha hb
    obtain ⟨hinv, ha'⟩ := evaluated_settled O hrefl database _ Xa σ ha
    obtain ⟨_, hb'⟩ := evaluated_settled O hrefl database _ Xb σ hb
    exact (settled_union_second O hrefl policy a b c σ hinv).2 Xa Xb ha' hb'
  · intro X Xa Xb hX ha hb
    obtain ⟨hinv, hX'⟩ := evaluated_settled O hrefl database _ X σ hX
    obtain ⟨_, ha'⟩ := evaluated_settled O hrefl database _ Xa σ ha
    obtain ⟨_, hb'⟩ := evaluated_settled O hrefl database _ Xb σ hb
    obtain ⟨Ya, Yb, hYa, hYb, hmem⟩ := (settled_union_second O hrefl policy a b c σ hinv).1 X hX'
    rw [ha'] at hYa
    rw [hb'] at hYb
    simp only [Prod.mk.injEq, Except.ok.injEq, and_true] at hYa hYb
    subst hYa hYb
    exact hmem

end
end Evaluator
end RC

namespace RC
open RCExp
namespace Evaluator

theorem compose_union_distributes_witness :
    (eval lastDigitOracles
        (composeOf (.parallel false) (Expression.rule (some 1)) (Expression.rule (some 12)))
        (construct lastDigitOracles [])).1 = .ok [12103] ∧
    (eval lastDigitOracles
        (composeOf (.parallel false) (Expression.rule (some 2)) (Expression.rule (some 12)))
        (eval lastDigitOracles
          (composeOf (.parallel false) (Expression.rule (some 1))
            (Expression.rule (some 12)))
          (construct lastDigitOracles [])).2).1 = .ok [12103] ∧
    ∃ X,
      eval lastDigitOracles
          (composeOf (.parallel false)
            (Expression.ofUnion ⟨[Expression.rule (some 1), Expression.rule (some 2)]⟩)
            (Expression.rule (some 12)))
          (eval lastDigitOracles
            (composeOf (.parallel false) (Expression.rule (some 2))
              (Expression.rule (some 12)))
            (eval lastDigitOracles
              (composeOf (.parallel false) (Expression.rule (some 1))
                (Expression.rule (some 12)))
              (construct lastDigitOracles [])).2).2
        = (.ok X,
            (eval lastDigitOracles
              (composeOf (.parallel false) (Expression.rule (some 2))
                (Expression.rule (some 12)))
              (eval lastDigitOracles
                (composeOf (.parallel false) (Expression.rule (some 1))
                  (Expression.rule (some 12)))
                (construct lastDigitOracles [])).2).2) ∧
      ∀ r, r ∈ X ↔ r ∈ [12103] ∨ r ∈ [12103] :=
  ⟨rfl, rfl,
    (compose_union_distributes lastDigitOracles (by intro a; simp [lastDigitOracles]) []
      (.parallel false) (Expression.rule (some 1)) (Expression.rule (some 2))
      (Expression.rule (some 12)) _).1.2.1 [12103] [12103]
      ⟨construct lastDigitOracles [], Reachable.new, rfl,
        Evolves.step (Evolves.refl _) (Step.eval _ _)⟩
      ⟨(eval lastDigitOracles
          (composeOf (.parallel false) (Expression.rule (some 1))
            (Expression.rule (some 12)))
          (construct lastDigitOracles [])).2,
        Reachable.step Reachable.new (Step.eval _ _), rfl, Evolves.refl _⟩⟩

end Evaluator
end RC

namespace RC
open RCExp
namespace Evaluator
section
variable {G R : Type} [DecidableEq R]

/-! ## `checkIfNew` only looks the candidate up -/

theorem intern_eq_checkIfNew_addRule (O : Oracles G R) (σ : Evaluator R) (r : R) :
    σ.intern O r = (checkIfNew O σ r, (σ.addRule O (checkIfNew O σ r)).2) := by
  unfold intern checkIfNew
  cases hf : σ.database.find? (fun m => O.areIsomorphic m r) with
  | some m =>
    have hm : m ∈ σ.database := List.mem_of_find?_eq_some hf
    simp [addRule, hm]
  | none => rfl

/-- C11: `checkIfNew` is a `const` member function, a function of the state
that returns a rule and no new state, so database and products stay as they
were.  It returns a member of the database isomorphic to the candidate when
the database has one (the first one found) and the candidate itself otherwise;
a candidate that is not in the database is still not in it afterwards, and
it is `addRule`, called on the result, that inserts it: interning is
`checkIfNew` followed by `addRule`. -/
theorem checkIfNew_lookup_only (O : Oracles G R) (σ : Evaluator R) (rCand : R) :
    ((∃ m ∈ σ.database, O.areIsomorphic m rCand = true) →
      checkIfNew O σ rCand ∈ σ.database ∧
      O.areIsomorphic (checkIfNew O σ rCand) rCand = true) ∧
    ((∀ m ∈ σ.database, O.areIsomorphic m rCand = false) →
      checkIfNew O σ rCand = rCand) ∧
    ((∀ m ∈ σ.database, O.areIsomorphic m rCand = false) → rCand ∉ σ.database →
      rCand ∉ σ.getRuleDatabase ∧
      (σ.addRule O (checkIfNew O σ rCand)).2.getRuleDatabase = σ.getRuleDatabase ++ [rCand] ∧
      (σ.addRule O (checkIfNew O σ rCand)).2.getProducts = σ.getProducts) ∧
    σ.intern O rCand = (checkIfNew O σ rCand, (σ.addRule O (checkIfNew O σ rCand)).2) := by
  refine ⟨?_, ?_, ?_, intern_eq_checkIfNew_addRule O σ rCand⟩
  · rintro ⟨m, hm, hiso⟩
    unfold checkIfNew
    cases hf : σ.database.find? (fun m => O.areIsomorphic m rCand) with
    | some x =>
      refine ⟨List.mem_of_find?_eq_some hf, ?_⟩
      have := List.find?_some hf
      simpa using this
    | none =>
      have := List.find?_eq_none.1 hf m hm
      simp [hiso] at this
  · intro hnone
    unfold checkIfNew
    cases hf : σ.database.find? (fun m => O.areIsomorphic m rCand) with
    | some x =>
      have h1 := List.find?_some hf
      have h2 := hnone x (List.mem_of_find?_eq_some hf)
      simp only at h1
      rw [h2] at h1
      exact absurd h1 (by decide)
    | none => rfl
  · intro hnone hnot
    have hc : checkIfNew O σ rCand = rCand := by
      unfold checkIfNew
      cases hf : σ.database.find? (fun m => O.areIsomorphic m rCand) with
      | some x =>
        have h1 := List.find?_some hf
        have h2 := hnone x (List.mem_of_find?_eq_some hf)
        simp only at h1
        rw [h2] at h1
        exact absurd h1 (by decide)
      | none => rfl
    rw [hc]
    have hf : σ.database.find? (fun m => O.areIsomorphic m rCand) = none :=
      List.find?_eq_none.2 (fun x hx => by simp [hnone x hx])
    refine ⟨hnot, ?_, ?_⟩
    · simp [addRule, getRuleDatabase, hnot, hf]
    · exact (addRule_fields O σ rCand).2.2.2

end
end Evaluator
end RC

namespace RC
open RCExp
section
variable {G R : Type}

/-! ## The text of a rendering -/

theorem ostream_ext {s t : OStream} (h1 : s.buf = t.buf) (h2 : s.boolalpha = t.boolalpha) :
    s = t := by
  cases s; cases t; simp only at h1 h2; rw [h1, h2]

theorem string_empty_append (t : String) : "" ++ t = t := by
  apply String.ext
  simp [String.data_append]

theorem appends_rule (pg : G → String) (pr : R → String) (r : Option R) :
    Appends (Expression.output pg pr (.rule r)) := by
  intro s
  cases r with
  | none => simp [Expression.output]
  | some r =>
    simp only [Expression.output, OStream.write, OStream.empty, Option.map_some',
      Option.some.injEq]
    exact ostream_ext (by simp [string_empty_append]) (by simp)

theorem appends_bind (pg : G → String) (pr : R → String) (b : Bind G) :
    Appends (Expression.output pg pr (.bind b : Expression G R)) := by
  intro s
  obtain ⟨g⟩ := b
  cases g with
  | none => simp [Expression.output, Bind.output]
  | some g =>
    simp only [Expression.output, Bind.output, OStream.write, OStream.empty,
      Option.map_some', Option.some.injEq]
    exact ostream_ext (by simp [string_empty_append, String.append_assoc]) (by simp)

theorem appends_id (pg : G → String) (pr : R → String) (b : RCExp.Id G) :
    Appends (Expression.output pg pr (.id b : Expression G R)) := by
  intro s
  obtain ⟨g⟩ := b
  cases g with
  | none => simp [Expression.output, Id.output]
  | some g =>
    simp only [Expression.output, Id.output, OStream.write, OStream.empty,
      Option.map_some', Option.some.injEq]
    exact ostream_ext (by simp [string_empty_append, String.append_assoc]) (by simp)

theorem appends_unbind (pg : G → String) (pr : R → String) (b : Unbind G) :
    Appends (Expression.output pg pr (.unbind b : Expression G R)) := by
  intro s
  obtain ⟨g⟩ := b
  cases g with
  | none => simp [Expression.output, Unbind.output]
  | some g =>
    simp only [Expression.output, Unbind.output, OStream.write, OStream.empty,
      Option.map_some', Option.some.injEq]
    exact ostream_ext (by simp [string_empty_append, String.append_assoc]) (by simp)

/-- What the virtual `print` and the flag part write after the first operand,
for each kind: the infix of the kind, with `boolalpha` left on. -/
theorem print_outputFlag (policy : Policy) (f x : Expression G R) (s : OStream) :
    (match policy with
      | .common d m c =>
        ComposeBase.outputFlag d
          (ComposeCommon.print (ComposeCommon.new f x d m c) (s.write " *"))
      | .parallel d =>
        ComposeBase.outputFlag d
          (ComposeParallel.print (ComposeParallel.new f x d) (s.write " *"))
      | .sub d p =>
        ComposeBase.outputFlag d (ComposeSub.print (ComposeSub.new f x d p) (s.write " *"))
      | .super d p e =>
        ComposeBase.outputFlag d
          (ComposeSuper.print (ComposeSuper.new f x d p e) (s.write " *")))
      = ⟨s.buf ++ composeInfix policy, true⟩ := by
  have key : ∀ (a b : OStream), a.buf = b.buf → a.boolalpha = b.boolalpha → a = b :=
    fun a b h1 h2 => ostream_ext h1 h2
  rcases policy with ⟨d, m, c⟩ | ⟨d⟩ | ⟨d, p⟩ | ⟨d, p, e⟩
  · cases d <;> cases m <;> cases c <;>
      exact key _ _
        (by simp [ComposeBase.outputFlag, ComposeCommon.print, ComposeCommon.new,
          OStream.write, OStream.setBoolalpha, OStream.writeBool, OStream.boolText,
          composeInfix, flagWord, String.append_assoc]) rfl
  · cases d <;>
      exact key _ _
        (by simp [ComposeBase.outputFlag, ComposeParallel.print, ComposeParallel.new,
          OStream.write, OStream.setBoolalpha, OStream.writeBool, OStream.boolText,
          composeInfix, flagWord, String.append_assoc]) rfl
  · cases d <;> cases p <;>
      exact key _ _
        (by simp [ComposeBase.outputFlag, ComposeSub.print, ComposeSub.new,
          OStream.write, OStream.setBoolalpha, OStream.writeBool, OStream.boolText,
          composeInfix, flagWord, String.append_assoc]) rfl
  · cases d <;> cases p <;> cases e <;>
      exact key _ _
        (by simp [ComposeBase.outputFlag, ComposeSuper.print, ComposeSuper.new,
          OStream.write, OStream.setBoolalpha, OStream.writeBool, OStream.boolText,
          composeInfix, flagWord, String.append_assoc]) rfl

end
end RC

namespace RC
open RCExp
section
variable {G R : Type}

theorem appends_putText (w : String) (alpha : Bool) : Appends (putText w alpha) := by
  intro s
  simp only [putText, OStream.empty, Option.map_some', Option.some.injEq]
  exact ostream_ext (by simp [string_empty_append]) (by simp)

theorem textOf_putText (w : String) (alpha : Bool) : textOf (putText w alpha) = some w := by
  simp [textOf, putText, OStream.empty, string_empty_append]

theorem appends_andThen {f g : OStream → Option OStream} (hf : Appends f) (hg : Appends g) :
    Appends (andThen f g) := by
  intro s
  simp only [andThen]
  rw [hf s]
  cases h1 : f OStream.empty with
  | none => simp
  | some r1 =>
    simp only [Option.map_some', Option.some_bind]
    rw [hg ⟨s.buf ++ r1.buf, s.boolalpha || r1.boolalpha⟩, hg r1]
    cases h2 : g OStream.empty with
    | none => simp
    | some r2 =>
      simp only [Option.map_some', Option.some.injEq]
      exact ostream_ext (by simp [String.append_assoc]) (by simp [Bool.or_assoc])

theorem textOf_andThen {f g : OStream → Option OStream} (hg : Appends g) :
    textOf (andThen f g) = (textOf f).bind (fun t1 => (textOf g).map (fun t2 => t1 ++ t2)) := by
  simp only [textOf, andThen]
  cases h1 : f OStream.empty with
  | none => simp
  | some r1 =>
    simp only [Option.map_some', Option.some_bind]
    rw [hg r1]
    cases h2 : g OStream.empty with
    | none => simp
    | some r2 => simp

theorem composeBase_output_eq (pg : G → String) (pr : R → String)
    (print : OStream → OStream) (f x : Expression G R) (d : Bool) (w : String)
    (hprint : ∀ s : OStream,
      ComposeBase.outputFlag d (print (s.write " *")) = (⟨s.buf ++ w, true⟩ : OStream)) :
    ComposeBase.output pg pr print ⟨f, x, d⟩
      = andThen (andThen (Expression.output pg pr f) (putText w true))
          (Expression.output pg pr x) := by
  funext s
  simp only [ComposeBase.output, andThen]
  cases h1 : Expression.output pg pr f s with
  | none => simp
  | some s1 => simp [putText, hprint]

theorem union_outputLoop_cons (pg : G → String) (pr : R → String) (e : Expression G R)
    (es : List (Expression G R)) :
    Union.outputLoop pg pr (e :: es)
      = andThen (andThen (putText ", " false) (Expression.output pg pr e))
          (Union.outputLoop pg pr es) := by
  funext s
  simp only [Union.outputLoop, andThen, putText, OStream.write, Option.some_bind,
    Bool.or_false]
  cases h1 : Expression.output pg pr e ⟨s.buf ++ ", ", s.boolalpha⟩ with
  | none => simp
  | some s1 => simp

theorem union_output_cons (pg : G → String) (pr : R → String) (e : Expression G R)
    (es : List (Expression G R)) :
    Union.output pg pr ⟨e :: es⟩
      = andThen (andThen (andThen (putText "\x7b" false) (Expression.output pg pr e))
          (Union.outputLoop pg pr es)) (putText "\x7d" false) := by
  funext s
  simp only [Union.output, andThen, putText, OStream.write, Option.some_bind,
    Bool.or_false]
  cases h1 : Expression.output pg pr e ⟨s.buf ++ "\x7b", s.boolalpha⟩ with
  | none => simp
  | some s1 =>
    simp only [Option.some_bind]
    cases h2 : Union.outputLoop pg pr es s1 with
    | none => simp
    | some s2 => simp

theorem appends_outputLoop (pg : G → String) (pr : R → String)
    (es : List (Expression G R)) (hes : ∀ e ∈ es, Appends (Expression.output pg pr e)) :
    Appends (Union.outputLoop pg pr es) := by
  induction es with
  | nil =>
    intro s
    simp only [Union.outputLoop, OStream.empty, Option.map_some', Option.some.injEq]
    exact ostream_ext (by
      apply String.ext
      simp [String.data_append]) (by simp)
  | cons e es ih =>
    rw [union_outputLoop_cons]
    exact appends_andThen
      (appends_andThen (appends_putText _ _) (hes e (List.mem_cons_self _ _)))
      (ih (fun e' he' => hes e' (List.mem_cons_of_mem _ he')))

/-- Every expression's output routine appends a text that does not depend on
the stream it is written to. -/
theorem appends_output (pg : G → String) (pr : R → String) (e : Expression G R) :
    Appends (Expression.output pg pr e) := by
  induction e using expression_induction with
  | hrule r => exact appends_rule pg pr r
  | hunion exps ih =>
    cases exps with
    | nil =>
      intro s
      simp [Expression.output, Union.output]
    | cons e es =>
      have h : Expression.output pg pr (.union ⟨e :: es⟩) = Union.output pg pr ⟨e :: es⟩ := by
        funext s
        simp only [Expression.output]
      rw [h, union_output_cons]
      exact appends_andThen
        (appends_andThen
          (appends_andThen (appends_putText _ _) (ih e (List.mem_cons_self _ _)))
          (appends_outputLoop pg pr es (fun e' he' => ih e' (List.mem_cons_of_mem _ he'))))
        (appends_putText _ _)
  | hbind b => exact appends_bind pg pr b
  | hid i => exact appends_id pg pr i
  | hunbind u => exact appends_unbind pg pr u
  | hcommon f s d m c ihf ihs =>
    have h : Expression.output pg pr (.composeCommon ⟨⟨f, s, d⟩, m, c⟩)
        = ComposeBase.output pg pr (ComposeCommon.print (ComposeCommon.new f s d m c))
            ⟨f, s, d⟩ := by
      funext st
      simp only [Expression.output, ComposeCommon.new]
    rw [h, composeBase_output_eq pg pr (ComposeCommon.print (ComposeCommon.new f s d m c)) f s d _
      (fun st => print_outputFlag (.common d m c) f s st)]
    exact appends_andThen (appends_andThen ihf (appends_putText _ _)) ihs
  | hparallel f s d ihf ihs =>
    have h : Expression.output pg pr (.composeParallel ⟨⟨f, s, d⟩⟩)
        = ComposeBase.output pg pr (ComposeParallel.print (ComposeParallel.new f s d))
            ⟨f, s, d⟩ := by
      funext st
      simp only [Expression.output, ComposeParallel.new]
    rw [h, composeBase_output_eq pg pr (ComposeParallel.print (ComposeParallel.new f s d)) f s d _
      (fun st => print_outputFlag (.parallel d) f s st)]
    exact appends_andThen (appends_andThen ihf (appends_putText _ _)) ihs
  | hsub f s d p ihf ihs =>
    have h : Expression.output pg pr (.composeSub ⟨⟨f, s, d⟩, p⟩)
        = ComposeBase.output pg pr (ComposeSub.print (ComposeSub.new f s d p))
            ⟨f, s, d⟩ := by
      funext st
      simp only [Expression.output, ComposeSub.new]
    rw [h, composeBase_output_eq pg pr (ComposeSub.print (ComposeSub.new f s d p)) f s d _
      (fun st => print_outputFlag (.sub d p) f s st)]
    exact appends_andThen (appends_andThen ihf (appends_putText _ _)) ihs
  | hsuper f s d p e ihf ihs =>
    have h : Expression.output pg pr (.composeSuper ⟨⟨f, s, d⟩, p, e⟩)
        = ComposeBase.output pg pr (ComposeSuper.print (ComposeSuper.new f s d p e))
            ⟨f, s, d⟩ := by
      funext st
      simp only [Expression.output, ComposeSuper.new]
    rw [h, composeBase_output_eq pg pr (ComposeSuper.print (ComposeSuper.new f s d p e)) f s d _
      (fun st => print_outputFlag (.super d p e) f s st)]
    exact appends_andThen (appends_andThen ihf (appends_putText _ _)) ihs

end
end RC

namespace RC
open RCExp
section
variable {G R : Type}

theorem render_eq_textOf (pg : G → String) (pr : R → String) (e : Expression G R) :
    Expression.render pg pr e = textOf (Expression.output pg pr e) := rfl

theorem string_append_empty (t : String) : t ++ "" = t := by
  apply String.ext
  simp [String.data_append]

theorem intercalate_go_eq (acc : String) (ts : List String) :
    String.intercalate.go acc ", " ts = acc ++ sepText ts := by
  induction ts generalizing acc with
  | nil => simp [String.intercalate.go, sepText, string_append_empty]
  | cons t ts ih =>
    simp only [String.intercalate.go, sepText]
    rw [ih]
    simp only [String.append_assoc]

theorem intercalate_cons (t : String) (ts : List String) :
    ", ".intercalate (t :: ts) = t ++ sepText ts := by
  simp only [String.intercalate]
  exact intercalate_go_eq t ts

theorem textOf_outputLoop (pg : G → String) (pr : R → String)
    (es : List (Expression G R)) :
    textOf (Union.outputLoop pg pr es) = (renderAll pg pr es).map sepText := by
  induction es with
  | nil => simp [textOf, Union.outputLoop, renderAll, sepText, OStream.empty]
  | cons e es ih =>
    rw [union_outputLoop_cons,
      textOf_andThen (appends_outputLoop pg pr es (fun e' _ => appends_output pg pr e')),
      textOf_andThen (appends_output pg pr e), textOf_putText, ih, ← render_eq_textOf]
    simp only [renderAll]
    cases Expression.render pg pr e with
    | none => simp
    | some t =>
      cases renderAll pg pr es with
      | none => simp
      | some ts => simp [sepText, String.append_assoc]

/-- The text of a composition node: the texts of the two operands with the
infix of the kind and flags between them. -/
theorem render_composeOf (pg : G → String) (pr : R → String) (policy : Policy)
    (f x : Expression G R) :
    Expression.render pg pr (composeOf policy f x)
      = (Expression.render pg pr f).bind (fun tf =>
          (Expression.render pg pr x).map (fun tx => tf ++ composeInfix policy ++ tx)) := by
  have key : Expression.output pg pr (composeOf policy f x)
      = andThen (andThen (Expression.output pg pr f) (putText (composeInfix policy) true))
          (Expression.output pg pr x) := by
    rcases policy with ⟨d, m, c⟩ | ⟨d⟩ | ⟨d, p⟩ | ⟨d, p, e⟩
    · rw [← composeBase_output_eq pg pr (ComposeCommon.print (ComposeCommon.new f x d m c))
        f x d _ (fun st => print_outputFlag (.common d m c) f x st)]
      funext st
      simp only [composeOf, Expression.ofComposeCommon, ComposeCommon.new, Expression.output]
    · rw [← composeBase_output_eq pg pr (ComposeParallel.print (ComposeParallel.new f x d))
        f x d _ (fun st => print_outputFlag (.parallel d) f x st)]
      funext st
      simp only [composeOf, Expression.ofComposeParallel, ComposeParallel.new,
        Expression.output]
    · rw [← composeBase_output_eq pg pr (ComposeSub.print (ComposeSub.new f x d p))
        f x d _ (fun st => print_outputFlag (.sub d p) f x st)]
      funext st
      simp only [composeOf, Expression.ofComposeSub, ComposeSub.new, Expression.output]
    · rw [← composeBase_output_eq pg pr (ComposeSuper.print (ComposeSuper.new f x d p e))
        f x d _ (fun st => print_outputFlag (.super d p e) f x st)]
      funext st
      simp only [composeOf, Expression.ofComposeSuper, ComposeSuper.new, Expression.output]
  rw [render_eq_textOf, key, textOf_andThen (appends_output pg pr x),
    textOf_andThen (appends_putText _ _), textOf_putText, ← render_eq_textOf,
    ← render_eq_textOf]
  cases Expression.render pg pr f with
  | none => simp
  | some tf => simp

/-- The text of a non-empty union. -/
theorem render_union_cons (pg : G → String) (pr : R → String) (e : Expression G R)
    (es : List (Expression G R)) :
    Expression.render pg pr (.union ⟨e :: es⟩)
      = (renderAll pg pr (e :: es)).map (fun ts => "\x7b" ++ ", ".intercalate ts ++ "\x7d") := by
  have h : Expression.output pg pr (.union ⟨e :: es⟩) = Union.output pg pr ⟨e :: es⟩ := by
    funext s
    simp only [Expression.output]
  rw [render_eq_textOf, h, union_output_cons, textOf_andThen (appends_putText _ _),
    textOf_andThen (appends_outputLoop pg pr es (fun e' _ => appends_output pg pr e')),
    textOf_andThen (appends_output pg pr e), textOf_putText, textOf_putText,
    textOf_outputLoop, ← render_eq_textOf]
  simp only [renderAll]
  cases Expression.render pg pr e with
  | none => simp
  | some t =>
    cases renderAll pg pr es with
    | none => simp
    | some ts => simp [intercalate_cons, String.append_assoc]

end
end RC

namespace RC
open RCExp
section
variable {G R : Type}

/-- C12: a `Compose` node renders as the rendering of its first operand,
`" *"`, the head of its kind with the kind's own flags, `discardNonchemical`,
`")* "` and the rendering of its second operand, every flag as the word `true`
or `false`; the rendering is defined exactly when both operands render. -/
theorem render_compose (pg : G → String) (pr : R → String) (f s : Expression G R)
    (d m c p e : Bool) :
    Expression.render pg pr (Expression.ofComposeCommon (ComposeCommon.new f s d m c))
      = (Expression.render pg pr f).bind (fun tf =>
          (Expression.render pg pr s).map (fun ts =>
            tf ++ " *" ++ ("rcCommon(maximum=" ++ flagWord m ++ ", connected=" ++ flagWord c
              ++ ", ") ++ "discardNonchemical=" ++ flagWord d ++ ")* " ++ ts)) ∧
    Expression.render pg pr (Expression.ofComposeParallel (ComposeParallel.new f s d))
      = (Expression.render pg pr f).bind (fun tf =>
          (Expression.render pg pr s).map (fun ts =>
            tf ++ " *" ++ "rcParallel(" ++ "discardNonchemical=" ++ flagWord d ++ ")* "
              ++ ts)) ∧
    Expression.render pg pr (Expression.ofComposeSub (ComposeSub.new f s d p))
      = (Expression.render pg pr f).bind (fun tf =>
          (Expression.render pg pr s).map (fun ts =>
            tf ++ " *" ++ ("rcSub(allowPartial=" ++ flagWord p ++ ", ")
              ++ "discardNonchemical=" ++ flagWord d ++ ")* " ++ ts)) ∧
    Expression.render pg pr (Expression.ofComposeSuper (ComposeSuper.new f s d p e))
      = (Expression.render pg pr f).bind (fun tf =>
          (Expression.render pg pr s).map (fun ts =>
            tf ++ " *" ++ ("rcSuper(allowPartial=" ++ flagWord p ++ ", enforceConstraints="
              ++ flagWord e ++ ", ") ++ "discardNonchemical=" ++ flagWord d ++ ")* " ++ ts)) ∧
    flagWord true = "true" ∧ flagWord false = "false" := by
  refine ⟨?_, ?_, ?_, ?_, rfl, rfl⟩
  · have h := render_composeOf pg pr (.common d m c) f s
    simp only [composeOf, composeInfix, String.append_assoc] at h
    simp only [String.append_assoc]
    exact h
  · have h := render_composeOf pg pr (.parallel d) f s
    simp only [composeOf, composeInfix, String.append_assoc] at h
    simp only [String.append_assoc]
    exact h
  · have h := render_composeOf pg pr (.sub d p) f s
    simp only [composeOf, composeInfix, String.append_assoc] at h
    simp only [String.append_assoc]
    exact h
  · have h := render_composeOf pg pr (.super d p e) f s
    simp only [composeOf, composeInfix, String.append_assoc] at h
    simp only [String.append_assoc]
    exact h

theorem renderAll_forall2 (pg : G → String) (pr : R → String)
    (l : List (Expression G R)) (ts : List String) (h : renderAll pg pr l = some ts) :
    List.Forall₂ (fun e t => Expression.render pg pr e = some t) l ts := by
  induction l generalizing ts with
  | nil =>
    simp only [renderAll, Option.some.injEq] at h
    subst h
    exact List.Forall₂.nil
  | cons e es ih =>
    simp only [renderAll] at h
    cases he : Expression.render pg pr e with
    | none => simp [he] at h
    | some t =>
      cases hes : renderAll pg pr es with
      | none => simp [he, hes] at h
      | some ts' =>
        simp only [he, hes, Option.some.injEq] at h
        subst h
        exact List.Forall₂.cons he (ih ts' hes)

/-- C13: a `Union` with children `e1, ..., en`, `n ≥ 1`, renders as an opening
brace, the renderings of the children in list order separated by `", "`, and a
closing brace; `Union([e])` renders as the rendering of `e` between braces; the
texts joined are the renderings of the children, one for each child, in
order. -/
theorem render_union (pg : G → String) (pr : R → String) (e : Expression G R)
    (es : List (Expression G R)) :
    (∃ u, Union.new (e :: es) = .ok u ∧
      Expression.render pg pr (Expression.ofUnion u)
        = (renderAll pg pr (e :: es)).map
            (fun ts => "\x7b" ++ ", ".intercalate ts ++ "\x7d")) ∧
    Expression.render pg pr (Expression.ofUnion ⟨[e]⟩)
      = (Expression.render pg pr e).map (fun t => "\x7b" ++ t ++ "\x7d") ∧
    (∀ ts, renderAll pg pr (e :: es) = some ts →
      ts.length = (e :: es).length ∧
      List.Forall₂ (fun x t => Expression.render pg pr x = some t) (e :: es) ts) := by
  refine ⟨⟨⟨e :: es⟩, rfl, render_union_cons pg pr e es⟩, ?_, ?_⟩
  · have h := render_union_cons pg pr e []
    simp only [Expression.ofUnion]
    rw [h]
    simp only [renderAll]
    cases Expression.render pg pr e with
    | none => simp
    | some t => simp [String.intercalate, String.intercalate.go]
  · intro ts h
    have hf := renderAll_forall2 pg pr (e :: es) ts h
    exact ⟨hf.length_eq.symm, hf⟩

end
end RC

namespace RC
open RCExp
section
variable {G R : Type}

theorem composeOf_ne_first (policy : Policy) (a b : Expression G R) :
    composeOf policy a b ≠ a := by
  intro h
  have hs := congrArg sizeOf h
  cases policy <;>
    simp [composeOf, Expression.ofComposeCommon, Expression.ofComposeParallel,
      Expression.ofComposeSub, Expression.ofComposeSuper, ComposeCommon.new,
      ComposeParallel.new, ComposeSub.new, ComposeSuper.new] at hs <;> omega

theorem composeOf_first_eq (policy : Policy) (a b a' b' : Expression G R)
    (h : composeOf policy a b = composeOf policy a' b') : a = a' := by
  cases policy <;>
    simp [composeOf, Expression.ofComposeCommon, Expression.ofComposeParallel,
      Expression.ofComposeSub, Expression.ofComposeSuper, ComposeCommon.new,
      ComposeParallel.new, ComposeSub.new, ComposeSuper.new] at h <;> exact h.1

/-- C14: the operands of a composition are rendered without delimiters, so
`ComposeParallel(ComposeParallel(a, b, d), c, d)` and
`ComposeParallel(a, ComposeParallel(b, c, d), d)` render to the same text, and
likewise for every kind with equal flags; the two expressions are different
trees, so the rendering does not determine the tree. -/
theorem render_compose_assoc (pg : G → String) (pr : R → String) (a b c : Expression G R)
    (d : Bool) (policy : Policy) :
    Expression.render pg pr
        (Expression.ofComposeParallel (ComposeParallel.new
          (Expression.ofComposeParallel (ComposeParallel.new a b d)) c d))
      = Expression.render pg pr
        (Expression.ofComposeParallel (ComposeParallel.new a
          (Expression.ofComposeParallel (ComposeParallel.new b c d)) d)) ∧
    Expression.ofComposeParallel (ComposeParallel.new
        (Expression.ofComposeParallel (ComposeParallel.new a b d)) c d)
      ≠ Expression.ofComposeParallel (ComposeParallel.new a
        (Expression.ofComposeParallel (ComposeParallel.new b c d)) d) ∧
    Expression.render pg pr (composeOf policy (composeOf policy a b) c)
      = Expression.render pg pr (composeOf policy a (composeOf policy b c)) ∧
    composeOf policy (composeOf policy a b) c ≠ composeOf policy a (composeOf policy b c) := by
  have htext : ∀ p : Policy,
      Expression.render pg pr (composeOf p (composeOf p a b) c)
        = Expression.render pg pr (composeOf p a (composeOf p b c)) := by
    intro p
    rw [render_composeOf, render_composeOf, render_composeOf, render_composeOf]
    cases Expression.render pg pr a with
    | none => simp
    | some ta =>
      cases Expression.render pg pr b with
      | none => simp
      | some tb =>
        cases Expression.render pg pr c with
        | none => simp
        | some tc => simp [String.append_assoc]
  have hne : ∀ p : Policy,
      composeOf p (composeOf p a b) c ≠ composeOf p a (composeOf p b c) := by
    intro p h
    exact composeOf_ne_first p a b (composeOf_first_eq p _ _ _ _ h)
  exact ⟨htext (.parallel d), hne (.parallel d), htext policy, hne policy⟩

theorem composeInfix_injective (p q : Policy) (h : composeInfix p = composeInfix q) :
    p = q := by
  rcases p with ⟨x1, x2, x3⟩ | ⟨x1⟩ | ⟨x1, x2⟩ | ⟨x1, x2, x3⟩ <;>
    rcases q with ⟨y1, y2, y3⟩ | ⟨y1⟩ | ⟨y1, y2⟩ | ⟨y1, y2, y3⟩ <;>
    (try cases x1) <;> (try cases x2) <;> (try cases x3) <;>
    (try cases y1) <;> (try cases y2) <;> (try cases y3) <;>
    first
      | rfl
      | exact absurd h (by decide)

theorem string_append_cancel (u v t t' : String) (h : u ++ t ++ v = u ++ t' ++ v) :
    t = t' := by
  have hd := congrArg String.data h
  simp only [String.data_append, List.append_assoc] at hd
  have h1 := List.append_cancel_left hd
  have h2 := List.append_cancel_right h1
  exact String.ext h2

/-- C15: for fixed operands `f` and `s`, two `Compose` nodes over them that
render to the same text are of the same kind and agree on `discardNonchemical`
and on every flag of the kind. -/
theorem render_compose_determines_policy (pg : G → String) (pr : R → String)
    (f s : Expression G R) (p q : Policy) (t : String)
    (hp : Expression.render pg pr (composeOf p f s) = some t)
    (hq : Expression.render pg pr (composeOf q f s) = some t) :
    p = q ∧ composeOf p f s = composeOf q f s := by
  rw [render_composeOf] at hp hq
  cases hf : Expression.render pg pr f with
  | none => simp [hf] at hp
  | some tf =>
    cases hs : Expression.render pg pr s with
    | none => simp [hf, hs] at hp
    | some ts =>
      simp only [hf, hs, Option.some_bind, Option.map_some', Option.some.injEq] at hp hq
      have hpq : p = q :=
        composeInfix_injective p q (string_append_cancel tf ts _ _ (hp.trans hq.symm))
      exact ⟨hpq, by rw [hpq]⟩

end
end RC

namespace RC
open RCExp

theorem render_compose_determines_policy_witness :
    Expression.render (G := String) (R := String) id id
        (composeOf (.sub true false) (Expression.rule (some "a")) (Expression.rule (some "b")))
      = some "a *rcSub(allowPartial=false, discardNonchemical=true)* b" ∧
    (Policy.sub true false = Policy.sub true false ∧
      composeOf (.sub true false) (Expression.rule (some "a") : Expression String String)
          (Expression.rule (some "b"))
        = composeOf (.sub true false) (Expression.rule (some "a"))
          (Expression.rule (some "b"))) :=
  ⟨by decide,
    render_compose_determines_policy (G := String) (R := String) id id
      (Expression.rule (some "a")) (Expression.rule (some "b"))
      (.sub true false) (.sub true false)
      "a *rcSub(allowPartial=false, discardNonchemical=true)* b" (by decide) (by decide)⟩

end RC

namespace gml
namespace converter
section
variable {T A : Type}

/-! ## Terminal converters -/

theorem checkKeyAndType_key_ne {H : Type} (pv : ValueType → String) (e : Expression H)
    (kv : ast.KeyValue) (err : String) (expected : ValueType) (hk : kv.key ≠ e.key) :
    e.checkKeyAndType pv kv err expected = (false, e.errorOnKey kv err) := by
  have hb : (kv.key == e.key) = false := by simpa using hk
  simp [Expression.checkKeyAndType, Expression.checkAndErrorOnKey, Expression.checkKey, hb]

theorem checkKeyAndType_type_ne {H : Type} (pv : ValueType → String) (e : Expression H)
    (kv : ast.KeyValue) (err : String) (expected : ValueType) (hk : kv.key = e.key)
    (ht : ValueTypeVisitor kv.value.value ≠ expected) :
    e.checkKeyAndType pv kv err expected
      = (false,
          (err ++ "Error at " ++ toString kv.value.line ++ ":" ++ toString kv.value.column
            ++ ".") ++ " Expected " ++ pv expected ++ " value, got "
            ++ pv (ValueTypeVisitor kv.value.value) ++ " value.") := by
  have hb : (kv.key == e.key) = true := by simpa using hk
  simp [Expression.checkKeyAndType, Expression.checkAndErrorOnKey, Expression.checkKey, hb,
    Expression.checkAndErrorOnType, ht]

theorem checkKeyAndType_ok {H : Type} (pv : ValueType → String) (e : Expression H)
    (kv : ast.KeyValue) (err : String) (expected : ValueType) (hk : kv.key = e.key)
    (ht : ValueTypeVisitor kv.value.value = expected) :
    e.checkKeyAndType pv kv err expected = (true, err) := by
  have hb : (kv.key == e.key) = true := by simpa using hk
  simp [Expression.checkKeyAndType, Expression.checkAndErrorOnKey, Expression.checkKey, hb,
    Expression.checkAndErrorOnType, ht]

/-- A terminal whose `boost::get` succeeds on exactly the variants of its value
type meets the contract of a terminal converter. -/
theorem terminal_convert_spec (pv : ValueType → String) (e : Terminal T A)
    (inj : T → ast.Variant)
    (hget : ∀ v, ValueTypeVisitor v = e.name → ∃ x, v = inj x ∧ e.get v = some x)
    (kv : ast.KeyValue) (err : String) (parentAttr : A) :
    TerminalConvertSpec e.key e.attrHandler e.name inj kv err parentAttr
      (e.convert pv kv err parentAttr) := by
  by_cases hk : kv.key = e.key
  · by_cases ht : ValueTypeVisitor kv.value.value = e.name
    · obtain ⟨x, hx, hgx⟩ := hget _ ht
      refine ⟨true, err, e.attrHandler parentAttr x, ?_, ?_, ?_, ?_, ?_⟩
      · simp [Terminal.convert, checkKeyAndType_ok pv e.toExpression kv err e.name hk ht, hgx]
      · simp [hk, ht]
      · intro _
        exact ⟨rfl, x, hx, rfl⟩
      · intro h
        exact absurd h (by decide)
      · intro h
        exact absurd hk h
    · refine ⟨false, (e.toExpression.checkKeyAndType pv kv err e.name).2, parentAttr,
        ?_, ?_, ?_, ?_, ?_⟩
      · simp [Terminal.convert, checkKeyAndType_type_ne pv e.toExpression kv err e.name hk ht]
      · simp [ht]
      · intro h
        exact absurd h (by decide)
      · intro _
        rfl
      · intro h
        exact absurd hk h
  · refine ⟨false, e.toExpression.errorOnKey kv err, parentAttr, ?_, ?_, ?_, ?_, ?_⟩
    · simp [Terminal.convert, checkKeyAndType_key_ne pv e.toExpression kv err e.name hk]
    · simp [hk]
    · intro h
      exact absurd h (by decide)
    · intro _
      rfl
    · intro _
      rfl

/-- C16: each of the terminal converters `Int`, `Float` and `String` with key
`k` returns from `convert`; it returns true exactly when the key of `kv` is `k`
and the value of `kv` has the terminal's value type; the attribute handler is
applied once, to the parent attribute and the value of `kv`, when it returns
true, and the parent attribute is untouched when it returns false; when the
key differs the error text grows by the key error alone. -/
theorem terminal_convert_contract (pv : ValueType → String) (k : String)
    (kv : ast.KeyValue) (err : String) (parentAttr : A)
    (hi : A → Int → A) (hf : A → Float → A) (hs : A → String → A) :
    TerminalConvertSpec k hi ValueType.Int ast.Variant.int kv err parentAttr
      ((IntTerminal k hi).convert pv kv err parentAttr) ∧
    TerminalConvertSpec k hf ValueType.Float ast.Variant.float kv err parentAttr
      ((FloatTerminal k hf).convert pv kv err parentAttr) ∧
    TerminalConvertSpec k hs ValueType.String ast.Variant.string kv err parentAttr
      ((StringTerminal k hs).convert pv kv err parentAttr) := by
  refine ⟨terminal_convert_spec pv (IntTerminal k hi) _ ?_ kv err parentAttr,
    terminal_convert_spec pv (FloatTerminal k hf) _ ?_ kv err parentAttr,
    terminal_convert_spec pv (StringTerminal k hs) _ ?_ kv err parentAttr⟩
  · intro v hv
    cases v <;> simp [ValueTypeVisitor, IntTerminal] at hv ⊢
  · intro v hv
    cases v <;> simp [ValueTypeVisitor, FloatTerminal] at hv ⊢
  · intro v hv
    cases v <;> simp [ValueTypeVisitor, StringTerminal] at hv ⊢

end
end converter
end gml

namespace gml
namespace converter
section
variable {H A B : Type}

/-! ## List converters: occurrence bounds -/

theorem dispatchedTo_unique (elems : List (ListElement (Converter B))) (kv : ast.KeyValue)
    (i j : Nat) (hi : dispatchedTo elems i kv = true) (hj : dispatchedTo elems j kv = true) :
    i = j := by
  have key : ∀ a b : Nat, a < b → dispatchedTo elems a kv = true →
      dispatchedTo elems b kv = true → False := by
    intro a b hab ha hb
    unfold dispatchedTo at ha hb
    cases hea : elems[a]? with
    | none => simp [hea] at ha
    | some ea =>
      cases heb : elems[b]? with
      | none => simp [heb] at hb
      | some eb =>
        simp only [hea, heb, Bool.and_eq_true, List.all_eq_true, Bool.not_eq_true'] at ha hb
        have hmem : ea ∈ elems.take b := by
          rw [List.mem_iff_getElem?]
          exact ⟨a, by rw [List.getElem?_take]; simp [hab, hea]⟩
        have := hb.2 ea hmem
        rw [ha.1] at this
        exact absurd this (by decide)
  rcases Nat.lt_trichotomy i j with h | h | h
  · exact absurd (key i j h hi hj) id
  · exact h
  · exact absurd (key j i h hj hi) id

theorem handle_true (kv : ast.KeyValue) (elems rest : List (ListElement (Converter B))) :
    ∀ (pre : List (ListElement (Converter B))) (err : String) (attr : B)
      (count : Nat → Nat) (err1 : String) (attr1 : B) (count1 : Nat → Nat),
    elems = pre ++ rest →
    (∀ e ∈ pre, e.expr.checkKey kv.key = false) →
    ListElementHandler.handle kv pre.length rest err attr count
      = some (true, err1, attr1, count1) →
    ∃ j el, dispatchedTo elems j kv = true ∧ elems[j]? = some el ∧
      count1 = Function.update count j (count j + 1) ∧ count j + 1 ≤ el.upperBound := by
  induction rest with
  | nil =>
    intro pre err attr count err1 attr1 count1 _ _ h
    simp [ListElementHandler.handle] at h
  | cons elem rest ih =>
    intro pre err attr count err1 attr1 count1 hel hpre h
    by_cases hk : elem.expr.checkKey kv.key = true
    · have hget : elems[pre.length]? = some elem := by
        rw [hel, List.getElem?_append_right (Nat.le_refl _)]
        simp
      have hdisp : dispatchedTo elems pre.length kv = true := by
        unfold dispatchedTo
        rw [hget]
        simp only [Bool.and_eq_true, List.all_eq_true, Bool.not_eq_true']
        refine ⟨hk, ?_⟩
        intro e he
        rw [hel, List.take_left'] at he
        · exact hpre e he
        · rfl
      simp only [ListElementHandler.handle, hk, Bool.not_true, Bool.false_eq_true,
        if_false] at h
      rcases hc : elem.expr.convert kv err attr with _ | ⟨res, errc, attrc⟩
      · simp [hc] at h
      · cases res with
        | false => simp [hc] at h
        | true =>
          simp only [hc, Function.update_same, gt_iff_lt] at h
          by_cases hub : elem.upperBound < count pre.length + 1
          · simp [hub] at h
          · simp only [hub, if_false, Option.some.injEq, Prod.mk.injEq, true_and] at h
            exact ⟨pre.length, elem, hdisp, hget, h.2.2.symm, Nat.le_of_not_lt hub⟩
    · have hkf : elem.expr.checkKey kv.key = false := by simpa using hk
      simp only [ListElementHandler.handle, hkf, Bool.not_false, if_true] at h
      have hlen : (pre ++ [elem]).length = pre.length + 1 := by simp
      rw [← hlen] at h
      refine ih (pre ++ [elem]) err attr count err1 attr1 count1 (by simp [hel]) ?_ h
      intro e he
      rcases List.mem_append.1 he with he | he
      · exact hpre e he
      · rw [List.mem_singleton.1 he]
        exact hkf

theorem convertChildren_true (elems : List (ListElement (Converter B)))
    (children : List ast.KeyValue) :
    ∀ (err : String) (attr : B) (count : Nat → Nat) (err1 : String) (attr1 : B)
      (count1 : Nat → Nat),
    ListConverter.convertChildren elems children err attr count
      = some (true, err1, attr1, count1) →
    (∀ i, count1 i = count i + occurrences elems children i) ∧
    ((∀ i el, elems[i]? = some el → count i ≤ el.upperBound) →
      ∀ i el, elems[i]? = some el → count1 i ≤ el.upperBound) := by
  induction children with
  | nil =>
    intro err attr count err1 attr1 count1 h
    simp only [ListConverter.convertChildren, Option.some.injEq, Prod.mk.injEq,
      true_and] at h
    obtain ⟨_, _, rfl⟩ := h
    exact ⟨fun i => by simp [occurrences], fun hb => hb⟩
  | cons kv rest ih =>
    intro err attr count err1 attr1 count1 h
    rcases hh : ListElementHandler.handle kv 0 elems err attr count
      with _ | ⟨res, errh, attrh, counth⟩
    · simp [ListConverter.convertChildren, hh] at h
    · cases res with
      | false => simp [ListConverter.convertChildren, hh] at h
      | true =>
        simp only [ListConverter.convertChildren, hh] at h
        obtain ⟨j, el, hdisp, hget, hcount, hub⟩ :=
          handle_true kv elems elems [] err attr count errh attrh counth (by simp)
            (by simp) hh
        obtain ⟨hocc, hbound⟩ := ih errh attrh counth err1 attr1 count1 h
        refine ⟨?_, ?_⟩
        · intro i
          rw [hocc i, hcount]
          simp only [occurrences, List.countP_cons]
          by_cases hij : i = j
          · subst hij
            simp [hdisp]
            omega
          · have hnd : dispatchedTo elems i kv = false := by
              by_contra hc
              exact hij (dispatchedTo_unique elems kv i j (by simpa using hc) hdisp)
            simp [Function.update_noteq hij, hnd]
        · intro hb
          apply hbound
          intro i el' hget'
          rw [hcount]
          by_cases hij : i = j
          · subst hij
            rw [hget] at hget'
            rw [Function.update_same, ← Option.some.inj hget']
            exact hub
          · rw [Function.update_noteq hij]
            exact hb i el' hget'

theorem check_true (elems rest : List (ListElement (Converter B))) (count : Nat → Nat) :
    ∀ (pre : List (ListElement (Converter B))) (err err1 : String),
    elems = pre ++ rest →
    ListElementUpperBound.check pre.length rest err count = (true, err1) →
    ∀ i el, pre.length ≤ i → elems[i]? = some el → el.lowerBound ≤ count i := by
  induction rest with
  | nil =>
    intro pre err err1 hel _ i el hi hget
    rw [hel, List.append_nil] at hget
    have := List.getElem?_eq_none hi
    rw [this] at hget
    exact absurd hget (by simp)
  | cons elem rest ih =>
    intro pre err err1 hel h i el hi hget
    by_cases hlb : count pre.length < elem.lowerBound
    · simp [ListElementUpperBound.check, hlb] at h
    · simp only [ListElementUpperBound.check, hlb, if_false] at h
      rcases Nat.eq_or_lt_of_le hi with heq | hlt
      · have hget2 : elems[pre.length]? = some elem := by
          rw [hel, List.getElem?_append_right (Nat.le_refl _)]
          simp
        rw [← heq, hget2] at hget
        rw [← heq, ← Option.some.inj hget]
        exact Nat.le_of_not_lt hlb
      · have hlen : (pre ++ [elem]).length = pre.length + 1 := by simp
        rw [← hlen] at h
        exact ih (pre ++ [elem]) err err1 (by simp [hel]) h i el (by rw [hlen]; exact hlt)
          hget

end
end converter
end gml

namespace gml
namespace converter
section
variable {H A B : Type}

theorem checkKeyAndType_true (pv : ValueType → String) (e : Expression H)
    (kv : ast.KeyValue) (err err1 : String) (expected : ValueType)
    (h : e.checkKeyAndType pv kv err expected = (true, err1)) :
    kv.key = e.key ∧ ValueTypeVisitor kv.value.value = expected ∧ err1 = err := by
  by_cases hk : kv.key = e.key
  · by_cases ht : ValueTypeVisitor kv.value.value = expected
    · rw [checkKeyAndType_ok pv e kv err expected hk ht] at h
      exact ⟨hk, ht, (Prod.mk.inj h).2.symm⟩
    · rw [checkKeyAndType_type_ne pv e kv err expected hk ht] at h
      exact absurd (Prod.mk.inj h).1 (by decide)
  · rw [checkKeyAndType_key_ne pv e kv err expected hk] at h
    exact absurd (Prod.mk.inj h).1 (by decide)

theorem checkKeyAndType_false (pv : ValueType → String) (e : Expression H)
    (kv : ast.KeyValue) (err : String) (expected : ValueType) (res : Bool) (err1 : String)
    (h : e.checkKeyAndType pv kv err expected = (res, err1)) (hres : res = false) :
    kv.key ≠ e.key ∨ ValueTypeVisitor kv.value.value ≠ expected := by
  by_cases hk : kv.key = e.key
  · by_cases ht : ValueTypeVisitor kv.value.value = expected
    · rw [checkKeyAndType_ok pv e kv err expected hk ht] at h
      rw [hres] at h
      exact absurd (Prod.mk.inj h).1 (by decide)
    · exact Or.inr ht
  · exact Or.inl hk

/-- What a `List::convert` that returned true has done. -/
theorem list_convert_true (pv : ValueType → String) (l : ListConverter H A B)
    (kv : ast.KeyValue) (err : String) (parentAttr : A) (err1 : String) (attr1 : A)
    (h : l.convert pv kv err parentAttr = some (true, err1, attr1)) :
    ∃ children err2 attr count,
      kv.key = l.key ∧ kv.value.value = ast.Variant.list children ∧
      ListConverter.convertChildren l.elems children err
          ((l.ourAttr l.attrHandler).getAttr parentAttr) (fun _ => 0)
        = some (true, err2, attr, count) ∧
      ListElementUpperBound.check 0 l.elems err2 count = (true, err1) ∧
      attr1 = (l.ourAttr l.attrHandler).assignToParent
        ((l.ourAttr l.attrHandler).written parentAttr attr) attr := by
  unfold ListConverter.convert at h
  rcases hck : l.toExpression.checkKeyAndType pv kv err ValueType.List with ⟨res, errk⟩
  cases res with
  | false => simp [hck] at h
  | true =>
    obtain ⟨hk, _, rfl⟩ := checkKeyAndType_true pv l.toExpression kv err errk _ hck
    simp only [hck, Bool.not_true, Bool.false_eq_true, if_false] at h
    cases hv : kv.value.value with
    | int i => simp [hv] at h
    | float d => simp [hv] at h
    | string s => simp [hv] at h
    | list children =>
      simp only [hv] at h
      rcases hcc : ListConverter.convertChildren l.elems children errk
          ((l.ourAttr l.attrHandler).getAttr parentAttr) (fun _ => 0)
        with _ | ⟨resc, err2, attr, count⟩
      · simp [hcc] at h
      · cases resc with
        | false => simp [hcc] at h
        | true =>
          simp only [hcc] at h
          rcases hch : ListElementUpperBound.check 0 l.elems err2 count with ⟨res2, err3⟩
          cases res2 with
          | false => simp [hch] at h
          | true =>
            simp only [hch, Bool.not_true, Bool.false_eq_true, if_false, Option.some.injEq,
              Prod.mk.injEq, true_and] at h
            exact ⟨children, err2, attr, count, hk, rfl, hcc, by rw [hch, h.1], h.2.symm⟩

/-- What a `List::convert` that returned false has left of the parent
attribute: the parent attribute itself, or what the children wrote through
`getAttr()`. -/
theorem list_convert_false (pv : ValueType → String) (l : ListConverter H A B)
    (kv : ast.KeyValue) (err : String) (parentAttr : A) (err1 : String) (attr1 : A)
    (h : l.convert pv kv err parentAttr = some (false, err1, attr1)) :
    attr1 = parentAttr ∨ ∃ attr, attr1 = (l.ourAttr l.attrHandler).written parentAttr attr := by
  unfold ListConverter.convert at h
  rcases hck : l.toExpression.checkKeyAndType pv kv err ValueType.List with ⟨res, errk⟩
  cases res with
  | false =>
    simp only [hck, Bool.not_false, if_true, Option.some.injEq, Prod.mk.injEq, true_and] at h
    exact Or.inl h.2.symm
  | true =>
    simp only [hck, Bool.not_true, Bool.false_eq_true, if_false] at h
    cases hv : kv.value.value with
    | int i => simp [hv] at h
    | float d => simp [hv] at h
    | string s => simp [hv] at h
    | list children =>
      simp only [hv] at h
      rcases hcc : ListConverter.convertChildren l.elems children errk
          ((l.ourAttr l.attrHandler).getAttr parentAttr) (fun _ => 0)
        with _ | ⟨resc, err2, attr, count⟩
      · simp [hcc] at h
      · cases resc with
        | false =>
          simp only [hcc, Option.some.injEq, Prod.mk.injEq, true_and] at h
          exact Or.inr ⟨attr, h.2.symm⟩
        | true =>
          simp only [hcc] at h
          rcases hch : ListElementUpperBound.check 0 l.elems err2 count with ⟨res2, err3⟩
          cases res2 with
          | false =>
            simp only [hch, Bool.not_false, if_true, Option.some.injEq, Prod.mk.injEq,
              true_and] at h
            exact Or.inr ⟨attr, h.2.symm⟩
          | true => simp [hch] at h

/-- C17: if `List::convert` returns true, the value of `kv` is a list and for
every element `i` of the converter the number of children that go to it (those
whose key is the key of element `i` and of no earlier element) lies between the
element's `lowerBound` and `upperBound`; so a converter that accepts some input
has `lowerBound ≤ upperBound` on every element. -/
theorem list_convert_occurrences (pv : ValueType → String) (l : ListConverter H A B)
    (kv : ast.KeyValue) (err : String) (parentAttr : A) (err1 : String) (attr1 : A)
    (h : l.convert pv kv err parentAttr = some (true, err1, attr1)) :
    (∃ children, kv.value.value = ast.Variant.list children ∧
      ∀ i el, l.elems[i]? = some el →
        el.lowerBound ≤ occurrences l.elems children i ∧
        occurrences l.elems children i ≤ el.upperBound) ∧
    (∀ el ∈ l.elems, el.lowerBound ≤ el.upperBound) := by
  obtain ⟨children, err2, attr, count, _, hv, hcc, hch, _⟩ :=
    list_convert_true pv l kv err parentAttr err1 attr1 h
  obtain ⟨hocc, hub⟩ := convertChildren_true l.elems children err _ _ err2 attr count hcc
  have hbounds : ∀ i el, l.elems[i]? = some el →
      el.lowerBound ≤ occurrences l.elems children i ∧
      occurrences l.elems children i ≤ el.upperBound := by
    intro i el hget
    have h1 := check_true l.elems l.elems count [] err2 err1 (by simp) hch i el
      (Nat.zero_le _) hget
    have h2 := hub (fun _ _ _ => Nat.zero_le _) i el hget
    have h3 := hocc i
    simp only [Nat.zero_add] at h3
    rw [h3] at h1 h2
    exact ⟨h1, h2⟩
  refine ⟨⟨children, hv, hbounds⟩, ?_⟩
  intro el hel
  obtain ⟨i, hi⟩ := List.mem_iff_getElem?.1 hel
  exact Nat.le_trans (hbounds i el hi).1 (hbounds i el hi).2

theorem list_convert_occurrences_witness :
    sampleNode.convert sampleValueTypeText sampleNodeValue "" [] = some (true, "", [[3, 4]]) ∧
    (∃ children, sampleNodeValue.value.value = ast.Variant.list children ∧
      ∀ i el, sampleNode.elems[i]? = some el →
        el.lowerBound ≤ occurrences sampleNode.elems children i ∧
        occurrences sampleNode.elems children i ≤ el.upperBound) :=
  ⟨by decide,
    (list_convert_occurrences sampleValueTypeText sampleNode sampleNodeValue "" [] ""
      [[3, 4]] (by decide)).1⟩

/-- C18: a list converter whose attribute type is a value type of its own
applies its attribute handler once, to the untouched parent attribute and the
attribute its children built, after every child was converted and the lower
bounds were checked, when `convert` returns true; when `convert` returns false
the parent attribute is as it was. -/
theorem list_convert_own_attr (pv : ValueType → String) (key : String)
    (attrHandler : A → B → A) (init : B) (elems : List (ListElement (Converter B)))
    (kv : ast.KeyValue) (err : String) (parentAttr : A) :
    (∀ err1 attr1,
      (ListConverter.ofType key attrHandler init elems).convert pv kv err parentAttr
        = some (true, err1, attr1) →
      ∃ children err2 attr count,
        kv.value.value = ast.Variant.list children ∧
        ListConverter.convertChildren elems children err init (fun _ => 0)
          = some (true, err2, attr, count) ∧
        ListElementUpperBound.check 0 elems err2 count = (true, err1) ∧
        attr1 = attrHandler parentAttr attr) ∧
    (∀ err1 attr1,
      (ListConverter.ofType key attrHandler init elems).convert pv kv err parentAttr
        = some (false, err1, attr1) →
      attr1 = parentAttr) := by
  constructor
  · intro err1 attr1 h
    obtain ⟨children, err2, attr, count, _, hv, hcc, hch, ha⟩ :=
      list_convert_true pv _ kv err parentAttr err1 attr1 h
    exact ⟨children, err2, attr, count, hv, hcc, hch, ha⟩
  · intro err1 attr1 h
    rcases list_convert_false pv _ kv err parentAttr err1 attr1 h with h1 | ⟨attr, h1⟩
    · exact h1
    · exact h1

end
end converter
end gml
